import Mathlib

/-!
# zjson: the document tree built from a decoded JSON value

A shallow embedding of `node.go`, `type.go` and `json.go`.  Go pointers `*Node` are
addresses into an explicit heap (a list of node records, `nil` is `none`);
`parseValue` is a heap transformer; every operation that can fail at run time
in Go (nil dereference, failed type assertion, index or slice bounds) returns
`Except Panic`.
-/

namespace Zjson

/-! ## Go values -/

/-- A Go `string`: an immutable sequence of bytes. -/
abbrev GoString := List Nat

/-- A string literal of ASCII characters, as its bytes. -/
def ascii (s : String) : GoString := s.toList.map Char.toNat

/-- A Go `float64`, kept as its IEEE-754 bit pattern. -/
structure Float64 where
  bits : Nat
deriving DecidableEq, Repr

/-- The dynamic value behind an `interface{}` as the standard decoder produces
it: `nil`, `bool`, `float64`, `string`, `[]interface{}` or
`map[string]interface{}`.  A map is kept as its entries in the order in which
`range` enumerates them. -/
inductive Value where
  | null
  | bool (b : Bool)
  | num (f : Float64)
  | str (s : GoString)
  | arr (xs : List Value)
  | obj (m : List (GoString × Value))

/-- Run-time failures of the Go program. -/
inductive Panic where
  | nilDereference
  | typeAssertion
  | indexOutOfRange
  | sliceBounds
deriving DecidableEq, Repr

/-- The keys of a map, in enumeration order (`for key := range v`). -/
def mapKeys {α : Type} (m : List (GoString × α)) : List GoString := m.map Prod.fst

/-- The comma-ok lookup `v, ok := m[key]`. -/
def mapLookup {α : Type} : List (GoString × α) → GoString → Option α
  | [], _ => none
  | (k, v) :: ms, key => if k = key then some v else mapLookup ms key

/-- The lookup `m[key]` on a `map[string]interface{}`: the zero value `nil`
when the key is absent. -/
def mapGet (m : List (GoString × Value)) (key : GoString) : Value :=
  (mapLookup m key).getD Value.null

/-- The assignment `m[key] = v`. -/
def mapSet {α : Type} : List (GoString × α) → GoString → α → List (GoString × α)
  | [], key, v => [(key, v)]
  | (k, w) :: ms, key, v => if k = key then (k, v) :: ms else (k, w) :: mapSet ms key v

/-- A decoded value is well formed when no map, at any depth, holds a key
twice: a Go map has one entry per key. -/
def Value.WF : Value → Prop
  | .arr xs => WFList xs
  | .obj m => (mapKeys m).Nodup ∧ WFMembers m
  | _ => True
where
  /-- Every element of a sequence is well formed. -/
  WFList : List Value → Prop
    | [] => True
    | x :: xs => Value.WF x ∧ WFList xs
  /-- Every member value of a map is well formed. -/
  WFMembers : List (GoString × Value) → Prop
    | [] => True
    | (_, v) :: ms => Value.WF v ∧ WFMembers ms

/-! ## Strings: comparison, sorting, formatting -/

/-- The comparison `a < b` of Go strings: byte-wise lexicographic. -/
def strLess : GoString → GoString → Bool
  | [], [] => false
  | [], _ :: _ => true
  | _ :: _, [] => false
  | a :: as, b :: bs => if a < b then true else if b < a then false else strLess as bs

/-- The order `a <= b` of Go strings. -/
def strLe (a b : GoString) : Prop := strLess b a = false

instance strLe.decidable : DecidableRel strLe := fun a b =>
  inferInstanceAs (Decidable (strLess b a = false))

/-- The call `sort.Strings(keys)` of the standard library: the keys in
increasing order.  Written as an insertion sort; the sorted list of a list of
keys is unique, so the algorithm does not matter. -/
def sortStrings (keys : List GoString) : List GoString := keys.insertionSort strLe

/-- The digits of `fmt.Sprintf("%d", n)` for a non-negative `n`, most
significant first, prepended to `acc`. -/
def decimalAux : Nat → Nat → GoString → GoString
  | 0, _, acc => acc
  | fuel + 1, n, acc =>
    if n < 10 then (48 + n) :: acc
    else decimalAux fuel (n / 10) ((48 + n % 10) :: acc)

/-- The text `fmt.Sprintf("%d", n)` for a non-negative `n`. -/
def decimal (n : Nat) : GoString := decimalAux (n + 1) n []

/-! ## Nodes and the heap -/

/-- The constants of `type.go`. -/
inductive NodeType where
  | Null
  | Boolean
  | Number
  | String
  | Array
  | Object
deriving DecidableEq, Repr

/-- A `*Node`: `none` is `nil`, `some a` is the address `a`. -/
abbrev Ptr := Option Nat

/-- The struct `Node`; the field `Type` is written `Typ`.  The defaults are Go's
zero values. -/
structure Node where
  Parent : Ptr := none
  FirstChild : Ptr := none
  LastChild : Ptr := none
  PrevSibling : Ptr := none
  NextSibling : Ptr := none
  Array : Option (List Ptr) := none
  Object : Option (List (GoString × Ptr)) := none
  Typ : NodeType := NodeType.Null
  Path : GoString := []
  Key : GoString := []
  RawValue : Value := Value.null
  Level : Int := 0

/-- The allocated nodes; the address of a node is its position. -/
abbrev Heap := List Node

/-- Reading through a pointer. -/
def deref (h : Heap) (p : Ptr) : Except Panic Node :=
  match p with
  | none => .error .nilDereference
  | some a =>
    match h[a]? with
    | some nd => .ok nd
    | none => .error .nilDereference

/-- Writing fields through a pointer. -/
def store (h : Heap) (p : Ptr) (f : Node → Node) : Except Panic Heap :=
  match p with
  | none => .error .nilDereference
  | some a =>
    match h[a]? with
    | some nd => .ok (h.set a (f nd))
    | none => .error .nilDereference

/-- The allocation `&Node{...}`. -/
def new (h : Heap) (nd : Node) : Heap × Ptr := (h ++ [nd], some h.length)

/-- The assignment `s[i] = v` on a slice. -/
def sliceSet {α : Type} (s : List α) (i : Nat) (v : α) : Except Panic (List α) :=
  if i < s.length then .ok (s.set i v) else .error .indexOutOfRange

/-! ## Loading: `parseValue` -/

/-- The closure `setRelation` of `parseValue`, with its captured `node`. -/
def setRelation (node n : Ptr) (h : Heap) : Except Panic Heap := do
  let h ← store h n (fun nd => { nd with Parent := node })
  let nodeV ← deref h node
  if nodeV.FirstChild = none then
    let h ← store h node (fun nd => { nd with FirstChild := n })
    store h node (fun nd => { nd with LastChild := n })
  else
    let t := nodeV.LastChild
    let h ← store h t (fun nd => { nd with NextSibling := n })
    let h ← store h n (fun nd => { nd with PrevSibling := t })
    store h node (fun nd => { nd with LastChild := n })

/-- The assignment `node.Array[i] = n`. -/
def setArrayElem (node : Ptr) (i : Nat) (n : Ptr) (h : Heap) : Except Panic Heap := do
  let nodeV ← deref h node
  match nodeV.Array with
  | none => .error .indexOutOfRange
  | some s =>
    let s ← sliceSet s i n
    store h node (fun nd => { nd with Array := some s })

/-- The assignment `node.Object[key] = n`; assigning into a nil map fails. -/
def setObjectEntry (node : Ptr) (key : GoString) (n : Ptr) (h : Heap) : Except Panic Heap := do
  let nodeV ← deref h node
  match nodeV.Object with
  | none => .error .nilDereference
  | some m => store h node (fun nd => { nd with Object := some (mapSet m key n) })

/-- The loop `for _, key := range keys` of the map case.  `parse key` is the
call `parseValue(v[key], ·)`. -/
def objectLoop (node : Ptr) (v : List (GoString × Value))
    (parse : GoString → Ptr → Heap → Except Panic Heap) :
    List GoString → Heap → Except Panic Heap
  | [], h => .ok h
  | key :: keys, h => do
    let child := mapGet v key
    let nodeV ← deref h node
    let (h, n) := new h
      { Path := 47 :: key, Key := key, RawValue := child, Level := nodeV.Level + 1 }
    let nV ← deref h n
    let h ← if nV.Level > 1 then
        (do let nodeV ← deref h node
            let nV ← deref h n
            store h n (fun nd => { nd with Path := nodeV.Path ++ nV.Path }))
      else .ok h
    let h ← setRelation node n h
    let h ← parse key n h
    let h ← setObjectEntry node key n h
    objectLoop node v parse keys h

/-- The branch `case nil` of the type switch of `parseValue`. -/
def parseNil (node : Ptr) (h : Heap) : Except Panic Heap :=
  store h node (fun nd => { nd with Typ := NodeType.Null })

mutual
/-- The function `parseValue(x, node)`. -/
def parseValue : Value → Ptr → Heap → Except Panic Heap
  | .null, node, h => parseNil node h
  | .bool _, node, h => store h node (fun nd => { nd with Typ := NodeType.Boolean })
  | .num _, node, h => store h node (fun nd => { nd with Typ := NodeType.Number })
  | .str _, node, h => store h node (fun nd => { nd with Typ := NodeType.String })
  | .arr v, node, h => do
    let h ← store h node (fun nd => { nd with Typ := NodeType.Array })
    let h ← store h node (fun nd => { nd with Array := some (List.replicate v.length none) })
    arrayLoop v node 0 h
  | .obj v, node, h => do
    let h ← store h node (fun nd => { nd with Typ := NodeType.Object })
    let h ← store h node (fun nd => { nd with Object := some [] })
    let keys := sortStrings (mapKeys v)
    objectLoop node v (parseMember v) keys h
/-- The loop `for i, child := range v` of the slice case, from index `i` on. -/
def arrayLoop : List Value → Ptr → Nat → Heap → Except Panic Heap
  | [], _, _, h => .ok h
  | child :: rest, node, i, h => do
    let nodeV ← deref h node
    let (h, n) := new h
      { Path := nodeV.Path ++ 91 :: decimal i ++ [93], RawValue := child,
        Level := nodeV.Level + 1 }
    let h ← setRelation node n h
    let h ← parseValue child n h
    let h ← setArrayElem node i n h
    arrayLoop rest node (i + 1) h
/-- The call `parseValue(v[key], ·)` of the map case: `parseValue` of the
value stored under `key`, of `nil` (the branch `case nil`) when there is none. -/
def parseMember : List (GoString × Value) → GoString → Ptr → Heap → Except Panic Heap
  | [], _ => parseNil
  | (k, x) :: ms, key => if k = key then parseValue x else parseMember ms key
end

/-- The tree-building part of `LoadReader`, after a successful decode to `x`:
the root is allocated at address 0. -/
def LoadValue (x : Value) : Except Panic Heap :=
  let (h, node) := new [] { Path := [47], RawValue := x, Level := 0 }
  parseValue x node h

/-- The root of a loaded tree. -/
def root : Ptr := some 0


/-! ## Accessors -/

/-- The type assertion `x.(bool)`. -/
def assertBool : Value → Except Panic Bool
  | .bool b => .ok b
  | _ => .error .typeAssertion

/-- The type assertion `x.(float64)`. -/
def assertFloat64 : Value → Except Panic Float64
  | .num f => .ok f
  | _ => .error .typeAssertion

/-- The type assertion `x.(string)`. -/
def assertString : Value → Except Panic GoString
  | .str s => .ok s
  | _ => .error .typeAssertion

/-- The type assertion `x.([]interface{})`. -/
def assertSlice : Value → Except Panic (List Value)
  | .arr xs => .ok xs
  | _ => .error .typeAssertion

/-- The type assertion `x.(map[string]interface{})`. -/
def assertMap : Value → Except Panic (List (GoString × Value))
  | .obj m => .ok m
  | _ => .error .typeAssertion

/-- The index expression `s[i]`. -/
def sliceIndex {α : Type} (s : List α) (i : Int) : Except Panic α :=
  if 0 ≤ i then
    match s[i.toNat]? with
    | some v => .ok v
    | none => .error .indexOutOfRange
  else .error .indexOutOfRange

/-- The slice expression `s[lo:hi]`, checked against the length of `s` (Go
checks `hi` against the capacity, which is at least the length). -/
def sliceExpr {α : Type} (s : List α) (lo hi : Int) : Except Panic (List α) :=
  if 0 ≤ lo ∧ lo ≤ hi ∧ hi ≤ s.length then .ok ((s.drop lo.toNat).take (hi - lo).toNat)
  else .error .sliceBounds

/-- The method `GetBool`. -/
def GetBool (h : Heap) (n : Ptr) (dflt : List Bool) : Except Panic Bool := do
  let nd ← deref h n
  if nd.Typ = NodeType.Boolean then assertBool nd.RawValue
  else if dflt.length > 0 then sliceIndex dflt 0
  else .ok false

/-- The method `GetFloat64`. -/
def GetFloat64 (h : Heap) (n : Ptr) (dflt : List Float64) : Except Panic Float64 := do
  let nd ← deref h n
  if nd.Typ = NodeType.Number then assertFloat64 nd.RawValue
  else if dflt.length > 0 then sliceIndex dflt 0
  else .ok ⟨0⟩

/-- The method `GetInt`; `toInt` is the conversion `int(f)` of a `float64`. -/
def GetInt (toInt : Float64 → Int) (h : Heap) (n : Ptr) (dflt : List Int) :
    Except Panic Int := do
  let nd ← deref h n
  if nd.Typ = NodeType.Number then
    let f ← assertFloat64 nd.RawValue
    .ok (toInt f)
  else if dflt.length > 0 then sliceIndex dflt 0
  else .ok 0

/-- The method `GetString`. -/
def GetString (h : Heap) (n : Ptr) (dflt : List GoString) : Except Panic GoString := do
  let nd ← deref h n
  if nd.Typ = NodeType.String then assertString nd.RawValue
  else if dflt.length > 0 then sliceIndex dflt 0
  else .ok []

/-- The method `GetArray`; `none` is the nil slice. -/
def GetArray (h : Heap) (n : Ptr) (dflt : List (Option (List Value))) :
    Except Panic (Option (List Value)) := do
  let nd ← deref h n
  if nd.Typ = NodeType.Array then
    let s ← assertSlice nd.RawValue
    .ok (some s)
  else if dflt.length > 0 then sliceIndex dflt 0
  else .ok none

/-- The method `GetSlice`; `none` is the nil slice. -/
def GetSlice (h : Heap) (n : Ptr) (start end_ : Int) (dflt : List (Option (List Value))) :
    Except Panic (Option (List Value)) := do
  let nd ← deref h n
  if nd.Typ ≠ NodeType.Array then
    if dflt.length > 0 then sliceIndex dflt 0
    else .ok none
  else
    let s ← assertSlice nd.RawValue
    if start ≥ end_ ∨ start ≥ s.length ∨ end_ ≤ 0 then .ok (some [])
    else
      let start := if start < 0 then 0 else start
      let end_ := if end_ > s.length then (s.length : Int) else end_
      let r ← sliceExpr s start end_
      .ok (some r)

/-- The method `GetIndex`; `Value.null` is the nil interface. -/
def GetIndex (h : Heap) (n : Ptr) (i : Int) (dflt : List Value) : Except Panic Value := do
  let nd ← deref h n
  let rest : Except Panic Value :=
    if dflt.length > 0 then sliceIndex dflt 0 else .ok Value.null
  if nd.Typ = NodeType.Array then
    let v ← assertSlice nd.RawValue
    if i ≥ 0 ∧ i < v.length then sliceIndex v i
    else rest
  else rest

/-- The method `GetObject`; `none` is the nil map. -/
def GetObject (h : Heap) (n : Ptr) (dflt : List (Option (List (GoString × Value)))) :
    Except Panic (Option (List (GoString × Value))) := do
  let nd ← deref h n
  if nd.Typ = NodeType.Object then
    let m ← assertMap nd.RawValue
    .ok (some m)
  else if dflt.length > 0 then sliceIndex dflt 0
  else .ok none

/-- The method `GetObjectValue`; `Value.null` is the nil interface. -/
def GetObjectValue (h : Heap) (n : Ptr) (key : GoString) (dflt : List Value) :
    Except Panic Value := do
  let nd ← deref h n
  let rest : Except Panic Value :=
    if dflt.length > 0 then sliceIndex dflt 0 else .ok Value.null
  if nd.Typ = NodeType.Object then
    let m ← assertMap nd.RawValue
    match mapLookup m key with
    | some v => .ok v
    | none => rest
  else rest

/-- The method `GetCount`. -/
def GetCount (h : Heap) (n : Ptr) : Except Panic Int := do
  let nd ← deref h n
  if nd.Typ = NodeType.Array then
    let s ← assertSlice nd.RawValue
    .ok (s.length : Int)
  else if nd.Typ = NodeType.Object then
    let m ← assertMap nd.RawValue
    .ok (m.length : Int)
  else .ok 0

/-- The length `len(n.Array)`: 0 for the nil slice. -/
def arrayLen (nd : Node) : Nat := (nd.Array.getD []).length

/-- The method `Slice`; `none` is the nil slice. -/
def Slice (h : Heap) (n : Ptr) (start end_ : Int) : Except Panic (Option (List Ptr)) := do
  let nd ← deref h n
  if nd.Typ ≠ NodeType.Array then .ok none
  else if start ≥ end_ ∨ start ≥ arrayLen nd ∨ end_ ≤ 0 then .ok (some [])
  else
    let start := if start < 0 then 0 else start
    let end_ := if end_ > arrayLen nd then (arrayLen nd : Int) else end_
    let r ← sliceExpr (nd.Array.getD []) start end_
    .ok (some r)

/-- The method `Index`. -/
def Index (h : Heap) (n : Ptr) (i : Int) : Except Panic Ptr := do
  let nd ← deref h n
  if nd.Typ = NodeType.Array then
    if i ≥ 0 ∧ i < arrayLen nd then sliceIndex (nd.Array.getD []) i
    else .ok none
  else .ok none

/-! ## Rendering and formatting -/

/-- A Go `error`: `none` is nil. -/
abbrev GoError := Option GoString

/-- The variable `DefaultPrettyFormatIndent` of `json.go`, three spaces. -/
def DefaultPrettyFormatIndent : GoString := ascii "   "

/-- The method `ToJsonText`.  The standard library enters as parameters:
`sprintfG v` is `fmt.Sprintf("%g", v)`, `sprintfQ v` is `fmt.Sprintf("%q", v)`,
`marshal v` is what `json.Marshal(&v)` returns and `marshalIndent v pre ind`
what `json.MarshalIndent(&v, pre, ind)` returns. -/
def ToJsonText (sprintfG sprintfQ : Value → GoString)
    (marshal : Value → GoString × GoError)
    (marshalIndent : Value → GoString → GoString → GoString × GoError)
    (h : Heap) (n : Ptr) (pretty : Bool) : Except Panic GoString := do
  let nd ← deref h n
  match nd.Typ with
  | NodeType.Null => .ok (ascii "null")
  | NodeType.Boolean =>
    let b ← assertBool nd.RawValue
    if b then .ok (ascii "true") else .ok (ascii "false")
  | NodeType.Number => .ok (sprintfG nd.RawValue)
  | NodeType.String => .ok (sprintfQ nd.RawValue)
  | _ =>
    if pretty then .ok (marshalIndent nd.RawValue [] DefaultPrettyFormatIndent).1
    else .ok (marshal nd.RawValue).1

/-- The function `JsonPrettyBytes`; `jsonIndent bs pre ind` is what
`json.Indent(&out, bs, pre, ind)` writes to `out`, and the error it returns. -/
def JsonPrettyBytes (jsonIndent : GoString → GoString → GoString → GoString × GoError)
    (bs indent : GoString) : GoString × GoError :=
  let indent := if indent = [] then DefaultPrettyFormatIndent else indent
  jsonIndent bs [] indent

/-- The function `JsonPretty`; `string2Bytes(&s)` is the bytes of `s`. -/
def JsonPretty (jsonIndent : GoString → GoString → GoString → GoString × GoError)
    (s indent : GoString) : GoString × GoError :=
  JsonPrettyBytes jsonIndent s indent

/-- The function `JsonFormatObj`; `marshalIndent v pre ind` is what
`json.MarshalIndent(v, pre, ind)` returns. -/
def JsonFormatObj {α : Type} (marshalIndent : α → GoString → GoString → GoString × GoError)
    (v : α) (indent : GoString) : GoString × GoError :=
  marshalIndent v [] indent

/-! ## The shape of a loaded heap -/

/-- The type tag the type switch of `parseValue` assigns to a value. -/
def shapeType : Value → NodeType
  | .null => NodeType.Null
  | .bool _ => NodeType.Boolean
  | .num _ => NodeType.Number
  | .str _ => NodeType.String
  | .arr _ => NodeType.Array
  | .obj _ => NodeType.Object

/-- The fields the loader fixes when it allocates a child. -/
structure ChildSpec where
  Key : GoString
  Path : GoString
  RawValue : Value

/-- The children the slice case allocates for the elements from index `i` on. -/
def arraySpecs (path : GoString) : Nat → List Value → List ChildSpec
  | _, [] => []
  | i, x :: xs => ⟨[], path ++ 91 :: decimal i ++ [93], x⟩ :: arraySpecs path (i + 1) xs

/-- The path the map case gives the member `key` of a node at `level`. -/
def memberPath (level : Int) (path key : GoString) : GoString :=
  if level + 1 > 1 then path ++ 47 :: key else 47 :: key

/-- The children the map case allocates for `keys`. -/
def objectSpecs (level : Int) (path : GoString) (m : List (GoString × Value))
    (keys : List GoString) : List ChildSpec :=
  keys.map fun k => ⟨k, memberPath level path k, mapGet m k⟩

/-- The children a node of the given path, level and raw value gets. -/
def childSpecs (path : GoString) (level : Int) : Value → List ChildSpec
  | .arr xs => arraySpecs path 0 xs
  | .obj m => objectSpecs level path m (sortStrings (mapKeys m))
  | _ => []

/-- The field `Array` of a node with raw value `v` and children `cs`. -/
def expectedArray (v : Value) (cs : List Nat) : Option (List Ptr) :=
  match v with
  | .arr _ => some (cs.map some)
  | _ => none

/-- The field `Object` of a node with raw value `v` and children `cs`. -/
def expectedObject (v : Value) (cs : List Nat) : Option (List (GoString × Ptr)) :=
  match v with
  | .obj m => some ((sortStrings (mapKeys m)).zip (cs.map some))
  | _ => none

/-- The node at `c` is a child of `p` as the loader links it. -/
def ChildOK (h : Heap) (p : Nat) (level : Int) (prev next : Ptr) (c : Nat)
    (sp : ChildSpec) : Prop :=
  p < c ∧ ∃ cd, h[c]? = some cd ∧ cd.Parent = some p ∧ cd.PrevSibling = prev ∧
    cd.NextSibling = next ∧ cd.Level = level + 1 ∧ cd.Key = sp.Key ∧
    cd.Path = sp.Path ∧ cd.RawValue = sp.RawValue

/-- The nodes `cs` are the children of `p`, linked in this order. -/
def Chain (h : Heap) (p : Nat) (level : Int) : Ptr → List Nat → List ChildSpec → Prop
  | _, [], [] => True
  | prev, c :: cs, sp :: sps =>
    ChildOK h p level prev cs.head? c sp ∧ Chain h p level (some c) cs sps
  | _, _, _ => False

/-- The child pointers a node holds in its containers. -/
def kids (nd : Node) : List Ptr :=
  match nd.Array, nd.Object with
  | some a, _ => a
  | none, some m => m.map Prod.snd
  | none, none => []

/-- The node `nd` at address `p` is as `parseValue` leaves it. -/
def NodeOK (h : Heap) (p : Nat) (nd : Node) : Prop :=
  nd.RawValue.WF ∧ nd.Typ = shapeType nd.RawValue ∧
  ∃ cs : List Nat,
    nd.Array = expectedArray nd.RawValue cs ∧
    nd.Object = expectedObject nd.RawValue cs ∧
    nd.FirstChild = cs.head? ∧ nd.LastChild = cs.getLast? ∧
    cs.Pairwise (· < ·) ∧
    Chain h p nd.Level none cs (childSpecs nd.Path nd.Level nd.RawValue)

/-- Walking `NextSibling` from `start` until `nil`; `none` when the walk does
not end within `fuel` steps or leaves the heap. -/
def siblings (h : Heap) : Nat → Ptr → Option (List Nat)
  | _, none => some []
  | 0, some _ => none
  | fuel + 1, some a =>
    match h[a]? with
    | none => none
    | some nd => (siblings h fuel nd.NextSibling).map (a :: ·)

/-- The walk `FirstChild`, then `NextSibling` until `nil`, from a node. -/
def children (h : Heap) (nd : Node) : Option (List Nat) :=
  siblings h h.length nd.FirstChild

/-- Every node after `p` is as `parseValue` leaves it. -/
def Good (h : Heap) (p : Nat) : Prop :=
  ∀ q qd, p < q → h[q]? = some qd → NodeOK h q qd

/-- Every node after `p` is one of `cs` or is held by a node after `p`. -/
def Hung (h : Heap) (p : Nat) (cs : List Nat) : Prop :=
  ∀ q qd, p < q → h[q]? = some qd →
    q ∈ cs ∨ ∃ r rd, p < r ∧ r < q ∧ qd.Parent = some r ∧ h[r]? = some rd ∧ some q ∈ kids rd

/-- Every node after `p` is held by `p` or by a node after `p`. -/
def Below (h : Heap) (p : Nat) : Prop :=
  ∀ q qd, p < q → h[q]? = some qd →
    ∃ r rd, p ≤ r ∧ r < q ∧ qd.Parent = some r ∧ h[r]? = some rd ∧ some q ∈ kids rd

/-- From `g` to `g'` the nodes after `p` keep their fields, but for the
`NextSibling` of children of `p`. -/
def Agree (p : Nat) (g g' : Heap) : Prop :=
  ∀ q qd, p < q → g[q]? = some qd →
    g'[q]? = some qd ∨ (qd.Parent = some p ∧ ∃ x, g'[q]? = some { qd with NextSibling := x })

/-- A node as `&Node{...}` allocates it for the value `x`, before `parseValue`. -/
structure Fresh (nd : Node) (x : Value) : Prop where
  first : nd.FirstChild = none
  last : nd.LastChild = none
  array : nd.Array = none
  object : nd.Object = none
  raw : nd.RawValue = x

/-- The fields of a node that `parseValue` on this node leaves alone. -/
def ExtEq (a b : Node) : Prop :=
  a.Parent = b.Parent ∧ a.PrevSibling = b.PrevSibling ∧ a.NextSibling = b.NextSibling ∧
  a.Path = b.Path ∧ a.Key = b.Key ∧ a.RawValue = b.RawValue ∧ a.Level = b.Level

/-- The contract of `parseValue(x, node)` when `node` is the node allocated last. -/
def ParseOK (x : Value) : Prop :=
  ∀ p h pd, h.length = p + 1 → h[p]? = some pd → Fresh pd x → x.WF →
    ∃ h' pd', parseValue x (some p) h = .ok h' ∧ (∀ q, q < p → h'[q]? = h[q]?) ∧
      h'[p]? = some pd' ∧ ExtEq pd' pd ∧
      NodeOK h' p pd' ∧ Good h' p ∧ Below h' p

/-- The state of a loop of `parseValue` on `p` after the children `cs`. -/
structure LoopCore (g : Heap) (p : Nat) (pd : Node) (cs : List Nat)
    (sps : List ChildSpec) : Prop where
  get : g[p]? = some pd
  first : pd.FirstChild = cs.head?
  last : pd.LastChild = cs.getLast?
  sorted : cs.Pairwise (· < ·)
  chain : Chain g p pd.Level none cs sps
  good : Good g p
  hung : Hung g p cs

/-- What holds of the heap that `LoadValue x` returns. -/
structure Loaded (x : Value) (h : Heap) : Prop where
  root : ∃ rd, h[0]? = some rd ∧ rd.Path = [47] ∧ rd.Level = 0 ∧ rd.Parent = none ∧
    rd.PrevSibling = none ∧ rd.NextSibling = none ∧ rd.Key = [] ∧ rd.RawValue = x
  node : ∀ q qd, h[q]? = some qd → NodeOK h q qd
  held : ∀ q qd, 0 < q → h[q]? = some qd →
    ∃ r rd, r < q ∧ qd.Parent = some r ∧ h[r]? = some rd ∧ some q ∈ kids rd

/-- The nodes at the addresses `cs`; `none` when one of them is not allocated. -/
def nodesAt (h : Heap) : List Nat → Option (List Node)
  | [] => some []
  | c :: cs =>
    match h[c]?, nodesAt h cs with
    | some nd, some nds => some (nd :: nds)
    | _, _ => none

/-- The keys met on the walk `FirstChild`, `NextSibling`, ... from a node. -/
def visitedKeys (h : Heap) (nd : Node) : Option (List GoString) :=
  ((children h nd).bind (nodesAt h)).map (fun cds => cds.map Node.Key)

/-- The paths of all nodes, by address. -/
def allPaths (h : Heap) : List GoString := h.map Node.Path

/-- The document `{"b":1,"a":[true,null]}`, its members enumerated as written. -/
def exampleDoc : Value :=
  Value.obj [(ascii "b", Value.num ⟨0x3FF0000000000000⟩),
    (ascii "a", Value.arr [Value.bool true, Value.null])]

/-- A key that the path format keeps apart: not empty, without `/` and `[`. -/
def keyOK (k : GoString) : Prop := k ≠ [] ∧ 47 ∉ k ∧ 91 ∉ k

/-- No key of the value, at any depth, is empty or contains `/` or `[`. -/
def Value.KeysOK : Value → Prop
  | .arr xs => KeysOKList xs
  | .obj m => (∀ k ∈ mapKeys m, keyOK k) ∧ KeysOKMembers m
  | _ => True
where
  /-- The keys of every element are fine. -/
  KeysOKList : List Value → Prop
    | [] => True
    | x :: xs => Value.KeysOK x ∧ KeysOKList xs
  /-- The keys of every member value are fine. -/
  KeysOKMembers : List (GoString × Value) → Prop
    | [] => True
    | (_, v) :: ms => Value.KeysOK v ∧ KeysOKMembers ms

/-- The document `{"a/b":1,"a":{"b":2}}`. -/
def collisionDoc : Value :=
  Value.obj [(ascii "a/b", Value.num ⟨0x3FF0000000000000⟩),
    (ascii "a", Value.obj [(ascii "b", Value.num ⟨0x4000000000000000⟩)])]

/-- The number a string of decimal digits stands for. -/
def digitsValue (s : GoString) : Nat := s.foldl (fun a d => 10 * a + (d - 48)) 0

instance keyOK.decidable : DecidablePred keyOK := fun k =>
  inferInstanceAs (Decidable (k ≠ [] ∧ 47 ∉ k ∧ 91 ∉ k))

/-- The elements of `l` at the indices `j` with `lo ≤ j < hi`, in order. -/
def between {α : Type} (l : List α) (lo hi : Int) : List α :=
  (l.take hi.toNat).drop lo.toNat

/-- A document that is an array of three elements, `[null,true,false]`. -/
def threeDoc : Value := Value.arr [Value.null, Value.bool true, Value.bool false]

/-- The document `{"k":null}`. -/
def nullMemberDoc : Value := Value.obj [(ascii "k", Value.null)]

/-- The document `[]`. -/
def emptyArrayDoc : Value := Value.arr []

/-- The document `{"a[0]":1,"a":[2]}`. -/
def bracketKeyDoc : Value :=
  Value.obj [(ascii "a[0]", Value.num ⟨0x3FF0000000000000⟩),
    (ascii "a", Value.arr [Value.num ⟨0x4000000000000000⟩])]

/-- The document `{"":1}`. -/
def emptyKeyDoc : Value := Value.obj [([], Value.num ⟨0x3FF0000000000000⟩)]

/-- The number of `Parent` hops from the node at `a` up to a node without
`Parent`; `none` when the walk does not end within `fuel` hops or leaves the
heap. -/
def parentHops (h : Heap) : Nat → Nat → Option Nat
  | 0, a =>
    match h[a]? with
    | none => none
    | some nd => if nd.Parent = none then some 0 else none
  | fuel + 1, a =>
    match h[a]? with
    | none => none
    | some nd =>
      match nd.Parent with
      | none => some 0
      | some r => (parentHops h fuel r).map (· + 1)

/-- A lower-case hexadecimal digit. -/
def hexDigit (d : Nat) : Nat := if d < 10 then 48 + d else 87 + d

/-- What `strconv.Quote` writes for one ASCII byte: `\a`, `\b`, `\f`, `\n`,
`\r`, `\t`, `\v`, `\\`, `\"`, the escape `\x` with two hexadecimal digits for
the other control characters, and the byte itself when it is printable. -/
def quoteByte (b : Nat) : GoString :=
  if b = 7 then [92, 97] else if b = 8 then [92, 98] else if b = 12 then [92, 102]
  else if b = 10 then [92, 110] else if b = 13 then [92, 114] else if b = 9 then [92, 116]
  else if b = 11 then [92, 118] else if b = 92 then [92, 92] else if b = 34 then [92, 34]
  else if b < 32 ∨ b = 127 then [92, 120, hexDigit (b / 16), hexDigit (b % 16)]
  else [b]

/-- The text `strconv.Quote(s)`, which `%q` prints for a string `s`, for a
string of ASCII bytes. -/
def quoteASCII (s : GoString) : GoString := 34 :: (s.flatMap quoteByte ++ [34])

/-- A hexadecimal digit of a JSON escape `\uXXXX`. -/
def isHex (b : Nat) : Bool :=
  (48 ≤ b && b ≤ 57) || (65 ≤ b && b ≤ 70) || (97 ≤ b && b ≤ 102)

/-- The characters of a JSON string literal after the opening quote, up to and
with the closing quote, which ends the text (RFC 8259): no control character,
and after a backslash one of `"`, `\`, `/`, `b`, `f`, `n`, `r`, `t`, or `u`
with four hexadecimal digits. -/
def jsonStringTail : GoString → Bool
  | [] => false
  | [34] => true
  | 92 :: 117 :: a :: b :: c :: d :: rest =>
    isHex a && isHex b && isHex c && isHex d && jsonStringTail rest
  | 92 :: e :: rest =>
    (e = 34 || e = 92 || e = 47 || e = 98 || e = 102 || e = 110 || e = 114 || e = 116)
      && jsonStringTail rest
  | b :: rest => decide (32 ≤ b) && b != 34 && b != 92 && jsonStringTail rest

/-- The text is a JSON string literal. -/
def jsonStringOK : GoString → Bool
  | 34 :: rest => jsonStringTail rest
  | _ => false

/-- What `json.MarshalIndent(v, pre, ind)` returns for the value
`[]interface{}{nil}`: the element on a line of its own that begins with the
prefix and one copy of the indent. -/
def marshalIndentNullArray (_v : Unit) (pre ind : GoString) : GoString × GoError :=
  (ascii "[" ++ [10] ++ pre ++ ind ++ ascii "null" ++ [10] ++ pre ++ ascii "]", none)

/-- Two decoded values are the same JSON value: the same scalar, sequences of
the same values in the same order, or maps with the same keys and under each
key the same value, in whatever order the members are enumerated. -/
def Value.Same : Value → Value → Prop
  | .null, .null => True
  | .bool a, .bool b => a = b
  | .num a, .num b => a = b
  | .str a, .str b => a = b
  | .arr xs, .arr ys => SameList xs ys
  | .obj m, .obj m' => (mapKeys m).Perm (mapKeys m') ∧ SameMembers m m'
  | _, _ => False
where
  /-- The elements are the same, one by one. -/
  SameList : List Value → List Value → Prop
    | [], [] => True
    | x :: xs, y :: ys => Value.Same x y ∧ SameList xs ys
    | _, _ => False
  /-- Every member has the same value under its key in the other map. -/
  SameMembers : List (GoString × Value) → List (GoString × Value) → Prop
    | [], _ => True
    | (k, v) :: ms, m' => Value.Same v (mapGet m' k) ∧ SameMembers ms m'

/-- Two nodes agree on every field, their raw values being the same JSON
value. -/
structure NodeSame (a b : Node) : Prop where
  parent : a.Parent = b.Parent
  first : a.FirstChild = b.FirstChild
  last : a.LastChild = b.LastChild
  prev : a.PrevSibling = b.PrevSibling
  next : a.NextSibling = b.NextSibling
  array : a.Array = b.Array
  object : a.Object = b.Object
  typ : a.Typ = b.Typ
  path : a.Path = b.Path
  key : a.Key = b.Key
  level : a.Level = b.Level
  raw : Value.Same a.RawValue b.RawValue

/-- Two results agree: both fail, or both return, related values. -/
def ExSame {α : Type} (R : α → α → Prop) : Except Panic α → Except Panic α → Prop
  | .ok a, .ok b => R a b
  | .error _, .error _ => True
  | _, _ => False

/-- Two heaps hold, address by address, nodes that agree. -/
def HeapSame (h h' : Heap) : Prop := List.Forall₂ NodeSame h h'

/-- The document `{"a":[true,null],"b":1}`: the members of `exampleDoc`
enumerated in the other order. -/
def exampleDocSwapped : Value :=
  Value.obj [(ascii "a", Value.arr [Value.bool true, Value.null]),
    (ascii "b", Value.num ⟨0x3FF0000000000000⟩)]

/-! ### Heap access -/

theorem deref_some {h : Heap} {a : Nat} {nd : Node} (e : h[a]? = some nd) :
    deref h (some a) = .ok nd := by
  simp [deref, e]

theorem store_some {h : Heap} {a : Nat} {nd : Node} (e : h[a]? = some nd) (f : Node → Node) :
    store h (some a) f = .ok (h.set a (f nd)) := by
  simp [store, e]

theorem get_set_self {h : Heap} {a : Nat} {nd : Node} (e : h[a]? = some nd) (v : Node) :
    (h.set a v)[a]? = some v := by
  have hlt : a < h.length := by
    by_contra hc
    rw [List.getElem?_eq_none (by omega)] at e
    cases e
  simp [List.getElem?_set, hlt]

theorem get_set_other (h : Heap) {a q : Nat} (hne : q ≠ a) (v : Node) :
    (h.set a v)[q]? = h[q]? :=
  List.getElem?_set_ne (Ne.symm hne)

theorem lt_length_of_get {h : Heap} {a : Nat} {nd : Node} (e : h[a]? = some nd) :
    a < h.length := by
  by_contra hc
  rw [List.getElem?_eq_none (by omega)] at e
  cases e

/-! ### `setRelation` -/

/-- Linking the first child of a node. -/
theorem setRelation_first {h : Heap} {p n : Nat} {pd nd : Node}
    (hp : h[p]? = some pd) (hn : h[n]? = some nd) (hne : p ≠ n)
    (hf : pd.FirstChild = none) :
    ∃ h', setRelation (some p) (some n) h = .ok h' ∧ h'.length = h.length ∧
      h'[p]? = some { pd with FirstChild := some n, LastChild := some n } ∧
      h'[n]? = some { nd with Parent := some p } ∧
      ∀ q, q ≠ p → q ≠ n → h'[q]? = h[q]? := by
  unfold setRelation
  rw [store_some hn]
  simp only [bind, Except.bind]
  have e1 : (h.set n { nd with Parent := some p })[p]? = some pd := by
    rw [get_set_other h hne]; exact hp
  rw [deref_some e1]
  simp only [hf, if_true]
  rw [store_some e1]
  simp only []
  rw [store_some (get_set_self e1 _)]
  refine ⟨_, rfl, by simp, ?_, ?_, ?_⟩
  · rw [get_set_self (get_set_self e1 _)]
  · rw [get_set_other _ (Ne.symm hne), get_set_other _ (Ne.symm hne), get_set_self hn]
  · intro q hqp hqn
    rw [get_set_other _ hqp, get_set_other _ hqp, get_set_other _ hqn]

/-- Linking a further child after the last one `t`. -/
theorem setRelation_next {h : Heap} {p n t : Nat} {pd nd td : Node}
    (hp : h[p]? = some pd) (hn : h[n]? = some nd) (ht : h[t]? = some td)
    (hne : p ≠ n) (htn : t ≠ n) (htp : t ≠ p)
    (hf : pd.FirstChild ≠ none) (hl : pd.LastChild = some t) :
    ∃ h', setRelation (some p) (some n) h = .ok h' ∧ h'.length = h.length ∧
      h'[p]? = some { pd with LastChild := some n } ∧
      h'[n]? = some { nd with Parent := some p, PrevSibling := some t } ∧
      h'[t]? = some { td with NextSibling := some n } ∧
      ∀ q, q ≠ p → q ≠ n → q ≠ t → h'[q]? = h[q]? := by
  unfold setRelation
  rw [store_some hn]
  simp only [bind, Except.bind]
  have e1 : (h.set n { nd with Parent := some p })[p]? = some pd := by
    rw [get_set_other h hne]; exact hp
  rw [deref_some e1]
  simp only [hf, if_false, hl]
  have e2 : (h.set n { nd with Parent := some p })[t]? = some td := by
    rw [get_set_other h htn]; exact ht
  rw [store_some e2]
  simp only []
  have e3 : ((h.set n { nd with Parent := some p }).set t { td with NextSibling := some n })[n]?
      = some { nd with Parent := some p } := by
    rw [get_set_other _ (Ne.symm htn), get_set_self hn]
  rw [store_some e3]
  simp only []
  have e4 : (((h.set n { nd with Parent := some p }).set t { td with NextSibling := some n }).set n
      { nd with Parent := some p, PrevSibling := some t })[p]? = some pd := by
    rw [get_set_other _ hne, get_set_other _ (Ne.symm htp), e1]
  rw [store_some e4]
  refine ⟨_, rfl, by simp, ?_, ?_, ?_, ?_⟩
  · rw [get_set_self e4]
  · rw [get_set_other _ (Ne.symm hne), get_set_self e3]
  · rw [get_set_other _ htp, get_set_other _ htn, get_set_self e2]
  · intro q hqp hqn hqt
    rw [get_set_other _ hqp, get_set_other _ hqn, get_set_other _ hqt, get_set_other _ hqn]

/-! ### Chains of children -/

theorem chain_length_eq {h : Heap} {p : Nat} {lvl : Int} :
    ∀ {prev : Ptr} {cs : List Nat} {sps : List ChildSpec},
      Chain h p lvl prev cs sps → cs.length = sps.length
  | _, [], [], _ => rfl
  | _, [], _ :: _, hc => by simp [Chain] at hc
  | _, _ :: _, [], hc => by simp [Chain] at hc
  | _, c :: cs, sp :: sps, hc => by
    simp only [Chain] at hc
    simp [chain_length_eq hc.2]

theorem chain_mem_get {h : Heap} {p : Nat} {lvl : Int} :
    ∀ {prev : Ptr} {cs : List Nat} {sps : List ChildSpec},
      Chain h p lvl prev cs sps → ∀ c ∈ cs, p < c ∧ ∃ cd, h[c]? = some cd ∧ cd.Parent = some p
  | _, [], [], _, c, hc => by simp at hc
  | _, [], _ :: _, hc, _, _ => by simp [Chain] at hc
  | _, _ :: _, [], hc, _, _ => by simp [Chain] at hc
  | _, c :: cs, sp :: sps, hc, c', hc' => by
    simp only [Chain] at hc
    rcases List.mem_cons.1 hc' with e | e
    · subst e
      obtain ⟨hlt, cd, hcd, hpar, _⟩ := hc.1
      exact ⟨hlt, cd, hcd, hpar⟩
    · exact chain_mem_get hc.2 c' e

/-- A chain below a node after `p` survives a change that `Agree p` allows. -/
theorem chain_agree {g g' : Heap} {p q : Nat} {lvl : Int} (hpq : p < q) (ha : Agree p g g') :
    ∀ {prev : Ptr} {cs : List Nat} {sps : List ChildSpec},
      Chain g q lvl prev cs sps → Chain g' q lvl prev cs sps
  | _, [], [], _ => trivial
  | _, [], _ :: _, hc => by simp [Chain] at hc
  | _, _ :: _, [], hc => by simp [Chain] at hc
  | _, c :: cs, sp :: sps, hc => by
    simp only [Chain] at hc ⊢
    refine ⟨?_, chain_agree hpq ha hc.2⟩
    obtain ⟨hlt, cd, hcd, hpar, hrest⟩ := hc.1
    refine ⟨hlt, cd, ?_, hpar, hrest⟩
    rcases ha c cd (by omega) hcd with e | ⟨e, _⟩
    · exact e
    · rw [hpar] at e
      injection e with e
      omega

/-- Appending a child `n` to a chain: the last node of the chain gets `n` as
its `NextSibling`, the others stay. -/
theorem chain_snoc {g g' : Heap} {p n : Nat} {lvl : Int} {sp : ChildSpec} :
    ∀ {prev : Ptr} {cs : List Nat} {sps : List ChildSpec},
      Chain g p lvl prev cs sps → cs.Pairwise (· < ·) →
      (∀ c ∈ cs, ∀ cd, g[c]? = some cd →
        g'[c]? = some (if cs.getLast? = some c then { cd with NextSibling := some n } else cd)) →
      ChildOK g' p lvl (if cs = [] then prev else cs.getLast?) none n sp →
      Chain g' p lvl prev (cs ++ [n]) (sps ++ [sp])
  | _, [], [], _, _, _, hn => by
    simpa [Chain] using hn
  | _, [], _ :: _, hc, _, _, _ => by simp [Chain] at hc
  | _, _ :: _, [], hc, _, _, _ => by simp [Chain] at hc
  | prev, c :: cs, s :: sps, hc, hpw, hg, hn => by
    simp only [Chain] at hc
    obtain ⟨⟨hlt, cd, hcd, hpar, hprev, hnext, hrest⟩, htail⟩ := hc
    have hpw' := List.pairwise_cons.1 hpw
    show Chain g' p lvl prev (c :: (cs ++ [n])) (s :: (sps ++ [sp]))
    simp only [Chain]
    cases cs with
    | nil =>
      cases sps with
      | cons _ _ => simp [Chain] at htail
      | nil =>
        have h1 := hg c (by simp) cd hcd
        simp only [List.getLast?_singleton, if_true] at h1
        refine ⟨⟨hlt, _, h1, hpar, hprev, by simp, hrest⟩, ?_⟩
        simpa [Chain] using hn
    | cons c2 cs2 =>
      have hne : c ≠ (c2 :: cs2).getLast (by simp) := by
        have := hpw'.1 _ (List.getLast_mem (by simp : c2 :: cs2 ≠ []))
        omega
      have hlast : (c :: c2 :: cs2).getLast? = (c2 :: cs2).getLast? := by
        simp [List.getLast?_cons_cons]
      have h1 := hg c (by simp) cd hcd
      rw [hlast, List.getLast?_eq_getLast _ (by simp)] at h1
      rw [if_neg (by intro e; injection e with e; exact hne e.symm)] at h1
      refine ⟨⟨hlt, cd, h1, hpar, hprev, by simpa using hnext, hrest⟩, ?_⟩
      refine chain_snoc htail hpw'.2 ?_ ?_
      · intro c' hc' cd' hcd'
        have := hg c' (List.mem_cons_of_mem _ hc') cd' hcd'
        rwa [hlast] at this
      · simpa [hlast] using hn

/-! ### One iteration of a loop of `parseValue` -/

theorem nodeOK_agree {g g' : Heap} {p q : Nat} {qd qd' : Node} (hpq : p < q)
    (ha : Agree p g g') (hq : g[q]? = some qd) (ok : NodeOK g q qd)
    (hq' : g'[q]? = some qd') : NodeOK g' q qd' := by
  obtain ⟨wf, ty, cs, a1, a2, a3, a4, a5, a6⟩ := ok
  rcases ha q qd hpq hq with e | ⟨_, x, e⟩
  · rw [e] at hq'
    injection hq' with hq'
    subst hq'
    exact ⟨wf, ty, cs, a1, a2, a3, a4, a5, chain_agree hpq ha a6⟩
  · rw [e] at hq'
    injection hq' with hq'
    subst hq'
    exact ⟨wf, ty, cs, a1, a2, a3, a4, a5, chain_agree hpq ha a6⟩

theorem agree_parent {g g' : Heap} {p q : Nat} {qd qd' : Node} (hpq : p < q)
    (ha : Agree p g g') (hq : g[q]? = some qd) (hq' : g'[q]? = some qd') :
    qd'.Parent = qd.Parent ∧ kids qd' = kids qd := by
  rcases ha q qd hpq hq with e | ⟨_, x, e⟩
  · rw [e] at hq'
    injection hq' with hq'
    subst hq'
    exact ⟨rfl, rfl⟩
  · rw [e] at hq'
    injection hq' with hq'
    subst hq'
    exact ⟨rfl, rfl⟩

theorem agree_get {g g' : Heap} {p q : Nat} {qd : Node} (hpq : p < q)
    (ha : Agree p g g') (hq : g[q]? = some qd) : ∃ qd', g'[q]? = some qd' := by
  rcases ha q qd hpq hq with e | ⟨_, x, e⟩
  · exact ⟨_, e⟩
  · exact ⟨_, e⟩

theorem get_of_lt {h : Heap} {q : Nat} (hq : q < h.length) : ∃ qd, h[q]? = some qd :=
  ⟨h[q], List.getElem?_eq_getElem hq⟩

theorem core_step {g : Heap} {p : Nat} {pd : Node} {cs : List Nat} {sps : List ChildSpec}
    (L : LoopCore g p pd cs sps) (nd0 : Node) (sp : ChildSpec)
    (f1 : nd0.FirstChild = none) (f2 : nd0.LastChild = none) (f3 : nd0.Array = none)
    (f4 : nd0.Object = none) (f5 : nd0.PrevSibling = none) (f6 : nd0.NextSibling = none)
    (e1 : nd0.RawValue = sp.RawValue) (e2 : nd0.Key = sp.Key) (e3 : nd0.Path = sp.Path)
    (e4 : nd0.Level = pd.Level + 1) (ih : ParseOK sp.RawValue) (wf : sp.RawValue.WF) :
    ∃ g1 g2, setRelation (some p) (some g.length) (g ++ [nd0]) = .ok g1 ∧
      parseValue sp.RawValue (some g.length) g1 = .ok g2 ∧
      LoopCore g2 p { pd with FirstChild := (cs ++ [g.length]).head?, LastChild := some g.length }
        (cs ++ [g.length]) (sps ++ [sp]) ∧
      (∀ q, q < p → g2[q]? = g[q]?) := by
  have hpn : p < g.length := lt_length_of_get L.get
  have hg0 : ∀ q, q < g.length → (g ++ [nd0])[q]? = g[q]? := fun q hq =>
    List.getElem?_append_left hq
  have hn0 : (g ++ [nd0])[g.length]? = some nd0 := by simp
  have hp0 : (g ++ [nd0])[p]? = some pd := by rw [hg0 p hpn]; exact L.get
  have hcs : ∀ c ∈ cs, p < c ∧ c < g.length := fun c hc => by
    obtain ⟨h1, cd, h2, _⟩ := chain_mem_get L.chain c hc
    exact ⟨h1, lt_length_of_get h2⟩
  -- the heap after `setRelation`
  have S : ∃ g1, setRelation (some p) (some g.length) (g ++ [nd0]) = .ok g1 ∧
      g1.length = g.length + 1 ∧
      g1[p]? = some { pd with FirstChild := (cs ++ [g.length]).head?, LastChild := some g.length } ∧
      g1[g.length]? = some { nd0 with Parent := some p, PrevSibling := cs.getLast? } ∧
      ∀ c, c < g.length → c ≠ p → ∀ cd, g[c]? = some cd →
        g1[c]? = some (if cs.getLast? = some c then { cd with NextSibling := some g.length }
          else cd) := by
    cases hcase : cs with
    | nil =>
      have hf : pd.FirstChild = none := by rw [L.first, hcase]; rfl
      obtain ⟨g1, r1, r2, r3, r4, r5⟩ := setRelation_first hp0 hn0 (by omega) hf
      refine ⟨g1, r1, by simpa using r2, ?_, ?_, ?_⟩
      · rw [r3]; simp
      · rw [r4]
        simp only [List.getLast?_nil]
        rw [← f5]
      · intro c hc hcp cd hcd
        rw [r5 c hcp (by omega), hg0 c hc, hcd]
        simp
    | cons c0 cs0 =>
      have hne : cs ≠ [] := by rw [hcase]; simp
      have hf : pd.FirstChild ≠ none := by rw [L.first, hcase]; simp
      have hl : pd.LastChild = some (cs.getLast hne) := by
        rw [L.last, List.getLast?_eq_getLast _ hne]
      have htm := hcs _ (List.getLast_mem hne)
      obtain ⟨td, htd⟩ := get_of_lt htm.2
      have ht0 : (g ++ [nd0])[cs.getLast hne]? = some td := by rw [hg0 _ htm.2]; exact htd
      obtain ⟨g1, r1, r2, r3, r4, r5, r6⟩ :=
        setRelation_next hp0 hn0 ht0 (by omega) (by omega) (by omega) hf hl
      rw [← hcase]
      refine ⟨g1, r1, by simpa using r2, ?_, ?_, ?_⟩
      · rw [r3]
        have : (cs ++ [g.length]).head? = pd.FirstChild := by
          rw [L.first, hcase]; simp
        rw [this]
      · rw [r4, List.getLast?_eq_getLast _ hne]
      · intro c hc hcp cd hcd
        rw [List.getLast?_eq_getLast _ hne]
        by_cases hct : c = cs.getLast hne
        · subst hct
          rw [htd] at hcd
          injection hcd with hcd
          subst hcd
          rw [r5]
          simp
        · rw [r6 c hcp (by omega) hct, hg0 c hc, hcd]
          rw [if_neg (by intro e; injection e with e; exact hct e.symm)]
  obtain ⟨g1, s1, s2, s3, s4, s5⟩ := S
  have hfresh : Fresh { nd0 with Parent := some p, PrevSibling := cs.getLast? } sp.RawValue :=
    ⟨f1, f2, f3, f4, e1⟩
  obtain ⟨g2, nd2, t1, t2, t3, t4, t5, t6, t7⟩ := ih g.length g1 _ s2 s4 hfresh wf
  obtain ⟨x1, x2, x3, x4, x5, x6, x7⟩ := t4
  have hold : ∀ c, c < g.length → c ≠ p → ∀ cd, g[c]? = some cd →
      g2[c]? = some (if cs.getLast? = some c then { cd with NextSibling := some g.length }
        else cd) := fun c hc hcp cd hcd => by
    rw [t2 c hc]; exact s5 c hc hcp cd hcd
  have hag : Agree p g g2 := by
    intro q qd hpq hq
    have hql := lt_length_of_get hq
    have := hold q hql (by omega) qd hq
    by_cases hlast : cs.getLast? = some q
    · rw [if_pos hlast] at this
      right
      have hmem : q ∈ cs := List.mem_of_getLast?_eq_some hlast
      obtain ⟨_, cd, h2, h3⟩ := chain_mem_get L.chain q hmem
      rw [hq] at h2
      injection h2 with h2
      subst h2
      exact ⟨h3, _, this⟩
    · rw [if_neg hlast] at this
      exact Or.inl this
  refine ⟨g1, g2, s1, t1, ?_, ?_⟩
  · refine ⟨?_, rfl, by simp, ?_, ?_, ?_, ?_⟩
    · rw [t2 p hpn]; exact s3
    · refine List.pairwise_append.2 ⟨L.sorted, by simp, ?_⟩
      intro a ha b hb
      rw [List.mem_singleton] at hb
      subst hb
      exact (hcs a ha).2
    · refine chain_snoc L.chain L.sorted ?_ ?_
      · intro c hc cd hcd
        exact hold c (hcs c hc).2 (by have := (hcs c hc).1; omega) cd hcd
      · refine ⟨hpn, nd2, t3, ?_, ?_, ?_, ?_, ?_, ?_, ?_⟩
        · rw [x1]
        · rw [x2]
          cases cs <;> simp
        · rw [x3]; exact f6
        · rw [x7]; exact e4
        · rw [x5]; exact e2
        · rw [x4]; exact e3
        · rw [x6]; exact e1
    · intro q qd hpq hq
      rcases Nat.lt_trichotomy q g.length with hlt | heq | hgt
      · obtain ⟨qd0, hqd0⟩ := get_of_lt hlt
        exact nodeOK_agree hpq hag hqd0 (L.good q qd0 hpq hqd0) hq
      · subst heq
        rw [t3] at hq
        injection hq with hq
        subst hq
        exact t5
      · exact t6 q qd hgt hq
    · intro q qd hpq hq
      rcases Nat.lt_trichotomy q g.length with hlt | heq | hgt
      · obtain ⟨qd0, hqd0⟩ := get_of_lt hlt
        rcases L.hung q qd0 hpq hqd0 with hm | ⟨r, rd, hr1, hr2, hr3, hr4, hr5⟩
        · exact Or.inl (List.mem_append_left _ hm)
        · right
          obtain ⟨rd', hrd'⟩ := agree_get hr1 hag hr4
          refine ⟨r, rd', hr1, hr2, ?_, hrd', ?_⟩
          · rw [(agree_parent hpq hag hqd0 hq).1]; exact hr3
          · rw [(agree_parent hr1 hag hr4 hrd').2]; exact hr5
      · subst heq
        exact Or.inl (by simp)
      · right
        obtain ⟨r, rd, hr1, hr2, hr3, hr4, hr5⟩ := t7 q qd hgt hq
        exact ⟨r, rd, by omega, hr2, hr3, hr4, hr5⟩
  · intro q hq
    rw [t2 q (by omega)]
    obtain ⟨qd, hqd⟩ := get_of_lt (show q < g.length by omega)
    have := s5 q (by omega) (by omega) qd hqd
    rw [this, hqd]
    have hnl : cs.getLast? ≠ some q := by
      intro hl
      have := (hcs q (List.mem_of_getLast?_eq_some hl)).1
      omega
    rw [if_neg hnl]

/-! ### The loop of the slice case -/

/-- Writing the containers of `p` keeps the loop state. -/
theorem loopCore_set_self {g : Heap} {p : Nat} {pd pd' : Node} {cs : List Nat}
    {sps : List ChildSpec} (L : LoopCore g p pd cs sps)
    (h1 : pd'.FirstChild = pd.FirstChild) (h2 : pd'.LastChild = pd.LastChild)
    (h3 : pd'.Level = pd.Level) :
    LoopCore (g.set p pd') p pd' cs sps := by
  have hag : Agree p g (g.set p pd') := by
    intro q qd hpq hq
    left
    rw [get_set_other _ (by omega)]
    exact hq
  have hback : ∀ q, p < q → (g.set p pd')[q]? = g[q]? := fun q hq =>
    get_set_other _ (by omega) _
  refine ⟨get_set_self L.get _, by rw [h1, L.first], by rw [h2, L.last], L.sorted, ?_, ?_, ?_⟩
  · rw [h3]
    have key : ∀ {prev : Ptr} {cs : List Nat} {sps : List ChildSpec},
        Chain g p pd.Level prev cs sps → Chain (g.set p pd') p pd.Level prev cs sps := by
      intro prev cs
      induction cs generalizing prev with
      | nil =>
        intro sps hc
        cases sps with
        | nil => trivial
        | cons _ _ => simp [Chain] at hc
      | cons c cs ih =>
        intro sps hc
        cases sps with
        | nil => simp [Chain] at hc
        | cons s sps =>
          simp only [Chain] at hc ⊢
          obtain ⟨⟨hlt, cd, hcd, hrest⟩, htail⟩ := hc
          exact ⟨⟨hlt, cd, by rw [hback c hlt]; exact hcd, hrest⟩, ih htail⟩
    exact key L.chain
  · intro q qd hpq hq
    have hq0 : g[q]? = some qd := by rw [← hback q hpq]; exact hq
    exact nodeOK_agree hpq hag hq0 (L.good q qd hpq hq0) hq
  · intro q qd hpq hq
    have hq0 : g[q]? = some qd := by rw [← hback q hpq]; exact hq
    rcases L.hung q qd hpq hq0 with hm | ⟨r, rd, hr1, hr2, hr3, hr4, hr5⟩
    · exact Or.inl hm
    · exact Or.inr ⟨r, rd, hr1, hr2, hr3, by rw [hback r hr1]; exact hr4, hr5⟩

theorem set_replicate_none (cs : List Nat) (n k : Nat) :
    (cs.map some ++ List.replicate (k + 1) (none : Ptr)).set cs.length (some n)
      = (cs ++ [n]).map some ++ List.replicate k none := by
  induction cs with
  | nil => simp [List.replicate_succ]
  | cons c cs ih => simpa using ih

/-- The loop of the slice case: from the state after the children `cs`, the
loop over the remaining elements ends and leaves the state after all children. -/
theorem arrayLoop_spec {p : Nat} :
    ∀ (rest : List Value) (i : Nat) (g : Heap) (pd : Node) (cs : List Nat)
      (sps : List ChildSpec),
      LoopCore g p pd cs sps → cs.length = i →
      pd.Array = some (cs.map some ++ List.replicate rest.length none) →
      (∀ x ∈ rest, ParseOK x ∧ x.WF) →
      ∃ g' pd' cs', arrayLoop rest (some p) i g = .ok g' ∧
        LoopCore g' p pd' cs' (sps ++ arraySpecs pd.Path i rest) ∧
        pd'.Array = some (cs'.map some) ∧ pd'.Object = pd.Object ∧ pd'.Typ = pd.Typ ∧
        ExtEq pd' pd ∧ (∀ q, q < p → g'[q]? = g[q]?)
  | [], i, g, pd, cs, sps, L, _, ha, _ => by
    refine ⟨g, pd, cs, by simp [arrayLoop], by simpa [arraySpecs] using L, by simpa using ha,
      rfl, rfl, ⟨rfl, rfl, rfl, rfl, rfl, rfl, rfl⟩, fun _ _ => rfl⟩
  | child :: rest, i, g, pd, cs, sps, L, hi, ha, hrest => by
    have hch := hrest child (by simp)
    obtain ⟨g1, g2, s1, s2, L2, s4⟩ := core_step L
      { Path := pd.Path ++ 91 :: decimal i ++ [93], RawValue := child, Level := pd.Level + 1 }
      ⟨[], pd.Path ++ 91 :: decimal i ++ [93], child⟩ rfl rfl rfl rfl rfl rfl rfl rfl rfl rfl
      hch.1 hch.2
    have hset : setArrayElem (some p) i (some g.length) g2
        = .ok (g2.set p { pd with FirstChild := (cs ++ [g.length]).head?,
                                  LastChild := some g.length,
                                  Array := some ((cs ++ [g.length]).map some
                                    ++ List.replicate rest.length none) }) := by
      unfold setArrayElem
      rw [deref_some L2.get]
      simp only [bind, Except.bind, ha, sliceSet]
      have hlen : i < (List.map some cs ++ List.replicate (child :: rest).length (none : Ptr)).length := by
        simp; omega
      rw [if_pos hlen]
      simp only []
      rw [store_some L2.get, ← hi]
      simp only [List.length_cons]
      rw [set_replicate_none]
    have L3 : LoopCore
        (g2.set p { pd with FirstChild := (cs ++ [g.length]).head?,
                            LastChild := some g.length,
                            Array := some ((cs ++ [g.length]).map some
                              ++ List.replicate rest.length none) }) p
        { pd with FirstChild := (cs ++ [g.length]).head?,
                  LastChild := some g.length,
                  Array := some ((cs ++ [g.length]).map some
                    ++ List.replicate rest.length none) }
        (cs ++ [g.length])
        (sps ++ [⟨[], pd.Path ++ 91 :: decimal i ++ [93], child⟩]) :=
      loopCore_set_self L2 rfl rfl rfl
    obtain ⟨g', pd', cs', r1, r2, r3, r4, r5, r6, r7⟩ :=
      arrayLoop_spec rest (i + 1) _ _ _ _ L3 (by simp [hi]) rfl
        (fun x hx => hrest x (List.mem_cons_of_mem _ hx))
    refine ⟨g', pd', cs', ?_, ?_, r3, r4, r5, r6, ?_⟩
    · rw [arrayLoop, deref_some L.get]
      simp only [bind, Except.bind, new, s1, s2, hset]
      exact r1
    · simpa [arraySpecs] using r2
    · intro q hq
      rw [r7 q hq, get_set_other _ (by omega), s4 q hq]

/-! ### The loop of the map case -/

/-- The parser the map case uses for `key` is `parseValue` on `v[key]`. -/
theorem parseMember_eq (v : List (GoString × Value)) (key : GoString) :
    parseMember v key = parseValue (mapGet v key) := by
  induction v with
  | nil =>
    funext node h
    simp [parseMember, mapGet, mapLookup, parseValue]
  | cons e ms ih =>
    obtain ⟨k, x⟩ := e
    by_cases hk : k = key
    · simp [parseMember, mapGet, mapLookup, hk]
    · simp only [parseMember, mapGet, mapLookup, hk, if_false]
      exact ih

theorem mapSet_zip_append {α : Type} (key : GoString) (v : α) :
    ∀ (ks : List GoString) (vs : List α), key ∉ ks → ks.length = vs.length →
      mapSet (ks.zip vs) key v = (ks ++ [key]).zip (vs ++ [v])
  | [], [], _, _ => rfl
  | [], _ :: _, _, hl => by simp at hl
  | _ :: _, [], _, hl => by simp at hl
  | k :: ks, w :: vs, hk, hl => by
    have hne : k ≠ key := fun e => hk (by simp [e])
    have hk' : key ∉ ks := fun e => hk (List.mem_cons_of_mem _ e)
    show mapSet ((k, w) :: ks.zip vs) key v = (k, w) :: (ks ++ [key]).zip (vs ++ [v])
    rw [mapSet, if_neg hne, mapSet_zip_append key v ks vs hk' (by simpa using hl)]

theorem set_append_last (g : Heap) (a b : Node) :
    (g ++ [a]).set g.length b = g ++ [b] := by
  induction g with
  | nil => rfl
  | cons x g ih => simp [ih]

/-- The loop of the map case: from the state after the children `cs` for the
keys `done`, the loop over the remaining keys ends and leaves the state after
all children. -/
theorem objectLoop_spec {p : Nat} (v : List (GoString × Value)) :
    ∀ (keys : List GoString) (g : Heap) (pd : Node) (cs : List Nat) (done : List GoString)
      (sps : List ChildSpec),
      LoopCore g p pd cs sps → cs.length = done.length →
      pd.Object = some (done.zip (cs.map some)) →
      (∀ k ∈ keys, k ∉ done) → keys.Nodup →
      (∀ k ∈ keys, ParseOK (mapGet v k) ∧ (mapGet v k).WF) →
      ∃ g' pd' cs', objectLoop (some p) v (parseMember v) keys g = .ok g' ∧
        LoopCore g' p pd' cs' (sps ++ objectSpecs pd.Level pd.Path v keys) ∧
        pd'.Object = some ((done ++ keys).zip (cs'.map some)) ∧
        cs'.length = (done ++ keys).length ∧
        pd'.Array = pd.Array ∧ pd'.Typ = pd.Typ ∧
        ExtEq pd' pd ∧ (∀ q, q < p → g'[q]? = g[q]?)
  | [], g, pd, cs, done, sps, L, hl, ho, _, _, _ => by
    refine ⟨g, pd, cs, by simp [objectLoop], by simpa [objectSpecs] using L, by simpa using ho,
      by simpa using hl, rfl, rfl, ⟨rfl, rfl, rfl, rfl, rfl, rfl, rfl⟩, fun _ _ => rfl⟩
  | key :: keys, g, pd, cs, done, sps, L, hl, ho, hnd, hnodup, hrest => by
    have hch := hrest key (by simp)
    have hpn : p < g.length := lt_length_of_get L.get
    obtain ⟨g1, g2, s1, s2, L2, s4⟩ := core_step L
      { Path := memberPath pd.Level pd.Path key, Key := key, RawValue := mapGet v key,
        Level := pd.Level + 1 }
      ⟨key, memberPath pd.Level pd.Path key, mapGet v key⟩
      rfl rfl rfl rfl rfl rfl rfl rfl rfl rfl hch.1 hch.2
    -- allocation and the adjustment of the path
    have halloc : ∀ nd0 : Node, (g ++ [nd0])[p]? = some pd ∧ (g ++ [nd0])[g.length]? = some nd0 :=
      fun nd0 => ⟨by rw [List.getElem?_append_left hpn]; exact L.get, by simp⟩
    have hset : setObjectEntry (some p) key (some g.length) g2
        = .ok (g2.set p { pd with FirstChild := (cs ++ [g.length]).head?,
                                  LastChild := some g.length,
                                  Object := some ((done ++ [key]).zip
                                    ((cs ++ [g.length]).map some)) }) := by
      unfold setObjectEntry
      rw [deref_some L2.get]
      simp only [bind, Except.bind, ho]
      rw [store_some L2.get]
      rw [mapSet_zip_append key (some g.length) done (cs.map some)
        (hnd key (by simp)) (by simp [hl])]
      simp
    have L3 : LoopCore
        (g2.set p { pd with FirstChild := (cs ++ [g.length]).head?,
                            LastChild := some g.length,
                            Object := some ((done ++ [key]).zip
                              ((cs ++ [g.length]).map some)) }) p
        { pd with FirstChild := (cs ++ [g.length]).head?,
                  LastChild := some g.length,
                  Object := some ((done ++ [key]).zip ((cs ++ [g.length]).map some)) }
        (cs ++ [g.length])
        (sps ++ [⟨key, memberPath pd.Level pd.Path key, mapGet v key⟩]) :=
      loopCore_set_self L2 rfl rfl rfl
    have hnodup' := List.nodup_cons.1 hnodup
    obtain ⟨g', pd', cs', r1, r2, r3, r3', r4, r5, r6, r7⟩ :=
      objectLoop_spec v keys _ _ _ (done ++ [key]) _ L3 (by simp [hl]) rfl
        (fun k hk hin => by
          rcases List.mem_append.1 hin with h1 | h1
          · exact hnd k (List.mem_cons_of_mem _ hk) h1
          · rw [List.mem_singleton] at h1
            subst h1
            exact hnodup'.1 hk)
        hnodup'.2
        (fun x hx => hrest x (List.mem_cons_of_mem _ hx))
    refine ⟨g', pd', cs', ?_, ?_, ?_, ?_, r4, r5, r6, ?_⟩
    · rw [objectLoop, deref_some L.get]
      simp only [bind, Except.bind, new]
      rw [deref_some (halloc _).2]
      simp only []
      by_cases hlv : pd.Level + 1 > 1
      · have hmp : memberPath pd.Level pd.Path key = pd.Path ++ 47 :: key := by
          simp [memberPath, hlv]
        rw [hmp] at s1
        rw [if_pos hlv, deref_some (halloc _).1]
        simp only []
        rw [store_some (halloc _).2, set_append_last]
        simp only []
        rw [s1]
        simp only []
        rw [parseMember_eq, s2]
        simp only []
        rw [hset]
        exact r1
      · have hmp : memberPath pd.Level pd.Path key = 47 :: key := by
          simp [memberPath, hlv]
        rw [hmp] at s1
        rw [if_neg hlv, s1]
        simp only []
        rw [parseMember_eq, s2]
        simp only []
        rw [hset]
        exact r1
    · simpa [objectSpecs] using r2
    · simpa using r3
    · simpa using r3'
    · intro q hq
      rw [r7 q hq, get_set_other _ (by omega), s4 q hq]

/-! ### `parseValue` meets its contract -/

theorem WFList_mem {xs : List Value} (h : Value.WF.WFList xs) {x : Value} (hx : x ∈ xs) :
    x.WF := by
  induction xs with
  | nil => simp at hx
  | cons y ys ih =>
    simp only [Value.WF.WFList] at h
    rcases List.mem_cons.1 hx with e | e
    · rw [e]; exact h.1
    · exact ih h.2 e

theorem WFMembers_mem {m : List (GoString × Value)} (h : Value.WF.WFMembers m) {k : GoString}
    {x : Value} (hx : (k, x) ∈ m) : x.WF := by
  induction m with
  | nil => simp at hx
  | cons e ms ih =>
    obtain ⟨k', y⟩ := e
    simp only [Value.WF.WFMembers] at h
    rcases List.mem_cons.1 hx with e | e
    · injection e with _ e2
      rw [e2]; exact h.1
    · exact ih h.2 e

/-- A key of the map is found, and the value found is a member. -/
theorem mapLookup_of_mem_keys {α : Type} {m : List (GoString × α)} {k : GoString}
    (hk : k ∈ mapKeys m) : ∃ x, mapLookup m k = some x ∧ (k, x) ∈ m := by
  induction m with
  | nil => simp [mapKeys] at hk
  | cons e ms ih =>
    obtain ⟨k', y⟩ := e
    by_cases hkk : k' = k
    · subst hkk
      exact ⟨y, by simp [mapLookup], by simp⟩
    · have : k ∈ mapKeys ms := by
        simp only [mapKeys, List.map_cons, List.mem_cons] at hk
        rcases hk with e | e
        · exact absurd e.symm hkk
        · exact e
      obtain ⟨x, h1, h2⟩ := ih this
      exact ⟨x, by simp [mapLookup, hkk, h1], List.mem_cons_of_mem _ h2⟩

theorem mapGet_of_mem_keys {m : List (GoString × Value)} {k : GoString}
    (hk : k ∈ mapKeys m) : (k, mapGet m k) ∈ m := by
  obtain ⟨x, h1, h2⟩ := mapLookup_of_mem_keys hk
  simpa [mapGet, h1] using h2

theorem sortStrings_perm (ks : List GoString) : (sortStrings ks).Perm ks :=
  List.perm_insertionSort _ _

theorem mem_sortStrings {ks : List GoString} {k : GoString} :
    k ∈ sortStrings ks ↔ k ∈ ks :=
  (sortStrings_perm ks).mem_iff

theorem extEq_trans {a b c : Node} (h1 : ExtEq a b) (h2 : ExtEq b c) : ExtEq a c := by
  obtain ⟨a1, a2, a3, a4, a5, a6, a7⟩ := h1
  obtain ⟨b1, b2, b3, b4, b5, b6, b7⟩ := h2
  exact ⟨a1.trans b1, a2.trans b2, a3.trans b3, a4.trans b4, a5.trans b5, a6.trans b6,
    a7.trans b7⟩

theorem no_node_after {h : Heap} {p q : Nat} {qd : Node} (hl : h.length = p + 1)
    (hpq : p < q) (hq : h[q]? = some qd) : False := by
  have := lt_length_of_get hq
  omega

/-- The contract of `parseValue` on a value without children. -/
theorem parse_scalar {x : Value} {p : Nat} {h : Heap} {pd : Node}
    (hl : h.length = p + 1) (hp : h[p]? = some pd) (hf : Fresh pd x) (wf : x.WF)
    (hspec : ∀ path lvl, childSpecs path lvl x = [])
    (harr : expectedArray x [] = none) (hobj : expectedObject x [] = none) :
    ∃ h' pd', store h (some p) (fun nd => { nd with Typ := shapeType x }) = .ok h' ∧
      (∀ q, q < p → h'[q]? = h[q]?) ∧
      h'[p]? = some pd' ∧ ExtEq pd' pd ∧ NodeOK h' p pd' ∧ Good h' p ∧ Below h' p := by
  have hl' : (h.set p { pd with Typ := shapeType x }).length = p + 1 := by simpa using hl
  refine ⟨_, _, store_some hp _, fun q hq => get_set_other _ (by omega) _, get_set_self hp _,
    ⟨rfl, rfl, rfl, rfl, rfl, rfl, rfl⟩, ?_, ?_, ?_⟩
  · refine ⟨by rw [show ({ pd with Typ := shapeType x } : Node).RawValue = x from hf.raw]; exact wf,
      by rw [show ({ pd with Typ := shapeType x } : Node).RawValue = x from hf.raw],
      [], ?_, ?_, hf.first, hf.last, List.Pairwise.nil, ?_⟩
    · rw [show ({ pd with Typ := shapeType x } : Node).RawValue = x from hf.raw, harr]
      exact hf.array
    · rw [show ({ pd with Typ := shapeType x } : Node).RawValue = x from hf.raw, hobj]
      exact hf.object
    · rw [show ({ pd with Typ := shapeType x } : Node).RawValue = x from hf.raw, hspec]
      trivial
  · intro q qd hpq hq
    exact (no_node_after hl' hpq hq).elim
  · intro q qd hpq hq
    exact (no_node_after hl' hpq hq).elim

theorem loopCore_init {h : Heap} {p : Nat} {pd : Node} (hl : h.length = p + 1)
    (hp : h[p]? = some pd) (h1 : pd.FirstChild = none) (h2 : pd.LastChild = none) :
    LoopCore h p pd [] [] :=
  ⟨hp, h1, h2, List.Pairwise.nil, trivial,
    fun _ _ hpq hq => (no_node_after hl hpq hq).elim,
    fun _ _ hpq hq => (no_node_after hl hpq hq).elim⟩

/-- After a loop, every node after `p` is held by `p` or by a node after it. -/
theorem loopCore_below {g : Heap} {p : Nat} {pd : Node} {cs : List Nat}
    {sps : List ChildSpec} (L : LoopCore g p pd cs sps) (hk : kids pd = cs.map some) :
    Below g p := by
  intro q qd hpq hq
  rcases L.hung q qd hpq hq with hm | ⟨r, rd, hr1, hr2, hr3, hr4, hr5⟩
  · obtain ⟨_, cd, h1, h2⟩ := chain_mem_get L.chain q hm
    rw [hq] at h1
    injection h1 with h1
    subst h1
    exact ⟨p, pd, le_refl _, hpq, h2, L.get, by rw [hk]; exact List.mem_map_of_mem _ hm⟩
  · exact ⟨r, rd, by omega, hr2, hr3, hr4, hr5⟩

/-- The function `parseValue` meets its contract on every value. -/
theorem parseValue_ok : ∀ (n : Nat) (x : Value), sizeOf x < n → ParseOK x := by
  intro n
  induction n with
  | zero => intro x hx; omega
  | succ n ih =>
    intro x hx p h pd hl hp hf wf
    cases x with
    | null =>
      simpa [parseValue, parseNil, shapeType] using
        parse_scalar hl hp hf wf (fun _ _ => rfl) rfl rfl
    | bool b =>
      simpa [parseValue, shapeType] using
        parse_scalar hl hp hf wf (fun _ _ => rfl) rfl rfl
    | num f =>
      simpa [parseValue, shapeType] using
        parse_scalar hl hp hf wf (fun _ _ => rfl) rfl rfl
    | str s =>
      simpa [parseValue, shapeType] using
        parse_scalar hl hp hf wf (fun _ _ => rfl) rfl rfl
    | arr xs =>
      have e1 := get_set_self hp { pd with Typ := NodeType.Array }
      have e2 := get_set_self e1
        { pd with Typ := NodeType.Array, Array := some (List.replicate xs.length none) }
      have L0 : LoopCore _ p _ [] [] :=
        loopCore_init (by simpa using hl) e2 hf.first hf.last
      have hih : ∀ x ∈ xs, ParseOK x ∧ x.WF := fun x hxm => by
        refine ⟨ih x ?_, WFList_mem (by simpa [Value.WF] using wf) hxm⟩
        have := List.sizeOf_lt_of_mem hxm
        simp only [Value.arr.sizeOf_spec] at hx
        omega
      obtain ⟨g', pd', cs', r1, L, r3, r4, r5, r6, r7⟩ :=
        arrayLoop_spec xs 0 _ _ [] [] L0 rfl (by simp) hih
      have hraw : pd'.RawValue = Value.arr xs := by rw [r6.2.2.2.2.2.1]; exact hf.raw
      refine ⟨g', pd', ?_, ?_, L.get, extEq_trans r6 ⟨rfl, rfl, rfl, rfl, rfl, rfl, rfl⟩,
        ?_, L.good, ?_⟩
      · rw [parseValue, store_some hp]
        simp only [bind, Except.bind]
        rw [store_some e1]
        simp only []
        exact r1
      · intro q hq
        rw [r7 q hq, get_set_other _ (by omega), get_set_other _ (by omega)]
      · refine ⟨by rw [hraw]; exact wf, by rw [hraw, r5]; rfl, cs', ?_, ?_, L.first, L.last,
          L.sorted, ?_⟩
        · rw [hraw, r3]; rfl
        · rw [hraw, r4]; exact hf.object
        · rw [hraw]
          have := L.chain
          rw [List.nil_append] at this
          rw [r6.2.2.2.1]
          exact this
      · exact loopCore_below L (by simp [kids, r3])
    | obj m =>
      have e1 := get_set_self hp { pd with Typ := NodeType.Object }
      have e2 := get_set_self e1
        { pd with Typ := NodeType.Object, Object := some [] }
      have L0 : LoopCore _ p _ [] [] :=
        loopCore_init (by simpa using hl) e2 hf.first hf.last
      have wf' : (mapKeys m).Nodup ∧ Value.WF.WFMembers m := by simpa [Value.WF] using wf
      have hih : ∀ k ∈ sortStrings (mapKeys m), ParseOK (mapGet m k) ∧ (mapGet m k).WF :=
        fun k hk => by
          have hmem := mapGet_of_mem_keys (mem_sortStrings.1 hk)
          refine ⟨ih _ ?_, WFMembers_mem wf'.2 hmem⟩
          have := List.sizeOf_lt_of_mem hmem
          simp only [Value.obj.sizeOf_spec, Prod.mk.sizeOf_spec] at hx this
          omega
      obtain ⟨g', pd', cs', r1, L, r3, r3', r4, r5, r6, r7⟩ :=
        objectLoop_spec m (sortStrings (mapKeys m)) _ _ [] [] [] L0 rfl rfl (by simp)
          ((sortStrings_perm _).nodup_iff.2 wf'.1) hih
      have hraw : pd'.RawValue = Value.obj m := by rw [r6.2.2.2.2.2.1]; exact hf.raw
      rw [List.nil_append] at r3 r3'
      refine ⟨g', pd', ?_, ?_, L.get, extEq_trans r6 ⟨rfl, rfl, rfl, rfl, rfl, rfl, rfl⟩,
        ?_, L.good, ?_⟩
      · rw [parseValue, store_some hp]
        simp only [bind, Except.bind]
        rw [store_some e1]
        simp only []
        exact r1
      · intro q hq
        rw [r7 q hq, get_set_other _ (by omega), get_set_other _ (by omega)]
      · refine ⟨by rw [hraw]; exact wf, by rw [hraw, r5]; rfl, cs', ?_, ?_, L.first, L.last,
          L.sorted, ?_⟩
        · rw [hraw, r4]; exact hf.array
        · rw [hraw, r3]; rfl
        · rw [hraw]
          have := L.chain
          rw [List.nil_append] at this
          have hp' : pd'.Path = pd.Path := r6.2.2.2.1
          have hl' : pd'.Level = pd.Level := r6.2.2.2.2.2.2
          simpa [childSpecs, hp', hl'] using this
      · refine loopCore_below L ?_
        have ha : pd'.Array = none := by rw [r4]; exact hf.array
        simp only [kids, ha, r3]
        exact List.map_snd_zip _ _ (by simp [r3'])

/-! ### The loaded heap -/

/-- Loading a well-formed value succeeds, and the heap has the loader's shape. -/
theorem LoadValue_ok (x : Value) (wf : x.WF) : ∃ h, LoadValue x = .ok h ∧ Loaded x h := by
  have h0 : ([({ Path := [47], RawValue := x, Level := 0 } : Node)] : Heap)[0]?
      = some { Path := [47], RawValue := x, Level := 0 } := rfl
  obtain ⟨h, rd, r1, _, r3, r4, r5, r6, r7⟩ :=
    parseValue_ok (sizeOf x + 1) x (Nat.lt_succ_self _) 0
      [{ Path := [47], RawValue := x, Level := 0 }] _ rfl h0
      ⟨rfl, rfl, rfl, rfl, rfl⟩ wf
  obtain ⟨x1, x2, x3, x4, x5, x6, x7⟩ := r4
  refine ⟨h, by simpa [LoadValue, new] using r1, ⟨rd, r3, x4, x7, x1, x2, x3, x5, x6⟩, ?_, ?_⟩
  · intro q qd hq
    rcases Nat.eq_zero_or_pos q with e | e
    · subst e
      rw [r3] at hq
      injection hq with hq
      subst hq
      exact r5
    · exact r6 q qd e hq
  · intro q qd hq hqd
    obtain ⟨r, rd', _, h2, h3, h4, h5⟩ := r7 q qd hq hqd
    exact ⟨r, rd', h2, h3, h4, h5⟩

/-! ### The order of strings and `sort.Strings` -/

theorem strLess_irrefl : ∀ a : GoString, strLess a a = false
  | [] => rfl
  | a :: as => by simp [strLess, strLess_irrefl as]

theorem strLess_asymm : ∀ a b : GoString, strLess a b = true → strLess b a = false
  | [], [], h => by simp [strLess] at h
  | [], _ :: _, _ => by simp [strLess]
  | _ :: _, [], h => by simp [strLess] at h
  | a :: as, b :: bs, h => by
    simp only [strLess] at h ⊢
    by_cases h1 : a < b
    · simp [h1, show ¬ b < a by omega]
    · by_cases h2 : b < a
      · simp [h1, h2] at h
      · simp only [h1, h2, if_false] at h ⊢
        exact strLess_asymm as bs h

/-- Two strings of which neither is less than the other are equal. -/
theorem strLess_total : ∀ a b : GoString, strLess a b = false → strLess b a = false → a = b
  | [], [], _, _ => rfl
  | [], _ :: _, h, _ => by simp [strLess] at h
  | _ :: _, [], _, h => by simp [strLess] at h
  | a :: as, b :: bs, h, h' => by
    simp only [strLess] at h h'
    by_cases h1 : a < b
    · simp [h1] at h
    · by_cases h2 : b < a
      · simp [h2] at h'
      · simp only [h1, h2, if_false] at h h'
        have e : a = b := by omega
        rw [e, strLess_total as bs h h']

/-- If `c < a` then every `b` has `c < b` or `b < a`. -/
theorem strLess_connected : ∀ c a b : GoString, strLess c a = true →
    strLess c b = true ∨ strLess b a = true
  | [], [], _, h => by simp [strLess] at h
  | _ :: _, [], _, h => by simp [strLess] at h
  | [], _ :: _, [], _ => by simp [strLess]
  | [], _ :: _, _ :: _, _ => by simp [strLess]
  | _ :: _, _ :: _, [], _ => by simp [strLess]
  | c :: cs, a :: as, b :: bs, h => by
    simp only [strLess] at h ⊢
    by_cases h1 : c < a
    · by_cases h2 : c < b
      · simp [h2]
      · by_cases h3 : b < c
        · simp [show b < a by omega]
        · have e : b = c := by omega
          subst e
          simp [h1]
    · by_cases h2 : a < c
      · simp [h1, h2] at h
      · simp only [h1, h2, if_false] at h
        have e : a = c := by omega
        subst e
        by_cases h3 : a < b
        · simp [h3]
        · by_cases h4 : b < a
          · simp [h4]
          · simp only [h3, h4, if_false]
            exact strLess_connected cs as bs h

instance strLe.isTotal : IsTotal GoString strLe where
  total a b := by
    unfold strLe
    cases hba : strLess b a with
    | false => exact Or.inl rfl
    | true => exact Or.inr (strLess_asymm b a hba)

instance strLe.isTrans : IsTrans GoString strLe where
  trans a b c hab hbc := by
    unfold strLe at *
    cases hca : strLess c a with
    | false => rfl
    | true =>
      rcases strLess_connected c a b hca with h | h
      · rw [h] at hbc; cases hbc
      · rw [h] at hab; cases hab

instance strLe.isAntisymm : IsAntisymm GoString strLe where
  antisymm a b hab hba := strLess_total a b hba hab

theorem sortStrings_sorted (ks : List GoString) : (sortStrings ks).Sorted strLe :=
  List.sorted_insertionSort _ _

/-- The sorted keys do not depend on the order in which they were enumerated. -/
theorem sortStrings_of_perm {ks ks' : List GoString} (hp : ks'.Perm ks) :
    sortStrings ks' = sortStrings ks :=
  List.eq_of_perm_of_sorted ((sortStrings_perm ks').trans (hp.trans (sortStrings_perm ks).symm))
    (sortStrings_sorted ks') (sortStrings_sorted ks)

/-- Distinct keys come out of `sort.Strings` strictly ascending. -/
theorem sortStrings_strict {ks : List GoString} (hnd : ks.Nodup) :
    (sortStrings ks).Pairwise (fun a b => strLess a b = true) := by
  have h1 : (sortStrings ks).Pairwise strLe := sortStrings_sorted ks
  have h2 : (sortStrings ks).Pairwise (· ≠ ·) := (sortStrings_perm ks).nodup_iff.2 hnd
  refine (h1.and h2).imp ?_
  intro a b hab
  cases h : strLess a b with
  | true => rfl
  | false => exact absurd (strLess_total a b h hab.1) hab.2

/-! ### Facts about loaded nodes -/

theorem shape_object {v : Value} (h : shapeType v = NodeType.Object) : ∃ m, v = Value.obj m := by
  cases v <;> simp [shapeType] at h
  exact ⟨_, rfl⟩

theorem shape_array {v : Value} (h : shapeType v = NodeType.Array) : ∃ xs, v = Value.arr xs := by
  cases v <;> simp [shapeType] at h
  exact ⟨_, rfl⟩

/-- Walking `NextSibling` along a chain visits the chain, given enough fuel. -/
theorem siblings_chain {h : Heap} {p : Nat} {lvl : Int} :
    ∀ {prev : Ptr} {cs : List Nat} {sps : List ChildSpec} (fuel : Nat),
      Chain h p lvl prev cs sps → cs.length ≤ fuel → siblings h fuel cs.head? = some cs
  | _, [], [], fuel, _, _ => by cases fuel <;> rfl
  | _, [], _ :: _, _, hc, _ => by simp [Chain] at hc
  | _, _ :: _, [], _, hc, _ => by simp [Chain] at hc
  | _, c :: cs, sp :: sps, 0, _, hl => by simp at hl
  | _, c :: cs, sp :: sps, fuel + 1, hc, hl => by
    simp only [Chain] at hc
    obtain ⟨⟨_, cd, hcd, _, _, hnext, _⟩, htail⟩ := hc
    have := siblings_chain fuel htail (by simpa using hl)
    simp [siblings, hcd, hnext, this]

theorem length_le_of_pairwise_lt {cs : List Nat} {n : Nat} (hp : cs.Pairwise (· < ·))
    (hb : ∀ c ∈ cs, c < n) : cs.length ≤ n := by
  have hnd : cs.Nodup := hp.imp (fun h => Nat.ne_of_lt h)
  have hsub : cs ⊆ List.range n := fun c hc => List.mem_range.2 (hb c hc)
  simpa using (hnd.subperm hsub).length_le

/-- The nodes of a chain, with the fields the loader gave them. -/
theorem chain_nodes {h : Heap} {p : Nat} {lvl : Int} :
    ∀ {prev : Ptr} {cs : List Nat} {sps : List ChildSpec}, Chain h p lvl prev cs sps →
      ∃ cds, nodesAt h cs = some cds ∧ cds.map Node.Key = sps.map ChildSpec.Key ∧
        cds.map Node.Path = sps.map ChildSpec.Path ∧
        cds.map Node.RawValue = sps.map ChildSpec.RawValue ∧
        ∀ cd ∈ cds, cd.Parent = some p ∧ cd.Level = lvl + 1
  | _, [], [], _ => ⟨[], rfl, rfl, rfl, rfl, by simp⟩
  | _, [], _ :: _, hc => by simp [Chain] at hc
  | _, _ :: _, [], hc => by simp [Chain] at hc
  | _, c :: cs, sp :: sps, hc => by
    simp only [Chain] at hc
    obtain ⟨⟨_, cd, hcd, hpar, _, _, hlv, hk, hpa, hr⟩, htail⟩ := hc
    obtain ⟨cds, h1, h2, h3, h4, h5⟩ := chain_nodes htail
    refine ⟨cd :: cds, by simp [nodesAt, hcd, h1], by simp [hk, h2], by simp [hpa, h3],
      by simp [hr, h4], ?_⟩
    intro cd' hcd'
    rcases List.mem_cons.1 hcd' with e | e
    · subst e; exact ⟨hpar, hlv⟩
    · exact h5 cd' e

/-- The child at position `i` of a chain. -/
theorem chain_get {h : Heap} {p : Nat} {lvl : Int} :
    ∀ {prev : Ptr} {cs : List Nat} {sps : List ChildSpec}, Chain h p lvl prev cs sps →
      ∀ (i c : Nat), cs[i]? = some c → ∃ sp cd, sps[i]? = some sp ∧ p < c ∧ h[c]? = some cd ∧
        cd.Parent = some p ∧ cd.Level = lvl + 1 ∧ cd.Key = sp.Key ∧ cd.Path = sp.Path ∧
        cd.RawValue = sp.RawValue
  | _, [], [], _, i, c, hi => by simp at hi
  | _, [], _ :: _, hc, _, _, _ => by simp [Chain] at hc
  | _, _ :: _, [], hc, _, _, _ => by simp [Chain] at hc
  | _, c0 :: cs, sp :: sps, hc, i, c, hi => by
    simp only [Chain] at hc
    obtain ⟨⟨hlt, cd, hcd, hpar, _, _, hlv, hk, hpa, hr⟩, htail⟩ := hc
    cases i with
    | zero =>
      simp only [List.getElem?_cons_zero, Option.some.injEq] at hi
      subst hi
      exact ⟨sp, cd, by simp, hlt, hcd, hpar, hlv, hk, hpa, hr⟩
    | succ j =>
      simp only [List.getElem?_cons_succ] at hi
      simpa using chain_get htail j c hi

theorem arraySpecs_length (path : GoString) : ∀ (i : Nat) (xs : List Value),
    (arraySpecs path i xs).length = xs.length
  | _, [] => rfl
  | i, _ :: xs => by simp [arraySpecs, arraySpecs_length path (i + 1) xs]

theorem arraySpecs_raw (path : GoString) : ∀ (i : Nat) (xs : List Value),
    (arraySpecs path i xs).map ChildSpec.RawValue = xs
  | _, [] => rfl
  | i, _ :: xs => by simp [arraySpecs, arraySpecs_raw path (i + 1) xs]

theorem arraySpecs_get (path : GoString) : ∀ (i j : Nat) (xs : List Value) (sp : ChildSpec),
    (arraySpecs path i xs)[j]? = some sp →
      sp.Key = [] ∧ sp.Path = path ++ 91 :: decimal (i + j) ++ [93] ∧ xs[j]? = some sp.RawValue
  | _, _, [], _, h => by simp [arraySpecs] at h
  | i, 0, x :: xs, sp, h => by
    simp only [arraySpecs, List.getElem?_cons_zero, Option.some.injEq] at h
    subst h
    simp
  | i, j + 1, x :: xs, sp, h => by
    simp only [arraySpecs, List.getElem?_cons_succ] at h
    have := arraySpecs_get path (i + 1) j xs sp h
    simpa [Nat.add_assoc, Nat.add_comm 1 j] using this

/-- The node of a loaded heap knows its children: their walk is the list `cs`
of `NodeOK`. -/
theorem nodeOK_children {h : Heap} {p : Nat} {nd : Node} (ok : NodeOK h p nd) :
    ∃ cs, children h nd = some cs ∧ cs.Pairwise (· < ·) ∧
      nd.Array = expectedArray nd.RawValue cs ∧ nd.Object = expectedObject nd.RawValue cs ∧
      nd.FirstChild = cs.head? ∧ nd.LastChild = cs.getLast? ∧
      Chain h p nd.Level none cs (childSpecs nd.Path nd.Level nd.RawValue) := by
  obtain ⟨_, _, cs, a1, a2, a3, a4, a5, a6⟩ := ok
  refine ⟨cs, ?_, a5, a1, a2, a3, a4, a6⟩
  unfold Zjson.children
  rw [a3]
  refine siblings_chain _ a6 (length_le_of_pairwise_lt a5 ?_)
  intro c hc
  obtain ⟨_, cd, hcd, _⟩ := chain_mem_get a6 c hc
  exact lt_length_of_get hcd

/-- Pairing each key with the value found under it gives back the map. -/
theorem map_mapGet_self : ∀ (m : List (GoString × Value)), (mapKeys m).Nodup →
    (mapKeys m).map (fun k => (k, mapGet m k)) = m
  | [], _ => rfl
  | (k, v) :: ms, hnd => by
    have hnd' : k ∉ mapKeys ms ∧ (mapKeys ms).Nodup := List.nodup_cons.1 hnd
    have ih := map_mapGet_self ms hnd'.2
    show (k, mapGet ((k, v) :: ms) k) :: (mapKeys ms).map (fun k' => (k', mapGet ((k, v) :: ms) k'))
      = (k, v) :: ms
    congr 1
    · simp [mapGet, mapLookup]
    · conv_rhs => rw [← ih]
      apply List.map_congr_left
      intro k' hk'
      have hne : k ≠ k' := by
        intro heq
        apply hnd'.1
        rw [heq]
        exact hk'
      simp [mapGet, mapLookup, hne]

/-! ### Parents and children in a loaded heap -/

theorem mapLookup_zip {α : Type} : ∀ (ks : List GoString) (vs : List α) (k : GoString) (v : α),
    mapLookup (ks.zip vs) k = some v → ∃ i : Nat, ks[i]? = some k ∧ vs[i]? = some v
  | [], _, _, _, h => by simp [mapLookup] at h
  | _ :: _, [], _, _, h => by simp [mapLookup] at h
  | k0 :: ks, v0 :: vs, k, v, h => by
    simp only [List.zip_cons_cons, mapLookup] at h
    by_cases hk : k0 = k
    · simp only [hk, if_true, Option.some.injEq] at h
      exact ⟨0, by simp [hk], by simp [h]⟩
    · simp only [hk, if_false] at h
      obtain ⟨i, h1, h2⟩ := mapLookup_zip ks vs k v h
      exact ⟨i + 1, by simpa using h1, by simpa using h2⟩

theorem mapLookup_zip_of_get {α : Type} : ∀ (ks : List GoString) (vs : List α) (i : Nat)
    (k : GoString) (v : α), ks.Nodup → ks[i]? = some k → vs[i]? = some v →
    mapLookup (ks.zip vs) k = some v
  | [], _, _, _, _, _, h, _ => by simp at h
  | _ :: _, [], _, _, _, _, _, h => by simp at h
  | k0 :: ks, v0 :: vs, 0, k, v, _, h1, h2 => by
    simp only [List.getElem?_cons_zero, Option.some.injEq] at h1 h2
    simp [mapLookup, h1, h2]
  | k0 :: ks, v0 :: vs, i + 1, k, v, hnd, h1, h2 => by
    simp only [List.getElem?_cons_succ] at h1 h2
    have hnd' := List.nodup_cons.1 hnd
    have hne : k0 ≠ k := by
      intro e
      apply hnd'.1
      rw [e]
      exact List.getElem?_mem h1
    simp only [List.zip_cons_cons, mapLookup, hne, if_false]
    exact mapLookup_zip_of_get ks vs i k v hnd'.2 h1 h2

/-- The children of a node, as its containers hold them. -/
theorem nodeOK_kids {h : Heap} {p : Nat} {nd : Node} {cs : List Nat}
    (a1 : nd.Array = expectedArray nd.RawValue cs)
    (a2 : nd.Object = expectedObject nd.RawValue cs)
    (a6 : Chain h p nd.Level none cs (childSpecs nd.Path nd.Level nd.RawValue)) :
    kids nd = cs.map some := by
  have hlen := chain_length_eq a6
  unfold kids
  cases hv : nd.RawValue with
  | arr xs => rw [hv] at a1; simp [a1, expectedArray]
  | obj m =>
    rw [hv] at a1 a2 hlen
    simp only [expectedArray, expectedObject] at a1 a2
    simp only [childSpecs, objectSpecs, List.length_map] at hlen
    simp only [a1, a2]
    exact List.map_snd_zip _ _ (by simp [hlen])
  | null =>
    rw [hv] at a1 a2 hlen
    simp only [expectedArray, expectedObject] at a1 a2
    simp only [childSpecs, List.length_nil, List.length_eq_zero] at hlen
    simp [a1, a2, hlen]
  | bool b =>
    rw [hv] at a1 a2 hlen
    simp only [expectedArray, expectedObject] at a1 a2
    simp only [childSpecs, List.length_nil, List.length_eq_zero] at hlen
    simp [a1, a2, hlen]
  | num f =>
    rw [hv] at a1 a2 hlen
    simp only [expectedArray, expectedObject] at a1 a2
    simp only [childSpecs, List.length_nil, List.length_eq_zero] at hlen
    simp [a1, a2, hlen]
  | str s =>
    rw [hv] at a1 a2 hlen
    simp only [expectedArray, expectedObject] at a1 a2
    simp only [childSpecs, List.length_nil, List.length_eq_zero] at hlen
    simp [a1, a2, hlen]

/-- The element `Array[i]` of a node of a loaded heap. -/
theorem loaded_array_elem {x : Value} {h : Heap} (L : Loaded x h) {p : Nat} {nd : Node}
    {a : List Ptr} {i c : Nat} (hp : h[p]? = some nd) (ha : nd.Array = some a)
    (hi : a[i]? = some (some c)) :
    ∃ xs v cd, nd.RawValue = Value.arr xs ∧ a.length = xs.length ∧ xs[i]? = some v ∧
      p < c ∧ h[c]? = some cd ∧ cd.Parent = some p ∧ cd.Level = nd.Level + 1 ∧ cd.Key = [] ∧
      cd.Path = nd.Path ++ 91 :: decimal i ++ [93] ∧ cd.RawValue = v := by
  obtain ⟨_, _, cs, a1, _, _, _, _, a6⟩ := L.node p nd hp
  cases hv : nd.RawValue with
  | arr xs =>
    rw [hv] at a1 a6
    simp only [expectedArray] at a1
    rw [ha] at a1
    injection a1 with a1
    subst a1
    have hci : cs[i]? = some c := by
      simp only [List.getElem?_map] at hi
      cases hc : cs[i]? with
      | none => rw [hc] at hi; simp at hi
      | some c' => rw [hc] at hi; simpa using hi
    obtain ⟨sp, cd, s1, s2, s3, s4, s5, s6, s7, s8⟩ := chain_get a6 i c hci
    obtain ⟨t1, t2, t3⟩ := arraySpecs_get _ _ _ _ _ s1
    refine ⟨xs, sp.RawValue, cd, rfl, ?_, t3, s2, s3, s4, s5, by rw [s6, t1], ?_, s8⟩
    · rw [List.length_map, chain_length_eq a6]
      exact arraySpecs_length _ _ _
    · rw [s7, t2, Nat.zero_add]
  | null => rw [hv] at a1; simp [expectedArray, ha] at a1
  | bool b => rw [hv] at a1; simp [expectedArray, ha] at a1
  | num f => rw [hv] at a1; simp [expectedArray, ha] at a1
  | str s => rw [hv] at a1; simp [expectedArray, ha] at a1
  | obj m => rw [hv] at a1; simp [expectedArray, ha] at a1

/-- The member `Object[k]` of a node of a loaded heap. -/
theorem loaded_object_member {x : Value} {h : Heap} (L : Loaded x h) {p : Nat} {nd : Node}
    {om : List (GoString × Ptr)} {k : GoString} {c : Nat} (hp : h[p]? = some nd)
    (ho : nd.Object = some om) (hk : mapLookup om k = some (some c)) :
    ∃ m cd, nd.RawValue = Value.obj m ∧ k ∈ mapKeys m ∧
      p < c ∧ h[c]? = some cd ∧ cd.Parent = some p ∧ cd.Level = nd.Level + 1 ∧ cd.Key = k ∧
      cd.Path = memberPath nd.Level nd.Path k ∧ cd.RawValue = mapGet m k := by
  obtain ⟨_, _, cs, _, a2, _, _, _, a6⟩ := L.node p nd hp
  cases hv : nd.RawValue with
  | obj m =>
    rw [hv] at a2 a6
    simp only [expectedObject] at a2
    rw [ho] at a2
    injection a2 with a2
    subst a2
    obtain ⟨i, h1, h2⟩ := mapLookup_zip _ _ _ _ hk
    have hci : cs[i]? = some c := by
      simp only [List.getElem?_map] at h2
      cases hc : cs[i]? with
      | none => rw [hc] at h2; simp at h2
      | some c' => rw [hc] at h2; simpa using h2
    obtain ⟨sp, cd, s1, s2, s3, s4, s5, s6, s7, s8⟩ := chain_get a6 i c hci
    simp only [childSpecs, objectSpecs, List.getElem?_map, h1, Option.map_some',
      Option.some.injEq] at s1
    subst s1
    exact ⟨m, cd, rfl, mem_sortStrings.1 (List.getElem?_mem h1), s2, s3, s4, s5, s6, s7, s8⟩
  | null => rw [hv] at a2; simp [expectedObject, ho] at a2
  | bool b => rw [hv] at a2; simp [expectedObject, ho] at a2
  | num f => rw [hv] at a2; simp [expectedObject, ho] at a2
  | str s => rw [hv] at a2; simp [expectedObject, ho] at a2
  | arr xs => rw [hv] at a2; simp [expectedObject, ho] at a2

/-- Every node but the root is an element of the `Array` or a member of the
`Object` of its `Parent`, which was allocated before it. -/
theorem loaded_parent {x : Value} {h : Heap} (L : Loaded x h) {q : Nat} {qd : Node}
    (hq0 : 0 < q) (hq : h[q]? = some qd) :
    ∃ r rd, r < q ∧ qd.Parent = some r ∧ h[r]? = some rd ∧
      ((∃ (a : List Ptr) (i : Nat), rd.Array = some a ∧ a[i]? = some (some q)) ∨
       (∃ om, rd.Object = some om ∧ mapLookup om qd.Key = some (some q))) := by
  obtain ⟨r, rd, h1, h2, h3, h4⟩ := L.held q qd hq0 hq
  refine ⟨r, rd, h1, h2, h3, ?_⟩
  obtain ⟨wfr, _, cs, a1, a2, _, _, _, a6⟩ := L.node r rd h3
  rw [nodeOK_kids a1 a2 a6] at h4
  have hmem : q ∈ cs := by simpa using h4
  obtain ⟨i, hci'⟩ := List.mem_iff_getElem?.1 hmem
  obtain ⟨sp, cd, s1, _, s3, _, _, s6, _, _⟩ := chain_get a6 i q hci'
  rw [hq] at s3
  injection s3 with s3
  subst s3
  cases hv : rd.RawValue with
  | arr xs =>
    left
    rw [hv] at a1
    exact ⟨_, i, a1, by simp [hci']⟩
  | obj m =>
    right
    rw [hv] at a2 s1 wfr
    simp only [childSpecs, objectSpecs, List.getElem?_map] at s1
    cases hk : (sortStrings (mapKeys m))[i]? with
    | none => rw [hk] at s1; simp at s1
    | some k =>
      rw [hk] at s1
      simp only [Option.map_some', Option.some.injEq] at s1
      subst s1
      refine ⟨_, a2, ?_⟩
      rw [s6]
      exact mapLookup_zip_of_get _ _ i k (some q)
        ((sortStrings_perm _).nodup_iff.2 wfr.1) hk (by simp [hci'])
  | null => rw [hv] at s1; simp [childSpecs] at s1
  | bool b => rw [hv] at s1; simp [childSpecs] at s1
  | num f => rw [hv] at s1; simp [childSpecs] at s1
  | str s => rw [hv] at s1; simp [childSpecs] at s1

/-- The root alone has level 0; no level is negative. -/
theorem loaded_level {x : Value} {h : Heap} (L : Loaded x h) :
    ∀ (q : Nat) (qd : Node), h[q]? = some qd → 0 ≤ qd.Level ∧ (qd.Level = 0 ↔ q = 0) := by
  intro q
  induction q using Nat.strong_induction_on with
  | _ q ih =>
    intro qd hq
    rcases Nat.eq_zero_or_pos q with e | e
    · subst e
      obtain ⟨rd, r1, _, r3, _⟩ := L.root
      rw [hq] at r1
      injection r1 with r1
      subst r1
      simp [r3]
    · obtain ⟨r, rd, h1, _, h3, h4⟩ := loaded_parent L e hq
      have hr := (ih r h1 rd h3).1
      have hlv : qd.Level = rd.Level + 1 := by
        rcases h4 with ⟨a, i, ha, hi⟩ | ⟨om, ho, hk⟩
        · obtain ⟨_, _, cd, _, _, _, _, s3, _, s5, _⟩ := loaded_array_elem L h3 ha hi
          rw [hq] at s3
          injection s3 with s3
          subst s3
          exact s5
        · obtain ⟨_, cd, _, _, _, s3, _, s5, _⟩ := loaded_object_member L h3 ho hk
          rw [hq] at s3
          injection s3 with s3
          subst s3
          exact s5
      constructor
      · omega
      · constructor
        · intro h0; omega
        · intro h0; omega

/-! ### Paths -/

theorem decimalAux_digits : ∀ (fuel n : Nat) (acc : GoString),
    (∀ d ∈ acc, 48 ≤ d ∧ d ≤ 57 ∨ d = 93) →
    ∀ d ∈ decimalAux fuel n acc, 48 ≤ d ∧ d ≤ 57 ∨ d = 93
  | 0, _, acc, hacc => by simpa [decimalAux] using hacc
  | fuel + 1, n, acc, hacc => by
    unfold decimalAux
    by_cases hn : n < 10
    · rw [if_pos hn]
      intro d hd
      rcases List.mem_cons.1 hd with e | e
      · left; omega
      · exact hacc d e
    · rw [if_neg hn]
      apply decimalAux_digits fuel
      intro d hd
      rcases List.mem_cons.1 hd with e | e
      · left
        have := Nat.mod_lt n (show 10 > 0 by omega)
        omega
      · exact hacc d e

theorem decimalAux_value : ∀ (fuel n : Nat) (acc : GoString), n < fuel →
    digitsValue (decimalAux fuel n acc) = acc.foldl (fun a d => 10 * a + (d - 48)) n
  | 0, _, _, h => by omega
  | fuel + 1, n, acc, h => by
    unfold decimalAux
    by_cases hn : n < 10
    · rw [if_pos hn]
      simp [digitsValue]
    · rw [if_neg hn]
      rw [decimalAux_value fuel (n / 10) _ (by omega)]
      simp only [List.foldl_cons]
      congr 1
      omega

/-- The decimal text of a number determines it. -/
theorem decimal_injective {a b : Nat} (h : decimal a = decimal b) : a = b := by
  have ha := decimalAux_value (a + 1) a [] (Nat.lt_succ_self a)
  have hb := decimalAux_value (b + 1) b [] (Nat.lt_succ_self b)
  simp only [List.foldl_nil] at ha hb
  unfold decimal at h
  rw [← ha, ← hb, h]

/-- The tail `decimal i ++ "]"` of an element path holds no `/` and no `[`. -/
theorem decimal_no_sep (i : Nat) : 47 ∉ decimal i ++ [93] ∧ 91 ∉ decimal i ++ [93] := by
  have key : ∀ d ∈ decimal i ++ [93], 48 ≤ d ∧ d ≤ 57 ∨ d = 93 := by
    intro d hd
    rcases List.mem_append.1 hd with e | e
    · exact decimalAux_digits _ _ [] (by simp) d e
    · right; simpa using e
  constructor
  · intro h; have := key _ h; omega
  · intro h; have := key _ h; omega

/-- A string is split in one way only at its last `/` or `[`. -/
theorem split_last_sep {p1 p2 u1 u2 : GoString} {s1 s2 : Nat}
    (hs1 : s1 = 47 ∨ s1 = 91) (hs2 : s2 = 47 ∨ s2 = 91)
    (h1 : 47 ∉ u1 ∧ 91 ∉ u1) (h2 : 47 ∉ u2 ∧ 91 ∉ u2)
    (e : p1 ++ s1 :: u1 = p2 ++ s2 :: u2) : p1 = p2 ∧ s1 = s2 ∧ u1 = u2 := by
  rcases List.append_eq_append_iff.1 e with ⟨a, ha1, ha2⟩ | ⟨a, ha1, ha2⟩
  · cases a with
    | nil =>
      simp only [List.nil_append, List.cons.injEq] at ha2
      exact ⟨by simpa using ha1.symm, ha2.1, ha2.2⟩
    | cons c a =>
      simp only [List.cons_append, List.cons.injEq] at ha2
      have : s2 ∈ u1 := by rw [ha2.2]; simp
      rcases hs2 with e2 | e2 <;> subst e2
      · exact absurd this h1.1
      · exact absurd this h1.2
  · cases a with
    | nil =>
      simp only [List.nil_append, List.cons.injEq] at ha2
      exact ⟨by simpa using ha1, ha2.1.symm, ha2.2.symm⟩
    | cons c a =>
      simp only [List.cons_append, List.cons.injEq] at ha2
      have : s1 ∈ u2 := by rw [ha2.2]; simp
      rcases hs1 with e1 | e1 <;> subst e1
      · exact absurd this h2.1
      · exact absurd this h2.2

theorem KeysOKList_mem {xs : List Value} (h : Value.KeysOK.KeysOKList xs) {x : Value}
    (hx : x ∈ xs) : x.KeysOK := by
  induction xs with
  | nil => simp at hx
  | cons y ys ih =>
    simp only [Value.KeysOK.KeysOKList] at h
    rcases List.mem_cons.1 hx with e | e
    · rw [e]; exact h.1
    · exact ih h.2 e

theorem KeysOKMembers_mem {m : List (GoString × Value)} (h : Value.KeysOK.KeysOKMembers m)
    {k : GoString} {x : Value} (hx : (k, x) ∈ m) : x.KeysOK := by
  induction m with
  | nil => simp at hx
  | cons e ms ih =>
    obtain ⟨k', y⟩ := e
    simp only [Value.KeysOK.KeysOKMembers] at h
    rcases List.mem_cons.1 hx with e | e
    · injection e with _ e2
      rw [e2]; exact h.1
    · exact ih h.2 e

/-- The raw value of every node of a loaded heap has keys as the document has. -/
theorem loaded_keysOK {x : Value} {h : Heap} (L : Loaded x h) (hx : x.KeysOK) :
    ∀ (q : Nat) (qd : Node), h[q]? = some qd → qd.RawValue.KeysOK := by
  intro q
  induction q using Nat.strong_induction_on with
  | _ q ih =>
    intro qd hq
    rcases Nat.eq_zero_or_pos q with e | e
    · subst e
      obtain ⟨rd, r1, _, _, _, _, _, _, r8⟩ := L.root
      rw [hq] at r1
      injection r1 with r1
      subst r1
      rw [r8]; exact hx
    · obtain ⟨r, rd, h1, _, h3, h4⟩ := loaded_parent L e hq
      have hr := ih r h1 rd h3
      rcases h4 with ⟨a, i, ha, hi⟩ | ⟨om, ho, hk⟩
      · obtain ⟨xs, v, cd, t1, _, t3, _, t5, _, _, _, _, t10⟩ := loaded_array_elem L h3 ha hi
        rw [hq] at t5
        injection t5 with t5
        subst t5
        rw [t1] at hr
        rw [t10]
        exact KeysOKList_mem hr (List.getElem?_mem t3)
      · obtain ⟨m, cd, t1, t2, _, t4, _, _, _, _, t9⟩ := loaded_object_member L h3 ho hk
        rw [hq] at t4
        injection t4 with t4
        subst t4
        rw [t1] at hr
        rw [t9]
        exact KeysOKMembers_mem hr.2 (mapGet_of_mem_keys t2)

/-- The path of a node but the root ends in a separator `/` or `[` and a tail
without separators; what stands before is the path of the parent, or nothing
for a member of the root. -/
theorem loaded_path_split {x : Value} {h : Heap} (L : Loaded x h) (hx : x.KeysOK)
    {q : Nat} {qd : Node} (hq0 : 0 < q) (hq : h[q]? = some qd) :
    ∃ r rd pre s u, r < q ∧ h[r]? = some rd ∧ qd.Path = pre ++ s :: u ∧
      (47 ∉ u ∧ 91 ∉ u) ∧
      ((s = 91 ∧ pre = rd.Path ∧ ∃ (a : List Ptr) (i : Nat),
          rd.Array = some a ∧ a[i]? = some (some q) ∧ u = decimal i ++ [93]) ∨
       (s = 47 ∧ u ≠ [] ∧ (pre = if r = 0 then [] else rd.Path) ∧
          ∃ om, rd.Object = some om ∧ mapLookup om u = some (some q))) := by
  obtain ⟨r, rd, h1, _, h3, h4⟩ := loaded_parent L hq0 hq
  rcases h4 with ⟨a, i, ha, hi⟩ | ⟨om, ho, hk⟩
  · obtain ⟨xs, v, cd, _, _, _, _, t5, _, _, _, t9, _⟩ := loaded_array_elem L h3 ha hi
    rw [hq] at t5
    injection t5 with t5
    subst t5
    exact ⟨r, rd, rd.Path, 91, decimal i ++ [93], h1, h3, by rw [t9]; simp, decimal_no_sep i,
      Or.inl ⟨rfl, rfl, a, i, ha, hi, rfl⟩⟩
  · obtain ⟨m, cd, t1, t2, _, t4, _, _, t7, t8, _⟩ := loaded_object_member L h3 ho hk
    rw [hq] at t4
    injection t4 with t4
    subst t4
    have hr := loaded_keysOK L hx r rd h3
    rw [t1] at hr
    have hkey := hr.1 _ t2
    obtain ⟨l1, l2⟩ := loaded_level L r rd h3
    refine ⟨r, rd, if r = 0 then [] else rd.Path, 47, qd.Key, h1, h3, ?_, hkey.2,
      Or.inr ⟨rfl, hkey.1, rfl, om, ho, hk⟩⟩
    rw [t8, memberPath]
    by_cases hr0 : r = 0
    · have := l2.2 hr0
      simp [hr0, this]
    · have : rd.Level ≠ 0 := fun e => hr0 (l2.1 e)
      rw [if_neg hr0, if_pos (by omega)]

theorem loaded_path_ne_nil {x : Value} {h : Heap} (L : Loaded x h) (hx : x.KeysOK)
    {q : Nat} {qd : Node} (hq : h[q]? = some qd) : qd.Path ≠ [] := by
  rcases Nat.eq_zero_or_pos q with e | e
  · subst e
    obtain ⟨rd, r1, r2, _⟩ := L.root
    rw [hq] at r1
    injection r1 with r1
    subst r1
    rw [r2]; simp
  · obtain ⟨r, rd, pre, s, u, _, _, h3, _⟩ := loaded_path_split L hx e hq
    rw [h3]; simp

/-- The root is the only node with the path `/`. -/
theorem loaded_path_root {x : Value} {h : Heap} (L : Loaded x h) (hx : x.KeysOK)
    {q : Nat} {qd : Node} (hq : h[q]? = some qd) (hp : qd.Path = [47]) : q = 0 := by
  rcases Nat.eq_zero_or_pos q with e | e
  · exact e
  · exfalso
    obtain ⟨r, rd, pre, s, u, _, h2, h3, h4, h5⟩ := loaded_path_split L hx e hq
    rw [hp] at h3
    have hs : s = 47 ∨ s = 91 := by
      rcases h5 with ⟨e, _⟩ | ⟨e, _⟩
      · exact Or.inr e
      · exact Or.inl e
    obtain ⟨e1, e2, e3⟩ := @split_last_sep [] pre [] u 47 s (Or.inl rfl) hs (by simp) h4 h3
    rcases h5 with ⟨e, _⟩ | ⟨_, hne, _⟩
    · omega
    · exact hne e3.symm

/-- With keys that are not empty and hold no `/` and no `[`, two nodes of a
loaded heap with the same path are the same node. -/
theorem loaded_path_injective {x : Value} {h : Heap} (L : Loaded x h) (hx : x.KeysOK) :
    ∀ (q1 q2 : Nat) (d1 d2 : Node), h[q1]? = some d1 → h[q2]? = some d2 →
      d1.Path = d2.Path → q1 = q2 := by
  intro q1
  induction q1 using Nat.strong_induction_on with
  | _ q1 ih =>
    intro q2 d1 d2 hq1 hq2 hp
    rcases Nat.eq_zero_or_pos q1 with e1 | e1
    · subst e1
      obtain ⟨rd, r1, r2, _⟩ := L.root
      rw [hq1] at r1
      injection r1 with r1
      subst r1
      exact (loaded_path_root L hx hq2 (by rw [← hp, r2])).symm
    rcases Nat.eq_zero_or_pos q2 with e2 | e2
    · subst e2
      obtain ⟨rd, r1, r2, _⟩ := L.root
      rw [hq2] at r1
      injection r1 with r1
      subst r1
      exact loaded_path_root L hx hq1 (by rw [hp, r2])
    obtain ⟨r1, rd1, pre1, s1, u1, a1, a2, a3, a4, a5⟩ := loaded_path_split L hx e1 hq1
    obtain ⟨r2, rd2, pre2, s2, u2, b1, b2, b3, b4, b5⟩ := loaded_path_split L hx e2 hq2
    have hs1 : s1 = 47 ∨ s1 = 91 := by
      rcases a5 with ⟨e, _⟩ | ⟨e, _⟩
      · exact Or.inr e
      · exact Or.inl e
    have hs2 : s2 = 47 ∨ s2 = 91 := by
      rcases b5 with ⟨e, _⟩ | ⟨e, _⟩
      · exact Or.inr e
      · exact Or.inl e
    rw [a3, b3] at hp
    obtain ⟨c1, c2, c3⟩ := split_last_sep hs1 hs2 a4 b4 hp
    rcases a5 with ⟨f1, f2, a, i, f3, f4, f5⟩ | ⟨f1, f2, f3, om, f4, f5⟩
    · rcases b5 with ⟨g1, g2, a', i', g3, g4, g5⟩ | ⟨g1, _⟩
      · have hr : r1 = r2 := ih r1 a1 r2 rd1 rd2 a2 b2 (by rw [← f2, ← g2, c1])
        subst hr
        rw [a2] at b2
        injection b2 with b2
        subst b2
        rw [f3] at g3
        injection g3 with g3
        subst g3
        have hi : i = i' := by
          apply decimal_injective
          rw [f5, g5] at c3
          exact List.append_cancel_right c3
        subst hi
        rw [f4] at g4
        injection g4 with g4
        injection g4
      · omega
    · rcases b5 with ⟨g1, _⟩ | ⟨g1, g2, g3, om', g4, g5⟩
      · omega
      · have hr : r1 = r2 := by
          by_cases h10 : r1 = 0
          · by_cases h20 : r2 = 0
            · rw [h10, h20]
            · rw [if_pos h10] at f3
              rw [if_neg h20] at g3
              exact absurd (by rw [← g3, ← c1, f3]) (loaded_path_ne_nil L hx b2)
          · by_cases h20 : r2 = 0
            · rw [if_neg h10] at f3
              rw [if_pos h20] at g3
              exact absurd (by rw [← f3, c1, g3]) (loaded_path_ne_nil L hx a2)
            · rw [if_neg h10] at f3
              rw [if_neg h20] at g3
              exact ih r1 a1 r2 rd1 rd2 a2 b2 (by rw [← f3, ← g3, c1])
        subst hr
        rw [a2] at b2
        injection b2 with b2
        subst b2
        rw [f4] at g4
        injection g4 with g4
        subst g4
        rw [c3, g5] at f5
        injection f5 with f5
        injection f5 with f5
        exact f5.symm

/-! ### Slices -/

/-- The list `between l lo hi` holds at `j` the element of `l` at `lo + j`, as
long as that index is below `hi`. -/
theorem between_getElem? {α : Type} (l : List α) (lo hi : Int) (j : Nat) :
    (between l lo hi)[j]? = if lo.toNat + j < hi.toNat then l[lo.toNat + j]? else none := by
  unfold between
  rw [List.getElem?_drop, List.getElem?_take]

theorem between_length {α : Type} (l : List α) (start end_ : Int) :
    ((between l (max start 0) (min end_ l.length)).length : Int)
      = max 0 (min end_ l.length - max start 0) := by
  unfold between
  rw [List.length_drop, List.length_take]
  omega

theorem between_nil {α : Type} (l : List α) (start end_ : Int)
    (h : start ≥ end_ ∨ start ≥ l.length ∨ end_ ≤ 0) :
    between l (max start 0) (min end_ l.length) = [] := by
  apply List.eq_nil_of_length_eq_zero
  have := between_length l start end_
  omega

/-- The clamped slice expression of `Slice` and `GetSlice` is within bounds. -/
theorem sliceExpr_clamped {α : Type} (s : List α) (start end_ : Int)
    (h : ¬ (start ≥ end_ ∨ start ≥ s.length ∨ end_ ≤ 0)) :
    sliceExpr s (if start < 0 then 0 else start)
        (if end_ > s.length then (s.length : Int) else end_)
      = .ok (between s (max start 0) (min end_ s.length)) := by
  have e1 : (if start < 0 then 0 else start) = max start 0 := by
    split <;> omega
  have e2 : (if end_ > s.length then (s.length : Int) else end_) = min end_ s.length := by
    split <;> omega
  rw [e1, e2]
  unfold sliceExpr between
  rw [if_pos (by omega), List.take_drop]
  congr 3
  omega

/-- An Array node of a loaded heap: its raw value is a sequence, and its
`Array` holds one child per element. -/
theorem loaded_array_node {x : Value} {h : Heap} (L : Loaded x h) {p : Nat} {nd : Node}
    (hp : h[p]? = some nd) (hty : nd.Typ = NodeType.Array) :
    ∃ xs cs, nd.RawValue = Value.arr xs ∧ nd.Array = some (cs.map some) ∧
      cs.length = xs.length ∧ children h nd = some cs := by
  have ok := L.node p nd hp
  obtain ⟨xs, hxs⟩ := shape_array (ok.2.1 ▸ hty)
  obtain ⟨cs, c1, _, c3, _, _, _, c7⟩ := nodeOK_children ok
  rw [hxs] at c7 c3
  refine ⟨xs, cs, hxs, c3, ?_, c1⟩
  rw [chain_length_eq c7]
  exact arraySpecs_length _ _ _

/-- An Object node of a loaded heap: its raw value is a map without repeated
keys, and its `Object` holds one child per key. -/
theorem loaded_object_node {x : Value} {h : Heap} (L : Loaded x h) {p : Nat} {nd : Node}
    (hp : h[p]? = some nd) (hty : nd.Typ = NodeType.Object) :
    ∃ m cs, nd.RawValue = Value.obj m ∧ (mapKeys m).Nodup ∧
      nd.Object = some ((sortStrings (mapKeys m)).zip (cs.map some)) ∧
      cs.length = m.length ∧ children h nd = some cs := by
  have ok := L.node p nd hp
  obtain ⟨m, hm⟩ := shape_object (ok.2.1 ▸ hty)
  obtain ⟨cs, c1, _, _, c4, _, _, c7⟩ := nodeOK_children ok
  have wfm := ok.1
  rw [hm] at c7 c4 wfm
  refine ⟨m, cs, hm, wfm.1, c4, ?_, c1⟩
  rw [chain_length_eq c7]
  simp only [childSpecs, objectSpecs, List.length_map]
  rw [(sortStrings_perm _).length_eq]
  simp [mapKeys]

/-! ### Accessors on a loaded heap -/

/-- The fallback of an accessor: the first supplied default, or the zero value. -/
theorem default_first {α : Type} (dflt : List α) (z : α) :
    (if dflt.length > 0 then sliceIndex dflt 0 else Except.ok z : Except Panic α)
      = .ok (dflt.headD z) := by
  cases dflt with
  | nil => rfl
  | cons d ds => simp [sliceIndex]

theorem sliceIndex_get {α : Type} {s : List α} {i : Int} {v : α} (h0 : 0 ≤ i)
    (hv : s[i.toNat]? = some v) : sliceIndex s i = .ok v := by
  simp [sliceIndex, h0, hv]

theorem loaded_type {x : Value} {h : Heap} (L : Loaded x h) {p : Nat} {nd : Node}
    (hp : h[p]? = some nd) : nd.Typ = shapeType nd.RawValue :=
  (L.node p nd hp).2.1

theorem GetBool_eq {x : Value} {h : Heap} (L : Loaded x h) {p : Nat} {nd : Node}
    (hp : h[p]? = some nd) (dflt : List Bool) :
    GetBool h (some p) dflt = .ok (match nd.RawValue with
      | .bool b => b
      | _ => dflt.headD false) := by
  have ht := loaded_type L hp
  unfold GetBool
  rw [deref_some hp]
  simp only [bind, Except.bind, ht, default_first]
  cases nd.RawValue <;> simp [shapeType, assertBool]

theorem GetFloat64_eq {x : Value} {h : Heap} (L : Loaded x h) {p : Nat} {nd : Node}
    (hp : h[p]? = some nd) (dflt : List Float64) :
    GetFloat64 h (some p) dflt = .ok (match nd.RawValue with
      | .num f => f
      | _ => dflt.headD ⟨0⟩) := by
  have ht := loaded_type L hp
  unfold GetFloat64
  rw [deref_some hp]
  simp only [bind, Except.bind, ht, default_first]
  cases nd.RawValue <;> simp [shapeType, assertFloat64]

theorem GetInt_eq {x : Value} {h : Heap} (L : Loaded x h) {p : Nat} {nd : Node}
    (hp : h[p]? = some nd) (toInt : Float64 → Int) (dflt : List Int) :
    GetInt toInt h (some p) dflt = .ok (match nd.RawValue with
      | .num f => toInt f
      | _ => dflt.headD 0) := by
  have ht := loaded_type L hp
  unfold GetInt
  rw [deref_some hp]
  simp only [bind, Except.bind, ht, default_first]
  cases nd.RawValue <;> simp [shapeType, assertFloat64]

theorem GetString_eq {x : Value} {h : Heap} (L : Loaded x h) {p : Nat} {nd : Node}
    (hp : h[p]? = some nd) (dflt : List GoString) :
    GetString h (some p) dflt = .ok (match nd.RawValue with
      | .str s => s
      | _ => dflt.headD []) := by
  have ht := loaded_type L hp
  unfold GetString
  rw [deref_some hp]
  simp only [bind, Except.bind, ht, default_first]
  cases nd.RawValue <;> simp [shapeType, assertString]

theorem GetArray_eq {x : Value} {h : Heap} (L : Loaded x h) {p : Nat} {nd : Node}
    (hp : h[p]? = some nd) (dflt : List (Option (List Value))) :
    GetArray h (some p) dflt = .ok (match nd.RawValue with
      | .arr xs => some xs
      | _ => dflt.headD none) := by
  have ht := loaded_type L hp
  unfold GetArray
  rw [deref_some hp]
  simp only [bind, Except.bind, ht, default_first]
  cases nd.RawValue <;> simp [shapeType, assertSlice]

theorem GetObject_eq {x : Value} {h : Heap} (L : Loaded x h) {p : Nat} {nd : Node}
    (hp : h[p]? = some nd) (dflt : List (Option (List (GoString × Value)))) :
    GetObject h (some p) dflt = .ok (match nd.RawValue with
      | .obj m => some m
      | _ => dflt.headD none) := by
  have ht := loaded_type L hp
  unfold GetObject
  rw [deref_some hp]
  simp only [bind, Except.bind, ht, default_first]
  cases nd.RawValue <;> simp [shapeType, assertMap]

theorem GetObjectValue_eq {x : Value} {h : Heap} (L : Loaded x h) {p : Nat} {nd : Node}
    (hp : h[p]? = some nd) (key : GoString) (dflt : List Value) :
    GetObjectValue h (some p) key dflt = .ok (match nd.RawValue with
      | .obj m => (mapLookup m key).getD (dflt.headD Value.null)
      | _ => dflt.headD Value.null) := by
  have ht := loaded_type L hp
  unfold GetObjectValue
  rw [deref_some hp]
  simp only [bind, Except.bind, ht, default_first]
  cases hv : nd.RawValue <;> simp [shapeType, assertMap]
  rename_i m
  cases mapLookup m key <;> rfl

theorem GetCount_eq {x : Value} {h : Heap} (L : Loaded x h) {p : Nat} {nd : Node}
    (hp : h[p]? = some nd) :
    GetCount h (some p) = .ok (match nd.RawValue with
      | .arr xs => (xs.length : Int)
      | .obj m => (m.length : Int)
      | _ => 0) := by
  have ht := loaded_type L hp
  unfold GetCount
  rw [deref_some hp]
  simp only [bind, Except.bind, ht]
  cases nd.RawValue <;> simp [shapeType, assertSlice, assertMap]

theorem GetSlice_eq {x : Value} {h : Heap} (L : Loaded x h) {p : Nat} {nd : Node}
    (hp : h[p]? = some nd) (start end_ : Int) (dflt : List (Option (List Value))) :
    GetSlice h (some p) start end_ dflt = .ok (match nd.RawValue with
      | .arr xs => some (between xs (max start 0) (min end_ xs.length))
      | _ => dflt.headD none) := by
  have ht := loaded_type L hp
  unfold GetSlice
  rw [deref_some hp]
  simp only [bind, Except.bind, ht, default_first]
  cases hv : nd.RawValue <;> simp [shapeType, assertSlice]
  rename_i xs
  by_cases hc : start ≥ end_ ∨ start ≥ (xs.length : Int) ∨ end_ ≤ 0
  · have hc' : end_ ≤ start ∨ (xs.length : Int) ≤ start ∨ end_ ≤ 0 := hc
    rw [if_pos hc', between_nil _ _ _ hc]
  · have hc' : ¬ (end_ ≤ start ∨ (xs.length : Int) ≤ start ∨ end_ ≤ 0) := hc
    rw [if_neg hc']
    have := sliceExpr_clamped xs start end_ hc
    simp only [gt_iff_lt] at this
    rw [this]

theorem GetIndex_eq {x : Value} {h : Heap} (L : Loaded x h) {p : Nat} {nd : Node}
    (hp : h[p]? = some nd) (i : Int) (dflt : List Value) :
    GetIndex h (some p) i dflt = .ok (match nd.RawValue with
      | .arr xs => if 0 ≤ i then (xs[i.toNat]?).getD (dflt.headD Value.null)
                   else dflt.headD Value.null
      | _ => dflt.headD Value.null) := by
  have ht := loaded_type L hp
  unfold GetIndex
  rw [deref_some hp]
  simp only [bind, Except.bind, ht, default_first]
  cases hv : nd.RawValue <;> simp [shapeType, assertSlice]
  rename_i xs
  by_cases h0 : 0 ≤ i
  · by_cases h1 : i < xs.length
    · have hlt : i.toNat < xs.length := by omega
      rw [if_pos ⟨h0, h1⟩, if_pos h0, List.getElem?_eq_getElem hlt]
      exact sliceIndex_get h0 (List.getElem?_eq_getElem hlt)
    · rw [if_neg (by omega), if_pos h0, List.getElem?_eq_none (by omega)]
      rfl
  · rw [if_neg (by omega), if_neg h0]

theorem Slice_eq {x : Value} {h : Heap} (L : Loaded x h) {p : Nat} {nd : Node}
    (hp : h[p]? = some nd) (start end_ : Int) :
    Slice h (some p) start end_ = .ok (match nd.Array with
      | some a => some (between a (max start 0) (min end_ a.length))
      | none => none) := by
  have ok := L.node p nd hp
  obtain ⟨_, ht, cs, a1, _⟩ := ok
  unfold Slice
  rw [deref_some hp]
  simp only [bind, Except.bind, ht]
  cases hv : nd.RawValue with
  | arr xs =>
    rw [hv] at a1
    simp only [expectedArray] at a1
    simp only [shapeType, ne_eq, not_true_eq_false, if_false, arrayLen, a1, Option.getD_some]
    by_cases hc : start ≥ end_ ∨ start ≥ ((cs.map some).length : Int) ∨ end_ ≤ 0
    · rw [if_pos hc, between_nil _ _ _ hc]
    · rw [if_neg hc, sliceExpr_clamped _ _ _ hc]
  | null => rw [hv] at a1; simp [shapeType, a1, expectedArray]
  | bool b => rw [hv] at a1; simp [shapeType, a1, expectedArray]
  | num f => rw [hv] at a1; simp [shapeType, a1, expectedArray]
  | str s => rw [hv] at a1; simp [shapeType, a1, expectedArray]
  | obj m => rw [hv] at a1; simp [shapeType, a1, expectedArray]

theorem Index_eq {x : Value} {h : Heap} (L : Loaded x h) {p : Nat} {nd : Node}
    (hp : h[p]? = some nd) (i : Int) :
    Index h (some p) i = .ok (match nd.Array with
      | some a => if 0 ≤ i then (a[i.toNat]?).getD none else none
      | none => none) := by
  have ok := L.node p nd hp
  obtain ⟨_, ht, cs, a1, _⟩ := ok
  unfold Index
  rw [deref_some hp]
  simp only [bind, Except.bind, ht]
  cases hv : nd.RawValue with
  | arr xs =>
    rw [hv] at a1
    simp only [expectedArray] at a1
    simp only [shapeType, if_true, arrayLen, a1, Option.getD_some]
    by_cases h0 : 0 ≤ i
    · by_cases h1 : i < ((cs.map some).length : Int)
      · have hlt : i.toNat < (cs.map some).length := by omega
        rw [if_pos ⟨h0, h1⟩, if_pos h0, List.getElem?_eq_getElem hlt]
        exact sliceIndex_get h0 (List.getElem?_eq_getElem hlt)
      · rw [if_neg (by omega), if_pos h0, List.getElem?_eq_none (by omega)]
        rfl
    · rw [if_neg (by omega), if_neg h0]
  | null => rw [hv] at a1; simp [shapeType, a1, expectedArray]
  | bool b => rw [hv] at a1; simp [shapeType, a1, expectedArray]
  | num f => rw [hv] at a1; simp [shapeType, a1, expectedArray]
  | str s => rw [hv] at a1; simp [shapeType, a1, expectedArray]
  | obj m => rw [hv] at a1; simp [shapeType, a1, expectedArray]

/-! ### Links between siblings, levels -/

/-- The sibling pointers of the child at position `i` of a chain. -/
theorem chain_links {h : Heap} {p : Nat} {lvl : Int} :
    ∀ {prev : Ptr} {cs : List Nat} {sps : List ChildSpec}, Chain h p lvl prev cs sps →
      ∀ (i c : Nat), cs[i]? = some c → ∃ cd, h[c]? = some cd ∧ cd.Parent = some p ∧
        cd.PrevSibling = (if i = 0 then prev else cs[i - 1]?) ∧ cd.NextSibling = cs[i + 1]?
  | _, [], [], _, i, c, hi => by simp at hi
  | _, [], _ :: _, hc, _, _, _ => by simp [Chain] at hc
  | _, _ :: _, [], hc, _, _, _ => by simp [Chain] at hc
  | prev, c0 :: cs, sp :: sps, hc, i, c, hi => by
    simp only [Chain] at hc
    obtain ⟨⟨_, cd, hcd, hpar, hprev, hnext, _⟩, htail⟩ := hc
    cases i with
    | zero =>
      simp only [List.getElem?_cons_zero, Option.some.injEq] at hi
      subst hi
      refine ⟨cd, hcd, hpar, by simpa using hprev, ?_⟩
      rw [hnext]
      cases cs <;> simp
    | succ j =>
      simp only [List.getElem?_cons_succ] at hi
      obtain ⟨cd', h1, h2, h3, h4⟩ := chain_links htail j c hi
      refine ⟨cd', h1, h2, ?_, by simpa using h4⟩
      rw [h3]
      cases j with
      | zero => simp
      | succ k => simp

/-- The number of children of a node of a loaded heap, by the shape of its raw
value. -/
theorem childSpecs_length (path : GoString) (lvl : Int) (v : Value) :
    (childSpecs path lvl v).length = match v with
      | .arr xs => xs.length
      | .obj m => m.length
      | _ => 0 := by
  cases v with
  | arr xs => exact arraySpecs_length _ _ _
  | obj m =>
    simp only [childSpecs, objectSpecs, List.length_map]
    rw [(sortStrings_perm _).length_eq]
    simp [mapKeys]
  | null => rfl
  | bool b => rfl
  | num f => rfl
  | str s => rfl

/-- The level of a node of a loaded heap is the number of `Parent` hops up to
the root. -/
theorem loaded_hops {x : Value} {h : Heap} (L : Loaded x h) :
    ∀ (q : Nat) (qd : Node), h[q]? = some qd → ∀ fuel, q ≤ fuel →
      ∃ k : Nat, parentHops h fuel q = some k ∧ qd.Level = k := by
  intro q
  induction q using Nat.strong_induction_on with
  | _ q ih =>
    intro qd hq fuel hf
    rcases Nat.eq_zero_or_pos q with e | e
    · subst e
      obtain ⟨rd, r1, _, r3, r4, _⟩ := L.root
      rw [hq] at r1
      injection r1 with r1
      subst r1
      refine ⟨0, ?_, by simpa using r3⟩
      cases fuel <;> simp [parentHops, hq, r4]
    · obtain ⟨r, rd, h1, h2, h3, h4⟩ := loaded_parent L e hq
      have hlv : qd.Level = rd.Level + 1 := by
        rcases h4 with ⟨a, i, ha, hi⟩ | ⟨om, ho, hk⟩
        · obtain ⟨_, _, cd, _, _, _, _, s3, _, s5, _⟩ := loaded_array_elem L h3 ha hi
          rw [hq] at s3
          injection s3 with s3
          subst s3
          exact s5
        · obtain ⟨_, cd, _, _, _, s3, _, s5, _⟩ := loaded_object_member L h3 ho hk
          rw [hq] at s3
          injection s3 with s3
          subst s3
          exact s5
      cases fuel with
      | zero => omega
      | succ f =>
        obtain ⟨k, hk1, hk2⟩ := ih r h1 rd h3 f (by omega)
        refine ⟨k + 1, ?_, ?_⟩
        · simp [parentHops, hq, h2, hk1]
        · rw [hlv, hk2]
          simp

/-! ### Two runs of the loader on the same JSON value -/

theorem exSame_bind {α β : Type} {R : α → α → Prop} {S : β → β → Prop}
    {r r' : Except Panic α} {k k' : α → Except Panic β} (h1 : ExSame R r r')
    (h2 : ∀ a b, R a b → ExSame S (k a) (k' b)) : ExSame S (r >>= k) (r' >>= k') := by
  cases r with
  | error e =>
    cases r' with
    | error e' => trivial
    | ok b => exact h1.elim
  | ok a =>
    cases r' with
    | error e' => exact h1.elim
    | ok b => exact h2 a b h1

theorem heapSame_length {h h' : Heap} (hs : HeapSame h h') : h.length = h'.length :=
  List.Forall₂.length_eq hs

theorem heapSame_get {h h' : Heap} (hs : HeapSame h h') (a : Nat) :
    (h[a]? = none ∧ h'[a]? = none) ∨
      ∃ nd nd', h[a]? = some nd ∧ h'[a]? = some nd' ∧ NodeSame nd nd' := by
  induction hs generalizing a with
  | nil => left; simp
  | cons hab _ ih =>
    cases a with
    | zero => right; exact ⟨_, _, by simp, by simp, hab⟩
    | succ a => simpa using ih a

theorem heapSame_set {h h' : Heap} (hs : HeapSame h h') (a : Nat) {v v' : Node}
    (hv : NodeSame v v') : HeapSame (h.set a v) (h'.set a v') := by
  induction hs generalizing a with
  | nil => exact List.Forall₂.nil
  | cons hab ht ih =>
    cases a with
    | zero => exact List.Forall₂.cons hv ht
    | succ a => exact List.Forall₂.cons hab (ih a)

theorem heapSame_push {h h' : Heap} (hs : HeapSame h h') {v v' : Node}
    (hv : NodeSame v v') : HeapSame (h ++ [v]) (h' ++ [v']) := by
  induction hs with
  | nil => exact List.Forall₂.cons hv List.Forall₂.nil
  | cons hab _ ih => exact List.Forall₂.cons hab ih

theorem deref_same {h h' : Heap} (hs : HeapSame h h') (p : Ptr) :
    ExSame NodeSame (deref h p) (deref h' p) := by
  cases p with
  | none => trivial
  | some a =>
    rcases heapSame_get hs a with ⟨e1, e2⟩ | ⟨nd, nd', e1, e2, hn⟩
    · simp [deref, e1, e2, ExSame]
    · simp [deref, e1, e2, ExSame, hn]

theorem store_same {h h' : Heap} (hs : HeapSame h h') (p : Ptr) {f f' : Node → Node}
    (hf : ∀ a b, NodeSame a b → NodeSame (f a) (f' b)) :
    ExSame HeapSame (store h p f) (store h' p f') := by
  cases p with
  | none => trivial
  | some a =>
    rcases heapSame_get hs a with ⟨e1, e2⟩ | ⟨nd, nd', e1, e2, hn⟩
    · simp [store, e1, e2, ExSame]
    · simp only [store, e1, e2, ExSame]
      exact heapSame_set hs a (hf nd nd' hn)

theorem setRelation_same {h h' : Heap} (hs : HeapSame h h') (node n : Ptr) :
    ExSame HeapSame (setRelation node n h) (setRelation node n h') := by
  unfold setRelation
  refine exSame_bind (store_same hs n ?_) ?_
  · intro a b hab
    exact { hab with parent := rfl }
  intro g g' hg
  refine exSame_bind (deref_same hg node) ?_
  intro nv nv' hnv
  simp only []
  rw [← hnv.first, ← hnv.last]
  split
  · refine exSame_bind (store_same hg node ?_) ?_
    · intro a b hab
      exact { hab with first := rfl }
    intro g1 g1' hg1
    refine store_same hg1 node ?_
    intro a b hab
    exact { hab with last := rfl }
  · refine exSame_bind (store_same hg _ ?_) ?_
    · intro a b hab
      exact { hab with next := rfl }
    intro g1 g1' hg1
    refine exSame_bind (store_same hg1 n ?_) ?_
    · intro a b hab
      exact { hab with prev := rfl }
    intro g2 g2' hg2
    refine store_same hg2 node ?_
    intro a b hab
    exact { hab with last := rfl }

theorem setArrayElem_same {h h' : Heap} (hs : HeapSame h h') (node : Ptr) (i : Nat)
    (n : Ptr) : ExSame HeapSame (setArrayElem node i n h) (setArrayElem node i n h') := by
  unfold setArrayElem
  refine exSame_bind (deref_same hs node) ?_
  intro nv nv' hnv
  rw [← hnv.array]
  cases nv.Array with
  | none => trivial
  | some s =>
    simp only [sliceSet]
    split
    · refine store_same hs node ?_
      intro a b hab
      exact { hab with array := rfl }
    · trivial

theorem setObjectEntry_same {h h' : Heap} (hs : HeapSame h h') (node : Ptr)
    (key : GoString) (n : Ptr) :
    ExSame HeapSame (setObjectEntry node key n h) (setObjectEntry node key n h') := by
  unfold setObjectEntry
  refine exSame_bind (deref_same hs node) ?_
  intro nv nv' hnv
  rw [← hnv.object]
  cases nv.Object with
  | none => trivial
  | some m =>
    refine store_same hs node ?_
    intro a b hab
    exact { hab with object := rfl }

/-- The loop of the slice case on two sequences of the same values. -/
theorem arrayLoop_same : ∀ (xs ys : List Value), Value.Same.SameList xs ys →
    (∀ x ∈ xs, ∀ y, Value.Same x y → ∀ (node : Ptr) (h h' : Heap), HeapSame h h' →
      ExSame HeapSame (parseValue x node h) (parseValue y node h')) →
    ∀ (node : Ptr) (i : Nat) (h h' : Heap), HeapSame h h' →
      ExSame HeapSame (arrayLoop xs node i h) (arrayLoop ys node i h')
  | [], [], _, _, _, _, _, _, hs => by
    simpa [arrayLoop, ExSame] using hs
  | [], _ :: _, hl, _, _, _, _, _, _ => by simp [Value.Same.SameList] at hl
  | _ :: _, [], hl, _, _, _, _, _, _ => by simp [Value.Same.SameList] at hl
  | x :: xs, y :: ys, hl, ih, node, i, h, h', hs => by
    simp only [Value.Same.SameList] at hl
    simp only [arrayLoop, new]
    refine exSame_bind (deref_same hs node) ?_
    intro nv nv' hnv
    rw [← heapSame_length hs, ← hnv.path, ← hnv.level]
    refine exSame_bind (setRelation_same (heapSame_push hs ?_) _ _) ?_
    · exact ⟨rfl, rfl, rfl, rfl, rfl, rfl, rfl, rfl, rfl, rfl, rfl, hl.1⟩
    intro g g' hg
    refine exSame_bind (ih x (by simp) y hl.1 _ g g' hg) ?_
    intro g1 g1' hg1
    refine exSame_bind (setArrayElem_same hg1 _ _ _) ?_
    intro g2 g2' hg2
    exact arrayLoop_same xs ys hl.2 (fun x' hx' => ih x' (List.mem_cons_of_mem _ hx'))
      node (i + 1) g2 g2' hg2

/-- The loop of the map case on two maps that hold the same value under each
of the keys. -/
theorem objectLoop_same (v v' : List (GoString × Value))
    (parse parse' : GoString → Ptr → Heap → Except Panic Heap) :
    ∀ (keys : List GoString),
    (∀ k ∈ keys, Value.Same (mapGet v k) (mapGet v' k) ∧
      ∀ (node : Ptr) (h h' : Heap), HeapSame h h' →
        ExSame HeapSame (parse k node h) (parse' k node h')) →
    ∀ (node : Ptr) (h h' : Heap), HeapSame h h' →
      ExSame HeapSame (objectLoop node v parse keys h) (objectLoop node v' parse' keys h')
  | [], _, _, _, _, hs => by
    simpa [objectLoop, ExSame] using hs
  | key :: keys, ih, node, h, h', hs => by
    have hk := ih key (by simp)
    simp only [objectLoop, new]
    refine exSame_bind (deref_same hs node) ?_
    intro nv nv' hnv
    rw [← heapSame_length hs, ← hnv.level]
    have hpush : HeapSame
        (h ++ [Node.mk none none none none none none none NodeType.Null (47 :: key) key
          (mapGet v key) (nv.Level + 1)])
        (h' ++ [Node.mk none none none none none none none NodeType.Null (47 :: key) key
          (mapGet v' key) (nv.Level + 1)]) :=
      heapSame_push hs ⟨rfl, rfl, rfl, rfl, rfl, rfl, rfl, rfl, rfl, rfl, rfl, hk.1⟩
    refine exSame_bind (deref_same hpush _) ?_
    intro cv cv' hcv
    rw [← hcv.level]
    split
    · refine @exSame_bind _ _ HeapSame HeapSame _ _ _ _
        (exSame_bind (deref_same hpush node) ?_) ?_
      · intro pv pv' hpv
        refine exSame_bind (deref_same hpush _) ?_
        intro qv qv' hqv
        refine store_same hpush _ ?_
        intro a b hab
        exact { hab with path := by rw [hpv.path, hqv.path] }
      intro g g' hg
      refine exSame_bind (setRelation_same hg _ _) ?_
      intro g1 g1' hg1
      refine exSame_bind (hk.2 _ g1 g1' hg1) ?_
      intro g2 g2' hg2
      refine exSame_bind (setObjectEntry_same hg2 _ _ _) ?_
      intro g3 g3' hg3
      exact objectLoop_same v v' parse parse' keys
        (fun k hk' => ih k (List.mem_cons_of_mem _ hk')) node g3 g3' hg3
    · refine @exSame_bind _ _ HeapSame HeapSame _ _ _ _
        (show ExSame HeapSame (Except.ok _) (Except.ok _) from hpush) ?_
      intro g g' hg
      refine exSame_bind (setRelation_same hg _ _) ?_
      intro g1 g1' hg1
      refine exSame_bind (hk.2 _ g1 g1' hg1) ?_
      intro g2 g2' hg2
      refine exSame_bind (setObjectEntry_same hg2 _ _ _) ?_
      intro g3 g3' hg3
      exact objectLoop_same v v' parse parse' keys
        (fun k hk' => ih k (List.mem_cons_of_mem _ hk')) node g3 g3' hg3

theorem sameList_length : ∀ (xs ys : List Value), Value.Same.SameList xs ys →
    xs.length = ys.length
  | [], [], _ => rfl
  | [], _ :: _, h => by simp [Value.Same.SameList] at h
  | _ :: _, [], h => by simp [Value.Same.SameList] at h
  | _ :: xs, _ :: ys, h => by
    simp only [Value.Same.SameList] at h
    simp [sameList_length xs ys h.2]

theorem sameMembers_mem {m m' : List (GoString × Value)} (h : Value.Same.SameMembers m m')
    {k : GoString} {v : Value} (hv : (k, v) ∈ m) : Value.Same v (mapGet m' k) := by
  induction m with
  | nil => simp at hv
  | cons e ms ih =>
    obtain ⟨k0, v0⟩ := e
    simp only [Value.Same.SameMembers] at h
    rcases List.mem_cons.1 hv with e | e
    · injection e with e1 e2
      rw [e1, e2]; exact h.1
    · exact ih h.2 e

/-- Two runs of `parseValue` on the same JSON value, from heaps that agree,
fail together or return heaps that agree. -/
theorem parseValue_same : ∀ (n : Nat) (x y : Value), sizeOf x < n → Value.Same x y →
    ∀ (node : Ptr) (h h' : Heap), HeapSame h h' →
      ExSame HeapSame (parseValue x node h) (parseValue y node h') := by
  intro n
  induction n with
  | zero => intro x y hx; omega
  | succ n ih =>
    intro x y hx hxy node h h' hs
    cases x with
    | null =>
      cases y <;> simp only [Value.Same] at hxy
      simp only [parseValue, parseNil]
      exact store_same hs node (fun a b hab => { hab with typ := rfl })
    | bool b =>
      cases y <;> simp only [Value.Same] at hxy
      simp only [parseValue]
      exact store_same hs node (fun a b hab => { hab with typ := rfl })
    | num f =>
      cases y <;> simp only [Value.Same] at hxy
      simp only [parseValue]
      exact store_same hs node (fun a b hab => { hab with typ := rfl })
    | str s =>
      cases y <;> simp only [Value.Same] at hxy
      simp only [parseValue]
      exact store_same hs node (fun a b hab => { hab with typ := rfl })
    | arr xs =>
      cases y <;> simp only [Value.Same] at hxy
      rename_i ys
      simp only [parseValue]
      rw [← sameList_length xs ys hxy]
      refine exSame_bind (store_same hs node (fun a b hab => { hab with typ := rfl })) ?_
      intro g g' hg
      refine exSame_bind (store_same hg node (fun a b hab => { hab with array := rfl })) ?_
      intro g1 g1' hg1
      refine arrayLoop_same xs ys hxy ?_ node 0 g1 g1' hg1
      intro x' hx' y' hxy'
      refine ih x' y' ?_ hxy'
      have := List.sizeOf_lt_of_mem hx'
      simp only [Value.arr.sizeOf_spec] at hx
      omega
    | obj m =>
      cases y <;> simp only [Value.Same] at hxy
      rename_i m'
      simp only [parseValue]
      rw [← sortStrings_of_perm hxy.1]
      refine exSame_bind (store_same hs node (fun a b hab => { hab with typ := rfl })) ?_
      intro g g' hg
      refine exSame_bind (store_same hg node (fun a b hab => { hab with object := rfl })) ?_
      intro g1 g1' hg1
      refine objectLoop_same m m' _ _ _ ?_ node g1 g1' hg1
      intro k hk
      have hmem := mapGet_of_mem_keys (mem_sortStrings.1 hk)
      have hsame := sameMembers_mem hxy.2 hmem
      refine ⟨hsame, ?_⟩
      intro nd a b hab
      rw [parseMember_eq, parseMember_eq]
      refine ih _ _ ?_ hsame nd a b hab
      have := List.sizeOf_lt_of_mem hmem
      simp only [Value.obj.sizeOf_spec, Prod.mk.sizeOf_spec] at hx this
      omega

/-! ## The claims -/

/-- C1: in the tree built from a decoded value, the walk `FirstChild`,
`NextSibling`, ... from an Object node ends, visits one node per member of the
raw map (no node twice, the pairs of `Key` and `RawValue` are the members), and
the keys come in strictly ascending byte-wise order: they are the sorted keys
of the raw map whatever the order `ks` in which the keys are enumerated. -/
theorem object_siblings_sorted (x : Value) (wf : x.WF) :
    ∃ h, LoadValue x = .ok h ∧ ∀ (p : Nat) (nd : Node), h[p]? = some nd → nd.Typ = NodeType.Object →
      ∃ m cs cds, nd.RawValue = Value.obj m ∧ children h nd = some cs ∧ cs.Nodup ∧
        nodesAt h cs = some cds ∧
        (cds.map fun cd => (cd.Key, cd.RawValue)).Perm m ∧
        (cds.map Node.Key).Pairwise (fun a b => strLess a b = true) ∧
        ∀ ks, ks.Perm (mapKeys m) → sortStrings ks = cds.map Node.Key := by
  obtain ⟨h, hload, L⟩ := LoadValue_ok x wf
  refine ⟨h, hload, ?_⟩
  intro p nd hp hty
  have ok := L.node p nd hp
  obtain ⟨m, hm⟩ := shape_object (ok.2.1 ▸ hty)
  obtain ⟨cs, c1, c2, _, _, _, _, c7⟩ := nodeOK_children ok
  have wfm : (mapKeys m).Nodup := by
    have := ok.1
    rw [hm] at this
    exact this.1
  rw [hm] at c7
  obtain ⟨cds, d1, d2, _, d4, _⟩ := chain_nodes c7
  simp only [childSpecs, objectSpecs, List.map_map] at d2 d4
  have hk : cds.map Node.Key = sortStrings (mapKeys m) := by
    rw [d2]
    exact List.map_id' _
  refine ⟨m, cs, cds, hm, c1, c2.imp (fun hlt => Nat.ne_of_lt hlt), d1, ?_, ?_, ?_⟩
  · have e : (cds.map fun cd => (cd.Key, cd.RawValue))
        = (sortStrings (mapKeys m)).map (fun k => (k, mapGet m k)) := by
      apply List.ext_getElem?
      intro i
      have e1 := congrArg (fun l => l[i]?) d2
      have e2 := congrArg (fun l => l[i]?) d4
      simp only [List.getElem?_map] at e1 e2 ⊢
      cases hc : cds[i]? with
      | none =>
        rw [hc] at e1
        cases hs : (sortStrings (mapKeys m))[i]? with
        | none => rfl
        | some k => rw [hs] at e1; simp at e1
      | some cd =>
        rw [hc] at e1 e2
        cases hs : (sortStrings (mapKeys m))[i]? with
        | none => rw [hs] at e1; simp at e1
        | some k =>
          rw [hs] at e1 e2
          simp only [Option.map_some', Function.comp, Option.some.injEq] at e1 e2 ⊢
          rw [e1, e2]
    rw [e]
    have := (sortStrings_perm (mapKeys m)).map (fun k => (k, mapGet m k))
    rwa [map_mapGet_self m wfm] at this
  · rw [hk]
    exact sortStrings_strict wfm
  · intro ks hks
    rw [hk]
    exact sortStrings_of_perm hks

/-- C1 at `{"b":1,"a":[true,null]}`: the walk from the root meets the keys
`a`, then `b`. -/
theorem object_siblings_sorted_witness :
    exampleDoc.WF ∧
    (∃ h, LoadValue exampleDoc = .ok h ∧ ∀ (p : Nat) (nd : Node), h[p]? = some nd → nd.Typ = NodeType.Object →
      ∃ m cs cds, nd.RawValue = Value.obj m ∧ children h nd = some cs ∧ cs.Nodup ∧
        nodesAt h cs = some cds ∧
        (cds.map fun cd => (cd.Key, cd.RawValue)).Perm m ∧
        (cds.map Node.Key).Pairwise (fun a b => strLess a b = true) ∧
        ∀ ks, ks.Perm (mapKeys m) → sortStrings ks = cds.map Node.Key) ∧
    (LoadValue exampleDoc).toOption.bind (fun h => (h[0]?).bind (visitedKeys h))
      = some [ascii "a", ascii "b"] :=
  ⟨⟨by decide, trivial, ⟨trivial, trivial, trivial⟩, trivial⟩,
    object_siblings_sorted exampleDoc ⟨by decide, trivial, ⟨trivial, trivial, trivial⟩, trivial⟩,
    by decide!⟩

/-- C2: in the tree built from a decoded value, the walk `FirstChild`,
`NextSibling`, ... from an Array node ends and visits exactly the nodes
`Array[0]`, ..., `Array[len-1]`, where `len` is the length of the raw sequence
and the node `Array[i]` has the `i`-th raw element as its `RawValue`. -/
theorem array_siblings_in_order (x : Value) (wf : x.WF) :
    ∃ h, LoadValue x = .ok h ∧ ∀ (p : Nat) (nd : Node), h[p]? = some nd →
      nd.Typ = NodeType.Array →
      ∃ xs cs cds, nd.RawValue = Value.arr xs ∧ children h nd = some cs ∧
        nd.Array = some (cs.map some) ∧ cs.length = xs.length ∧
        nodesAt h cs = some cds ∧ cds.map Node.RawValue = xs := by
  obtain ⟨h, hload, L⟩ := LoadValue_ok x wf
  refine ⟨h, hload, ?_⟩
  intro p nd hp hty
  have ok := L.node p nd hp
  obtain ⟨xs, hxs⟩ := shape_array (ok.2.1 ▸ hty)
  obtain ⟨cs, c1, _, c3, _, _, _, c7⟩ := nodeOK_children ok
  rw [hxs] at c7 c3
  obtain ⟨cds, d1, _, _, d4, _⟩ := chain_nodes c7
  refine ⟨xs, cs, cds, hxs, c1, c3, ?_, d1, ?_⟩
  · rw [chain_length_eq c7]
    exact arraySpecs_length _ _ _
  · rw [d4]
    exact arraySpecs_raw _ _ _

/-- C2 at `{"b":1,"a":[true,null]}`: the walk from the node of `a` (address 1)
visits the addresses held in its `Array`, 2 and 3. -/
theorem array_siblings_in_order_witness :
    exampleDoc.WF ∧
    (∃ h, LoadValue exampleDoc = .ok h ∧ ∀ (p : Nat) (nd : Node), h[p]? = some nd →
      nd.Typ = NodeType.Array →
      ∃ xs cs cds, nd.RawValue = Value.arr xs ∧ children h nd = some cs ∧
        nd.Array = some (cs.map some) ∧ cs.length = xs.length ∧
        nodesAt h cs = some cds ∧ cds.map Node.RawValue = xs) ∧
    (LoadValue exampleDoc).toOption.bind
        (fun h => (h[1]?).bind (fun nd => (children h nd).map (fun cs => (cs, nd.Array))))
      = some ([2, 3], some [some 2, some 3]) :=
  ⟨⟨by decide, trivial, ⟨trivial, trivial, trivial⟩, trivial⟩,
    array_siblings_in_order exampleDoc ⟨by decide, trivial, ⟨trivial, trivial, trivial⟩, trivial⟩,
    by decide!⟩

/-- C3: in the tree built from a decoded value the root has `Path` `"/"`; the
member under key `k` of an Object node has `Path` `"/" + k` when its parent is
the root (exactly when its level is 1) and parent path `+ "/" + k` otherwise;
the element at index `i` of an Array node has `Path` parent path
`+ "[" + decimal(i) + "]"`; and every node but the root is such a member or
element of its `Parent`. -/
theorem paths_follow_formatter (x : Value) (wf : x.WF) :
    ∃ h, LoadValue x = .ok h ∧
      (∃ rd, h[0]? = some rd ∧ rd.Path = [47]) ∧
      (∀ (p : Nat) (nd : Node) (om : List (GoString × Ptr)) (k : GoString) (c : Nat),
        h[p]? = some nd → nd.Object = some om → mapLookup om k = some (some c) →
        ∃ cd, h[c]? = some cd ∧ cd.Parent = some p ∧ (cd.Level = 1 ↔ p = 0) ∧
          cd.Path = if p = 0 then 47 :: k else nd.Path ++ 47 :: k) ∧
      (∀ (p : Nat) (nd : Node) (a : List Ptr) (i c : Nat),
        h[p]? = some nd → nd.Array = some a → a[i]? = some (some c) →
        ∃ cd, h[c]? = some cd ∧ cd.Parent = some p ∧
          cd.Path = nd.Path ++ 91 :: decimal i ++ [93]) ∧
      (∀ (q : Nat) (qd : Node), 0 < q → h[q]? = some qd →
        ∃ r rd, qd.Parent = some r ∧ h[r]? = some rd ∧
          ((∃ (a : List Ptr) (i : Nat), rd.Array = some a ∧ a[i]? = some (some q)) ∨
           (∃ om, rd.Object = some om ∧ mapLookup om qd.Key = some (some q)))) := by
  obtain ⟨h, hload, L⟩ := LoadValue_ok x wf
  refine ⟨h, hload, ?_, ?_, ?_, ?_⟩
  · obtain ⟨rd, r1, r2, _⟩ := L.root
    exact ⟨rd, r1, r2⟩
  · intro p nd om k c hp ho hk
    obtain ⟨m, cd, _, _, _, s3, s4, s5, _, s7, _⟩ := loaded_object_member L hp ho hk
    obtain ⟨l1, l2⟩ := loaded_level L p nd hp
    refine ⟨cd, s3, s4, ?_, ?_⟩
    · rw [s5, ← l2]
      constructor <;> intro e <;> omega
    · rw [s7, memberPath]
      by_cases hp0 : p = 0
      · have := l2.2 hp0
        simp [hp0, this]
      · have : nd.Level ≠ 0 := fun e => hp0 (l2.1 e)
        rw [if_neg hp0, if_pos (by omega)]
  · intro p nd a i c hp ha hi
    obtain ⟨_, _, cd, _, _, _, _, s3, s4, _, _, s7, _⟩ := loaded_array_elem L hp ha hi
    exact ⟨cd, s3, s4, s7⟩
  · intro q qd hq0 hq
    obtain ⟨r, rd, _, h2, h3, h4⟩ := loaded_parent L hq0 hq
    exact ⟨r, rd, h2, h3, h4⟩

/-- C3 at `{"b":1,"a":[true,null]}`: the paths are `/`, `/a`, `/a[0]`, `/a[1]`
and `/b`. -/
theorem paths_follow_formatter_witness :
    exampleDoc.WF ∧
    (∃ h, LoadValue exampleDoc = .ok h ∧
      (∃ rd, h[0]? = some rd ∧ rd.Path = [47]) ∧
      (∀ (p : Nat) (nd : Node) (om : List (GoString × Ptr)) (k : GoString) (c : Nat),
        h[p]? = some nd → nd.Object = some om → mapLookup om k = some (some c) →
        ∃ cd, h[c]? = some cd ∧ cd.Parent = some p ∧ (cd.Level = 1 ↔ p = 0) ∧
          cd.Path = if p = 0 then 47 :: k else nd.Path ++ 47 :: k) ∧
      (∀ (p : Nat) (nd : Node) (a : List Ptr) (i c : Nat),
        h[p]? = some nd → nd.Array = some a → a[i]? = some (some c) →
        ∃ cd, h[c]? = some cd ∧ cd.Parent = some p ∧
          cd.Path = nd.Path ++ 91 :: decimal i ++ [93]) ∧
      (∀ (q : Nat) (qd : Node), 0 < q → h[q]? = some qd →
        ∃ r rd, qd.Parent = some r ∧ h[r]? = some rd ∧
          ((∃ (a : List Ptr) (i : Nat), rd.Array = some a ∧ a[i]? = some (some q)) ∨
           (∃ om, rd.Object = some om ∧ mapLookup om qd.Key = some (some q))))) ∧
    (LoadValue exampleDoc).toOption.map allPaths
      = some [ascii "/", ascii "/a", ascii "/a[0]", ascii "/a[1]", ascii "/b"] :=
  ⟨⟨by decide, trivial, ⟨trivial, trivial, trivial⟩, trivial⟩,
    paths_follow_formatter exampleDoc ⟨by decide, trivial, ⟨trivial, trivial, trivial⟩, trivial⟩,
    by decide!⟩

/-- C4 fails as stated: in the tree built from `{"a/b":1,"a":{"b":2}}` the
member `b` of `a` (address 2) and the member `a/b` of the root (address 3)
are distinct nodes with the same `Path` `/a/b`. -/
theorem paths_unique_counterexample :
    collisionDoc.WF ∧ ∃ h, LoadValue collisionDoc = .ok h ∧
      ∃ (p q : Nat) (pd qd : Node), p ≠ q ∧ h[p]? = some pd ∧ h[q]? = some qd ∧
        pd.Path = qd.Path ∧ pd.Path = ascii "/a/b" := by
  have wf : collisionDoc.WF :=
    ⟨by decide, trivial, ⟨⟨by decide, trivial, trivial⟩, trivial⟩⟩
  obtain ⟨h, hload, _⟩ := LoadValue_ok collisionDoc wf
  refine ⟨wf, h, hload, ?_⟩
  have e : (LoadValue collisionDoc).toOption.map allPaths
      = some [ascii "/", ascii "/a", ascii "/a/b", ascii "/a/b"] := by decide!
  rw [hload] at e
  simp only [Except.toOption, Option.map_some', Option.some.injEq, allPaths] at e
  rcases h with _ | ⟨n0, _ | ⟨n1, _ | ⟨n2, _ | ⟨n3, h⟩⟩⟩⟩
  · simp at e
  · simp at e
  · simp at e
  · simp at e
  · simp only [List.map_cons, List.cons.injEq] at e
    exact ⟨2, 3, n2, n3, by decide, by simp, by simp, by rw [e.2.2.1, e.2.2.2.1], e.2.2.1⟩

/-- A key with `[` collides as well: in the tree built from
`{"a[0]":1,"a":[2]}` the paths are `/`, `/a`, `/a[0]`, `/a[0]`. -/
theorem bracket_key_paths :
    (LoadValue bracketKeyDoc).toOption.map allPaths
      = some [ascii "/", ascii "/a", ascii "/a[0]", ascii "/a[0]"] := by
  decide!

/-- The empty key collides with the root: in the tree built from `{"":1}` the
paths are `/`, `/`. -/
theorem empty_key_paths :
    (LoadValue emptyKeyDoc).toOption.map allPaths = some [ascii "/", ascii "/"] := by
  decide!

/-- C4, amended: when no object key of the decoded value, at any depth, is
empty or contains `/` or `[`, any two distinct nodes of the tree built from it
have different `Path` strings. -/
theorem paths_unique_of_plain_keys (x : Value) (wf : x.WF) (hk : x.KeysOK) :
    ∃ h, LoadValue x = .ok h ∧ ∀ (p q : Nat) (pd qd : Node),
      h[p]? = some pd → h[q]? = some qd → p ≠ q → pd.Path ≠ qd.Path := by
  obtain ⟨h, hload, L⟩ := LoadValue_ok x wf
  refine ⟨h, hload, ?_⟩
  intro p q pd qd hp hq hne he
  exact hne (loaded_path_injective L hk p q pd qd hp hq he)

/-- C4, amended, at `{"b":1,"a":[true,null]}`, whose keys are `b` and `a`. -/
theorem paths_unique_of_plain_keys_witness :
    exampleDoc.WF ∧ exampleDoc.KeysOK ∧
    ∃ h, LoadValue exampleDoc = .ok h ∧ ∀ (p q : Nat) (pd qd : Node),
      h[p]? = some pd → h[q]? = some qd → p ≠ q → pd.Path ≠ qd.Path :=
  ⟨⟨by decide, trivial, ⟨trivial, trivial, trivial⟩, trivial⟩,
    ⟨by decide, trivial, ⟨trivial, trivial, trivial⟩, trivial⟩,
    paths_unique_of_plain_keys exampleDoc
      ⟨by decide, trivial, ⟨trivial, trivial, trivial⟩, trivial⟩
      ⟨by decide, trivial, ⟨trivial, trivial, trivial⟩, trivial⟩⟩

/-- C5: on an Array node with `len` children of a loaded tree, for all
integers `start` and `end`, `Slice` returns the child pointers at the indices
`j` with `max(start,0) ≤ j < min(end,len)`, in order, and `GetSlice` the raw
elements at the same indices; the length is `max(0, min(end,len) - max(start,0))`,
and the result is empty when `start ≥ end`.  On a node that is not an Array,
`Slice` returns the nil slice. -/
theorem slice_clamps (x : Value) (wf : x.WF) :
    ∃ h, LoadValue x = .ok h ∧ ∀ (p : Nat) (nd : Node) (start end_ : Int)
      (dflt : List (Option (List Value))), h[p]? = some nd →
      (nd.Typ = NodeType.Array → ∃ (xs : List Value) (cs : List Nat), nd.RawValue = Value.arr xs ∧
        nd.Array = some (cs.map some) ∧ cs.length = xs.length ∧
        Slice h (some p) start end_
          = .ok (some (between (cs.map some) (max start 0) (min end_ xs.length))) ∧
        GetSlice h (some p) start end_ dflt
          = .ok (some (between xs (max start 0) (min end_ xs.length))) ∧
        ((between (cs.map some) (max start 0) (min end_ xs.length)).length : Int)
          = max 0 (min end_ xs.length - max start 0) ∧
        ((between xs (max start 0) (min end_ xs.length)).length : Int)
          = max 0 (min end_ xs.length - max start 0) ∧
        (start ≥ end_ → between (cs.map some) (max start 0) (min end_ xs.length) = [] ∧
          between xs (max start 0) (min end_ xs.length) = [])) ∧
      (nd.Typ ≠ NodeType.Array → Slice h (some p) start end_ = .ok none) := by
  obtain ⟨h, hload, L⟩ := LoadValue_ok x wf
  refine ⟨h, hload, ?_⟩
  intro p nd start end_ dflt hp
  constructor
  · intro hty
    obtain ⟨xs, cs, hxs, harr, hlen, _⟩ := loaded_array_node L hp hty
    have hl : ((cs.map some).length : Int) = xs.length := by simp [hlen]
    have hal : arrayLen nd = (cs.map some).length := by simp [arrayLen, harr]
    refine ⟨xs, cs, hxs, harr, hlen, ?_, ?_, ?_, ?_, ?_⟩
    · unfold Slice
      rw [deref_some hp]
      simp only [bind, Except.bind, hty, ne_eq, not_true_eq_false, if_false, hal]
      by_cases hc : start ≥ end_ ∨ start ≥ ((cs.map some).length : Int) ∨ end_ ≤ 0
      · rw [if_pos hc, ← hl, between_nil _ _ _ hc]
      · rw [if_neg hc]
        simp only [harr, Option.getD_some]
        rw [sliceExpr_clamped _ _ _ hc, hl]
    · unfold GetSlice
      rw [deref_some hp]
      simp only [bind, Except.bind, hty, ne_eq, not_true_eq_false, if_false, hxs, assertSlice]
      by_cases hc : start ≥ end_ ∨ start ≥ (xs.length : Int) ∨ end_ ≤ 0
      · rw [if_pos hc, between_nil _ _ _ hc]
      · rw [if_neg hc, sliceExpr_clamped _ _ _ hc]
    · rw [← hl]; exact between_length _ _ _
    · exact between_length _ _ _
    · intro hse
      exact ⟨by rw [← hl]; exact between_nil _ _ _ (Or.inl hse), between_nil _ _ _ (Or.inl hse)⟩
  · intro hty
    unfold Slice
    rw [deref_some hp]
    simp [bind, Except.bind, hty]

/-- C5 at the array `[null,true,false]`: `Slice(5,2)` on the root is empty. -/
theorem slice_clamps_witness :
    threeDoc.WF ∧
    (∃ h, LoadValue threeDoc = .ok h ∧ ∀ (p : Nat) (nd : Node) (start end_ : Int)
      (dflt : List (Option (List Value))), h[p]? = some nd →
      (nd.Typ = NodeType.Array → ∃ (xs : List Value) (cs : List Nat), nd.RawValue = Value.arr xs ∧
        nd.Array = some (cs.map some) ∧ cs.length = xs.length ∧
        Slice h (some p) start end_
          = .ok (some (between (cs.map some) (max start 0) (min end_ xs.length))) ∧
        GetSlice h (some p) start end_ dflt
          = .ok (some (between xs (max start 0) (min end_ xs.length))) ∧
        ((between (cs.map some) (max start 0) (min end_ xs.length)).length : Int)
          = max 0 (min end_ xs.length - max start 0) ∧
        ((between xs (max start 0) (min end_ xs.length)).length : Int)
          = max 0 (min end_ xs.length - max start 0) ∧
        (start ≥ end_ → between (cs.map some) (max start 0) (min end_ xs.length) = [] ∧
          between xs (max start 0) (min end_ xs.length) = [])) ∧
      (nd.Typ ≠ NodeType.Array → Slice h (some p) start end_ = .ok none)) ∧
    (LoadValue threeDoc).toOption.bind (fun h => (Slice h root 5 2).toOption) = some (some []) ∧
    (LoadValue threeDoc).toOption.bind (fun h => (Slice h root (-1) 2).toOption)
      = some (some [some 1, some 2]) :=
  ⟨⟨trivial, trivial, trivial, trivial⟩,
    slice_clamps threeDoc ⟨trivial, trivial, trivial, trivial⟩, by decide!, by decide!⟩

/-- C6: on a node of a loaded tree and for every integer `i`, `Index(i)`
returns the child pointer `Array[i]` when the node is an Array and
`0 ≤ i < len`, and nil otherwise; `GetIndex(i, def...)` returns the `i`-th raw
element in the first case, and otherwise the first supplied default, or nil
when there is none. -/
theorem index_in_range (x : Value) (wf : x.WF) :
    ∃ h, LoadValue x = .ok h ∧ ∀ (p : Nat) (nd : Node) (i : Int) (dflt : List Value),
      h[p]? = some nd →
      (nd.Typ = NodeType.Array → ∃ (xs : List Value) (cs : List Nat),
        nd.RawValue = Value.arr xs ∧ nd.Array = some (cs.map some) ∧ cs.length = xs.length ∧
        (0 ≤ i ∧ i < xs.length → ∃ c v, cs[i.toNat]? = some c ∧ xs[i.toNat]? = some v ∧
          Index h (some p) i = .ok (some c) ∧ GetIndex h (some p) i dflt = .ok v) ∧
        (¬ (0 ≤ i ∧ i < xs.length) → Index h (some p) i = .ok none ∧
          GetIndex h (some p) i dflt = .ok (dflt.headD Value.null))) ∧
      (nd.Typ ≠ NodeType.Array → Index h (some p) i = .ok none ∧
        GetIndex h (some p) i dflt = .ok (dflt.headD Value.null)) := by
  obtain ⟨h, hload, L⟩ := LoadValue_ok x wf
  refine ⟨h, hload, ?_⟩
  intro p nd i dflt hp
  have e1 := Index_eq L hp i
  have e2 := GetIndex_eq L hp i dflt
  constructor
  · intro hty
    obtain ⟨xs, cs, hxs, harr, hlen, _⟩ := loaded_array_node L hp hty
    rw [harr] at e1
    rw [hxs] at e2
    refine ⟨xs, cs, hxs, harr, hlen, ?_, ?_⟩
    · intro hi
      have h1 : i.toNat < cs.length := by omega
      have h2 : i.toNat < xs.length := by omega
      refine ⟨cs[i.toNat], xs[i.toNat], List.getElem?_eq_getElem h1,
        List.getElem?_eq_getElem h2, ?_, ?_⟩
      · rw [e1]
        simp [hi.1, h1]
      · rw [e2]
        simp [hi.1, h2]
    · intro hi
      by_cases h0 : 0 ≤ i
      · have h1 : cs.length ≤ i.toNat := by omega
        have h2 : xs.length ≤ i.toNat := by omega
        constructor
        · rw [e1]
          simp [h0, List.getElem?_eq_none h1]
        · rw [e2]
          simp [h0, List.getElem?_eq_none h2]
      · constructor
        · rw [e1]; simp [h0]
        · rw [e2]; simp [h0]
  · intro hty
    have ht := loaded_type L hp
    have ok := L.node p nd hp
    obtain ⟨_, _, cs, a1, _⟩ := ok
    constructor
    · rw [e1, a1]
      cases hv : nd.RawValue <;> simp [expectedArray]
      rw [hv] at ht
      exact absurd ht hty
    · rw [e2]
      cases hv : nd.RawValue <;> simp
      rw [hv] at ht
      exact absurd ht hty

/-- C6 at the array `[null,true,false]`: `Index(1)` on the root is the child
at address 2, `Index(3)` and `Index(-1)` are nil, and `GetIndex(1)` is `true`. -/
theorem index_in_range_witness :
    threeDoc.WF ∧
    (∃ h, LoadValue threeDoc = .ok h ∧ ∀ (p : Nat) (nd : Node) (i : Int) (dflt : List Value),
      h[p]? = some nd →
      (nd.Typ = NodeType.Array → ∃ (xs : List Value) (cs : List Nat),
        nd.RawValue = Value.arr xs ∧ nd.Array = some (cs.map some) ∧ cs.length = xs.length ∧
        (0 ≤ i ∧ i < xs.length → ∃ c v, cs[i.toNat]? = some c ∧ xs[i.toNat]? = some v ∧
          Index h (some p) i = .ok (some c) ∧ GetIndex h (some p) i dflt = .ok v) ∧
        (¬ (0 ≤ i ∧ i < xs.length) → Index h (some p) i = .ok none ∧
          GetIndex h (some p) i dflt = .ok (dflt.headD Value.null))) ∧
      (nd.Typ ≠ NodeType.Array → Index h (some p) i = .ok none ∧
        GetIndex h (some p) i dflt = .ok (dflt.headD Value.null))) ∧
    (LoadValue threeDoc).toOption.bind (fun h => (Index h root 1).toOption) = some (some 2) ∧
    (LoadValue threeDoc).toOption.bind (fun h => (Index h root 3).toOption) = some none ∧
    (LoadValue threeDoc).toOption.bind (fun h => (Index h root (-1)).toOption) = some none ∧
    (LoadValue threeDoc).toOption.bind
      (fun h => (GetIndex h root 1 []).toOption.bind (fun v => (assertBool v).toOption))
      = some true :=
  ⟨⟨trivial, trivial, trivial, trivial⟩,
    index_in_range threeDoc ⟨trivial, trivial, trivial, trivial⟩,
    by decide!, by decide!, by decide!, by decide!⟩

/-- C7: on every node of a loaded tree, each of `GetBool`, `GetFloat64`,
`GetString`, `GetArray` and `GetObject` returns the stored raw value,
whatever defaults are supplied, when the type of the node is the kind of the
getter; when it is not, these getters and `GetInt` and `GetSlice` return the
first supplied default, or the zero value (`false`, `0`, `0`, `""`, nil, nil,
nil) when none is supplied. -/
theorem typed_getters (x : Value) (wf : x.WF) :
    ∃ h, LoadValue x = .ok h ∧ ∀ (p : Nat) (nd : Node), h[p]? = some nd →
      (∀ dflt, (nd.Typ = NodeType.Boolean →
          ∃ b, nd.RawValue = Value.bool b ∧ GetBool h (some p) dflt = .ok b) ∧
        (nd.Typ ≠ NodeType.Boolean → GetBool h (some p) dflt = .ok (dflt.headD false))) ∧
      (∀ dflt, (nd.Typ = NodeType.Number →
          ∃ f, nd.RawValue = Value.num f ∧ GetFloat64 h (some p) dflt = .ok f) ∧
        (nd.Typ ≠ NodeType.Number → GetFloat64 h (some p) dflt = .ok (dflt.headD ⟨0⟩))) ∧
      (∀ toInt dflt, nd.Typ ≠ NodeType.Number →
        GetInt toInt h (some p) dflt = .ok (dflt.headD 0)) ∧
      (∀ dflt, (nd.Typ = NodeType.String →
          ∃ s, nd.RawValue = Value.str s ∧ GetString h (some p) dflt = .ok s) ∧
        (nd.Typ ≠ NodeType.String → GetString h (some p) dflt = .ok (dflt.headD []))) ∧
      (∀ dflt, (nd.Typ = NodeType.Array →
          ∃ xs, nd.RawValue = Value.arr xs ∧ GetArray h (some p) dflt = .ok (some xs)) ∧
        (nd.Typ ≠ NodeType.Array → GetArray h (some p) dflt = .ok (dflt.headD none))) ∧
      (∀ start end_ dflt, nd.Typ ≠ NodeType.Array →
        GetSlice h (some p) start end_ dflt = .ok (dflt.headD none)) ∧
      (∀ dflt, (nd.Typ = NodeType.Object →
          ∃ m, nd.RawValue = Value.obj m ∧ GetObject h (some p) dflt = .ok (some m)) ∧
        (nd.Typ ≠ NodeType.Object → GetObject h (some p) dflt = .ok (dflt.headD none))) := by
  obtain ⟨h, hload, L⟩ := LoadValue_ok x wf
  refine ⟨h, hload, ?_⟩
  intro p nd hp
  have ht := loaded_type L hp
  refine ⟨?_, ?_, ?_, ?_, ?_, ?_, ?_⟩
  · intro dflt
    have e := GetBool_eq L hp dflt
    constructor
    · intro hty
      rw [hty] at ht
      cases hv : nd.RawValue <;> rw [hv] at ht e <;> simp [shapeType] at ht
      exact ⟨_, rfl, e⟩
    · intro hty
      rw [ht] at hty
      cases hv : nd.RawValue <;> rw [hv] at hty e <;> simp [shapeType] at hty <;> exact e
  · intro dflt
    have e := GetFloat64_eq L hp dflt
    constructor
    · intro hty
      rw [hty] at ht
      cases hv : nd.RawValue <;> rw [hv] at ht e <;> simp [shapeType] at ht
      exact ⟨_, rfl, e⟩
    · intro hty
      rw [ht] at hty
      cases hv : nd.RawValue <;> rw [hv] at hty e <;> simp [shapeType] at hty <;> exact e
  · intro toInt dflt hty
    have e := GetInt_eq L hp toInt dflt
    rw [ht] at hty
    cases hv : nd.RawValue <;> rw [hv] at hty e <;> simp [shapeType] at hty <;> exact e
  · intro dflt
    have e := GetString_eq L hp dflt
    constructor
    · intro hty
      rw [hty] at ht
      cases hv : nd.RawValue <;> rw [hv] at ht e <;> simp [shapeType] at ht
      exact ⟨_, rfl, e⟩
    · intro hty
      rw [ht] at hty
      cases hv : nd.RawValue <;> rw [hv] at hty e <;> simp [shapeType] at hty <;> exact e
  · intro dflt
    have e := GetArray_eq L hp dflt
    constructor
    · intro hty
      rw [hty] at ht
      cases hv : nd.RawValue <;> rw [hv] at ht e <;> simp [shapeType] at ht
      exact ⟨_, rfl, e⟩
    · intro hty
      rw [ht] at hty
      cases hv : nd.RawValue <;> rw [hv] at hty e <;> simp [shapeType] at hty <;> exact e
  · intro start end_ dflt hty
    have e := GetSlice_eq L hp start end_ dflt
    rw [ht] at hty
    cases hv : nd.RawValue <;> rw [hv] at hty e <;> simp [shapeType] at hty <;> exact e
  · intro dflt
    have e := GetObject_eq L hp dflt
    constructor
    · intro hty
      rw [hty] at ht
      cases hv : nd.RawValue <;> rw [hv] at ht e <;> simp [shapeType] at ht
      exact ⟨_, rfl, e⟩
    · intro hty
      rw [ht] at hty
      cases hv : nd.RawValue <;> rw [hv] at hty e <;> simp [shapeType] at hty <;> exact e

/-- C7 at `{"b":1,"a":[true,null]}`: on the Boolean node at `/a[0]` (address 2)
`GetBool(false)` is `true` and `GetString("d")` is `"d"`; on the Null node at
`/a[1]` (address 3) `GetBool()` is `false` and `GetBool(true)` is `true`. -/
theorem typed_getters_witness :
    exampleDoc.WF ∧
    (∃ h, LoadValue exampleDoc = .ok h ∧ ∀ (p : Nat) (nd : Node), h[p]? = some nd →
      (∀ dflt, (nd.Typ = NodeType.Boolean →
          ∃ b, nd.RawValue = Value.bool b ∧ GetBool h (some p) dflt = .ok b) ∧
        (nd.Typ ≠ NodeType.Boolean → GetBool h (some p) dflt = .ok (dflt.headD false))) ∧
      (∀ dflt, (nd.Typ = NodeType.Number →
          ∃ f, nd.RawValue = Value.num f ∧ GetFloat64 h (some p) dflt = .ok f) ∧
        (nd.Typ ≠ NodeType.Number → GetFloat64 h (some p) dflt = .ok (dflt.headD ⟨0⟩))) ∧
      (∀ toInt dflt, nd.Typ ≠ NodeType.Number →
        GetInt toInt h (some p) dflt = .ok (dflt.headD 0)) ∧
      (∀ dflt, (nd.Typ = NodeType.String →
          ∃ s, nd.RawValue = Value.str s ∧ GetString h (some p) dflt = .ok s) ∧
        (nd.Typ ≠ NodeType.String → GetString h (some p) dflt = .ok (dflt.headD []))) ∧
      (∀ dflt, (nd.Typ = NodeType.Array →
          ∃ xs, nd.RawValue = Value.arr xs ∧ GetArray h (some p) dflt = .ok (some xs)) ∧
        (nd.Typ ≠ NodeType.Array → GetArray h (some p) dflt = .ok (dflt.headD none))) ∧
      (∀ start end_ dflt, nd.Typ ≠ NodeType.Array →
        GetSlice h (some p) start end_ dflt = .ok (dflt.headD none)) ∧
      (∀ dflt, (nd.Typ = NodeType.Object →
          ∃ m, nd.RawValue = Value.obj m ∧ GetObject h (some p) dflt = .ok (some m)) ∧
        (nd.Typ ≠ NodeType.Object → GetObject h (some p) dflt = .ok (dflt.headD none)))) ∧
    (LoadValue exampleDoc).toOption.bind (fun h => (GetBool h (some 2) [false]).toOption)
      = some true ∧
    (LoadValue exampleDoc).toOption.bind (fun h => (GetString h (some 2) [ascii "d"]).toOption)
      = some (ascii "d") ∧
    (LoadValue exampleDoc).toOption.bind (fun h => (GetBool h (some 3) []).toOption)
      = some false ∧
    (LoadValue exampleDoc).toOption.bind (fun h => (GetBool h (some 3) [true]).toOption)
      = some true :=
  ⟨⟨by decide, trivial, ⟨trivial, trivial, trivial⟩, trivial⟩,
    typed_getters exampleDoc ⟨by decide, trivial, ⟨trivial, trivial, trivial⟩, trivial⟩,
    by decide!, by decide!, by decide!, by decide!⟩

theorem mapLookup_none_of_not_mem {α : Type} {m : List (GoString × α)} {k : GoString}
    (hk : k ∉ mapKeys m) : mapLookup m k = none := by
  induction m with
  | nil => rfl
  | cons e ms ih =>
    obtain ⟨k', y⟩ := e
    have h1 : k' ≠ k := fun e => hk (by simp [mapKeys, e])
    have h2 : k ∉ mapKeys ms := fun e => hk (by simp [mapKeys] at e ⊢; exact Or.inr e)
    simp [mapLookup, h1, ih h2]

/-- C8: on a node of a loaded tree, `GetObjectValue(key, def...)` returns the
raw value stored under `key` when the node is an Object whose raw map holds
`key`, also when that value is nil; when the map does not hold `key`, or the
node is not an Object, it returns the first supplied default, or nil when
there is none. -/
theorem object_value_or_default (x : Value) (wf : x.WF) :
    ∃ h, LoadValue x = .ok h ∧ ∀ (p : Nat) (nd : Node) (key : GoString) (dflt : List Value),
      h[p]? = some nd →
      (nd.Typ = NodeType.Object → ∃ m, nd.RawValue = Value.obj m ∧
        (key ∈ mapKeys m → ∃ v, mapLookup m key = some v ∧ (key, v) ∈ m ∧
          GetObjectValue h (some p) key dflt = .ok v) ∧
        (key ∉ mapKeys m →
          GetObjectValue h (some p) key dflt = .ok (dflt.headD Value.null))) ∧
      (nd.Typ ≠ NodeType.Object →
        GetObjectValue h (some p) key dflt = .ok (dflt.headD Value.null)) := by
  obtain ⟨h, hload, L⟩ := LoadValue_ok x wf
  refine ⟨h, hload, ?_⟩
  intro p nd key dflt hp
  have ht := loaded_type L hp
  have e := GetObjectValue_eq L hp key dflt
  constructor
  · intro hty
    obtain ⟨m, hm⟩ := shape_object (ht ▸ hty)
    rw [hm] at e
    refine ⟨m, hm, ?_, ?_⟩
    · intro hk
      obtain ⟨v, h1, h2⟩ := mapLookup_of_mem_keys hk
      refine ⟨v, h1, h2, ?_⟩
      rw [e]
      simp [h1]
    · intro hk
      rw [e]
      simp [mapLookup_none_of_not_mem hk]
  · intro hty
    rw [ht] at hty
    cases hv : nd.RawValue <;> rw [hv] at hty e <;> simp [shapeType] at hty <;> exact e

/-- C8 at `{"b":1,"a":[true,null]}`: `GetObjectValue("missing", "fallback")`
on the root is `"fallback"`; and at `{"k":null}`:
`GetObjectValue("k", "fallback")` on the root is nil, not the default. -/
theorem object_value_or_default_witness :
    exampleDoc.WF ∧
    (∃ h, LoadValue exampleDoc = .ok h ∧
      ∀ (p : Nat) (nd : Node) (key : GoString) (dflt : List Value),
      h[p]? = some nd →
      (nd.Typ = NodeType.Object → ∃ m, nd.RawValue = Value.obj m ∧
        (key ∈ mapKeys m → ∃ v, mapLookup m key = some v ∧ (key, v) ∈ m ∧
          GetObjectValue h (some p) key dflt = .ok v) ∧
        (key ∉ mapKeys m →
          GetObjectValue h (some p) key dflt = .ok (dflt.headD Value.null))) ∧
      (nd.Typ ≠ NodeType.Object →
        GetObjectValue h (some p) key dflt = .ok (dflt.headD Value.null))) ∧
    (LoadValue exampleDoc).toOption.bind
      (fun h => (GetObjectValue h root (ascii "missing") [Value.str (ascii "fallback")]).toOption.bind
        (fun v => (assertString v).toOption)) = some (ascii "fallback") ∧
    (LoadValue nullMemberDoc).toOption.bind
      (fun h => (GetObjectValue h root (ascii "k") [Value.str (ascii "fallback")]).toOption.map
        shapeType) = some NodeType.Null :=
  ⟨⟨by decide, trivial, ⟨trivial, trivial, trivial⟩, trivial⟩,
    object_value_or_default exampleDoc
      ⟨by decide, trivial, ⟨trivial, trivial, trivial⟩, trivial⟩,
    by decide!, by decide!⟩

/-- C9: on a node of a loaded tree, `GetCount` is 0 when the node is a scalar
(Null, Boolean, Number or String), which has no children; on an Array node it
is the length of `Array` and of the raw sequence, on an Object node the number
of entries of `Object` and of the raw map; in each case it is the number of
nodes on the walk `FirstChild`, `NextSibling`, .... -/
theorem count_is_children (x : Value) (wf : x.WF) :
    ∃ h, LoadValue x = .ok h ∧ ∀ (p : Nat) (nd : Node), h[p]? = some nd →
      ∃ cs, children h nd = some cs ∧ GetCount h (some p) = .ok (cs.length : Int) ∧
        (nd.Typ = NodeType.Array → ∃ xs a, nd.RawValue = Value.arr xs ∧ nd.Array = some a ∧
          a.length = cs.length ∧ xs.length = cs.length) ∧
        (nd.Typ = NodeType.Object → ∃ m om, nd.RawValue = Value.obj m ∧ nd.Object = some om ∧
          om.length = cs.length ∧ m.length = cs.length) ∧
        (nd.Typ ≠ NodeType.Array → nd.Typ ≠ NodeType.Object →
          cs = [] ∧ GetCount h (some p) = .ok 0) := by
  obtain ⟨h, hload, L⟩ := LoadValue_ok x wf
  refine ⟨h, hload, ?_⟩
  intro p nd hp
  have ht := loaded_type L hp
  have e := GetCount_eq L hp
  obtain ⟨cs, c1, _, c3, c4, _, _, c7⟩ := nodeOK_children (L.node p nd hp)
  have hlen := chain_length_eq c7
  have wfm := (L.node p nd hp).1
  refine ⟨cs, c1, ?_, ?_, ?_, ?_⟩
  · rw [e]
    cases hv : nd.RawValue <;> rw [hv] at hlen <;> simp [childSpecs] at hlen ⊢
    · simp [hlen]
    · simp [hlen]
    · simp [hlen]
    · simp [hlen]
    · rw [hlen, arraySpecs_length]
    · rw [hlen]
      simp only [objectSpecs, List.length_map]
      rw [(sortStrings_perm _).length_eq]
      simp [mapKeys]
  · intro hty
    obtain ⟨xs, hxs⟩ := shape_array (ht ▸ hty)
    rw [hxs] at c3 hlen
    refine ⟨xs, _, hxs, c3, by simp, ?_⟩
    rw [hlen]
    exact (arraySpecs_length _ _ _).symm
  · intro hty
    obtain ⟨m, hm⟩ := shape_object (ht ▸ hty)
    rw [hm] at c4 hlen
    have hl : cs.length = m.length := by
      rw [hlen]
      simp only [childSpecs, objectSpecs, List.length_map]
      rw [(sortStrings_perm _).length_eq]
      simp [mapKeys]
    refine ⟨m, _, hm, c4, ?_, hl.symm⟩
    simp only [List.length_zip, List.length_map]
    rw [(sortStrings_perm _).length_eq]
    simp [mapKeys, hl]
  · intro h1 h2
    rw [ht] at h1 h2
    rw [e]
    cases hv : nd.RawValue <;> rw [hv] at h1 h2 hlen <;>
      simp [shapeType, childSpecs] at h1 h2 hlen ⊢ <;> exact hlen

/-- C9 at `{"b":1,"a":[true,null]}`: `GetCount` is 2 on the root and on the
node at `/a` (address 1), and 0 on the node at `/b` (address 4). -/
theorem count_is_children_witness :
    exampleDoc.WF ∧
    (∃ h, LoadValue exampleDoc = .ok h ∧ ∀ (p : Nat) (nd : Node), h[p]? = some nd →
      ∃ cs, children h nd = some cs ∧ GetCount h (some p) = .ok (cs.length : Int) ∧
        (nd.Typ = NodeType.Array → ∃ xs a, nd.RawValue = Value.arr xs ∧ nd.Array = some a ∧
          a.length = cs.length ∧ xs.length = cs.length) ∧
        (nd.Typ = NodeType.Object → ∃ m om, nd.RawValue = Value.obj m ∧ nd.Object = some om ∧
          om.length = cs.length ∧ m.length = cs.length) ∧
        (nd.Typ ≠ NodeType.Array → nd.Typ ≠ NodeType.Object →
          cs = [] ∧ GetCount h (some p) = .ok 0)) ∧
    (LoadValue exampleDoc).toOption.bind (fun h => (GetCount h root).toOption) = some 2 ∧
    (LoadValue exampleDoc).toOption.bind (fun h => (GetCount h (some 1)).toOption) = some 2 ∧
    (LoadValue exampleDoc).toOption.bind (fun h => (GetCount h (some 4)).toOption) = some 0 ∧
    (LoadValue exampleDoc).toOption.map allPaths
      = some [ascii "/", ascii "/a", ascii "/a[0]", ascii "/a[1]", ascii "/b"] :=
  ⟨⟨by decide, trivial, ⟨trivial, trivial, trivial⟩, trivial⟩,
    count_is_children exampleDoc ⟨by decide, trivial, ⟨trivial, trivial, trivial⟩, trivial⟩,
    by decide!, by decide!, by decide!, by decide!⟩

/-- C10: on every node of a loaded tree and for all arguments, each of the
twelve accessors returns a result and does not fail: the type tag is the tag of
the shape of the raw value, so every type assertion succeeds, and the slice
expressions of `GetSlice` and `Slice` are within bounds. -/
theorem accessors_never_fail (x : Value) (wf : x.WF) :
    ∃ h, LoadValue x = .ok h ∧ ∀ (p : Nat) (nd : Node), h[p]? = some nd →
      nd.Typ = shapeType nd.RawValue ∧
      ∀ (start end_ i : Int) (key : GoString) (toInt : Float64 → Int) (db : List Bool)
        (df : List Float64) (di : List Int) (ds : List GoString)
        (da : List (Option (List Value))) (dm : List (Option (List (GoString × Value))))
        (dv : List Value),
        (∃ r, GetBool h (some p) db = .ok r) ∧
        (∃ r, GetFloat64 h (some p) df = .ok r) ∧
        (∃ r, GetInt toInt h (some p) di = .ok r) ∧
        (∃ r, GetString h (some p) ds = .ok r) ∧
        (∃ r, GetArray h (some p) da = .ok r) ∧
        (∃ r, GetSlice h (some p) start end_ da = .ok r) ∧
        (∃ r, GetIndex h (some p) i dv = .ok r) ∧
        (∃ r, GetObject h (some p) dm = .ok r) ∧
        (∃ r, GetObjectValue h (some p) key dv = .ok r) ∧
        (∃ r, GetCount h (some p) = .ok r) ∧
        (∃ r, Slice h (some p) start end_ = .ok r) ∧
        (∃ r, Index h (some p) i = .ok r) := by
  obtain ⟨h, hload, L⟩ := LoadValue_ok x wf
  refine ⟨h, hload, ?_⟩
  intro p nd hp
  refine ⟨loaded_type L hp, ?_⟩
  intro start end_ i key toInt db df di ds da dm dv
  exact ⟨⟨_, GetBool_eq L hp db⟩, ⟨_, GetFloat64_eq L hp df⟩, ⟨_, GetInt_eq L hp toInt di⟩,
    ⟨_, GetString_eq L hp ds⟩, ⟨_, GetArray_eq L hp da⟩, ⟨_, GetSlice_eq L hp start end_ da⟩,
    ⟨_, GetIndex_eq L hp i dv⟩, ⟨_, GetObject_eq L hp dm⟩, ⟨_, GetObjectValue_eq L hp key dv⟩,
    ⟨_, GetCount_eq L hp⟩, ⟨_, Slice_eq L hp start end_⟩, ⟨_, Index_eq L hp i⟩⟩

/-- C10 at the empty array `[]`: with `start < 0 < end`, `Slice(-1,1)` and
`GetSlice(-1,1)` on the root return the empty slice. -/
theorem accessors_never_fail_witness :
    emptyArrayDoc.WF ∧
    (∃ h, LoadValue emptyArrayDoc = .ok h ∧ ∀ (p : Nat) (nd : Node), h[p]? = some nd →
      nd.Typ = shapeType nd.RawValue ∧
      ∀ (start end_ i : Int) (key : GoString) (toInt : Float64 → Int) (db : List Bool)
        (df : List Float64) (di : List Int) (ds : List GoString)
        (da : List (Option (List Value))) (dm : List (Option (List (GoString × Value))))
        (dv : List Value),
        (∃ r, GetBool h (some p) db = .ok r) ∧
        (∃ r, GetFloat64 h (some p) df = .ok r) ∧
        (∃ r, GetInt toInt h (some p) di = .ok r) ∧
        (∃ r, GetString h (some p) ds = .ok r) ∧
        (∃ r, GetArray h (some p) da = .ok r) ∧
        (∃ r, GetSlice h (some p) start end_ da = .ok r) ∧
        (∃ r, GetIndex h (some p) i dv = .ok r) ∧
        (∃ r, GetObject h (some p) dm = .ok r) ∧
        (∃ r, GetObjectValue h (some p) key dv = .ok r) ∧
        (∃ r, GetCount h (some p) = .ok r) ∧
        (∃ r, Slice h (some p) start end_ = .ok r) ∧
        (∃ r, Index h (some p) i = .ok r)) ∧
    (LoadValue emptyArrayDoc).toOption.bind (fun h => (Slice h root (-1) 1).toOption)
      = some (some []) ∧
    (LoadValue emptyArrayDoc).toOption.bind
      (fun h => (GetSlice h root (-1) 1 []).toOption.map (fun r => r.map List.length))
      = some (some 0) :=
  ⟨trivial, accessors_never_fail emptyArrayDoc trivial, by decide!, by decide!⟩

/-- Every accessor dereferences its receiver first: on the nil pointer it
fails. -/
theorem accessors_on_nil (h : Heap) (start end_ i : Int) (key : GoString)
    (toInt : Float64 → Int) (db : List Bool) (df : List Float64) (di : List Int)
    (ds : List GoString) (da : List (Option (List Value)))
    (dm : List (Option (List (GoString × Value)))) (dv : List Value) :
    GetBool h none db = .error Panic.nilDereference ∧
    GetFloat64 h none df = .error Panic.nilDereference ∧
    GetInt toInt h none di = .error Panic.nilDereference ∧
    GetString h none ds = .error Panic.nilDereference ∧
    GetArray h none da = .error Panic.nilDereference ∧
    GetSlice h none start end_ da = .error Panic.nilDereference ∧
    GetIndex h none i dv = .error Panic.nilDereference ∧
    GetObject h none dm = .error Panic.nilDereference ∧
    GetObjectValue h none key dv = .error Panic.nilDereference ∧
    GetCount h none = .error Panic.nilDereference ∧
    Slice h none start end_ = .error Panic.nilDereference ∧
    Index h none i = .error Panic.nilDereference :=
  ⟨rfl, rfl, rfl, rfl, rfl, rfl, rfl, rfl, rfl, rfl, rfl, rfl⟩

/-- C11 fails as stated: in the tree built from `[null,true,false]`,
`Index(3)` on the root yields nil, and the call `GetString("d")` on that result
does not return `"d"`: it fails with a nil dereference. -/
theorem chained_getter_counterexample :
    threeDoc.WF ∧ ∃ h, LoadValue threeDoc = .ok h ∧ Index h root 3 = .ok none ∧
      (Index h root 3 >>= fun q => GetString h q [ascii "d"])
        = .error Panic.nilDereference := by
  have wf : threeDoc.WF := ⟨trivial, trivial, trivial, trivial⟩
  obtain ⟨h, hload, L⟩ := LoadValue_ok threeDoc wf
  refine ⟨wf, h, hload, ?_⟩
  have e : (LoadValue threeDoc).toOption.bind (fun h => (Index h root 3).toOption)
      = some none := by decide!
  rw [hload] at e
  simp only [Except.toOption, Option.some_bind] at e
  have hi : Index h root 3 = .ok none := by
    cases hr : Index h root 3 with
    | error err => rw [hr] at e; simp at e
    | ok r =>
      rw [hr] at e
      simp only [Option.some.injEq] at e
      rw [e]
  refine ⟨hi, ?_⟩
  rw [hi]
  rfl

/-- C11, amended: on every node `n` of a loaded tree, for every integer `i` and
default `d`, when `n` is an Array and `0 ≤ i < len`, `n.Index(i)` yields the
child `Array[i]` and `n.Index(i).GetString(d)` returns without failure: the
string of that child when it is a String, else `d` (or `""` without default).
In every other case `n.Index(i)` yields nil, and a getter called on that result
fails with a nil dereference: the result of `Index` has to be checked. -/
theorem chained_getter_needs_guard (x : Value) (wf : x.WF) :
    ∃ h, LoadValue x = .ok h ∧ ∀ (p : Nat) (nd : Node) (i : Int) (d : List GoString),
      h[p]? = some nd →
      (nd.Typ = NodeType.Array → 0 ≤ i → i < arrayLen nd → ∃ c cd,
        Index h (some p) i = .ok (some c) ∧ h[c]? = some cd ∧
        (Index h (some p) i >>= fun q => GetString h q d)
          = .ok (match cd.RawValue with
              | .str s => s
              | _ => d.headD [])) ∧
      (¬ (nd.Typ = NodeType.Array ∧ 0 ≤ i ∧ i < arrayLen nd) →
        Index h (some p) i = .ok none ∧
        (Index h (some p) i >>= fun q => GetString h q d)
          = .error Panic.nilDereference) := by
  obtain ⟨h, hload, L⟩ := LoadValue_ok x wf
  refine ⟨h, hload, ?_⟩
  intro p nd i d hp
  have e1 := Index_eq L hp i
  constructor
  · intro hty h0 h1
    obtain ⟨xs, cs, hxs, harr, hlen, _⟩ := loaded_array_node L hp hty
    have hal : arrayLen nd = cs.length := by simp [arrayLen, harr]
    have hi : i.toNat < cs.length := by omega
    have hget : (cs.map some)[i.toNat]? = some (some cs[i.toNat]) := by
      simp [List.getElem?_eq_getElem hi]
    obtain ⟨_, _, cd, _, _, _, _, s5, _⟩ := loaded_array_elem L hp harr hget
    rw [harr] at e1
    have hidx : Index h (some p) i = .ok (some cs[i.toNat]) := by
      rw [e1]
      simp [h0, hi]
    refine ⟨cs[i.toNat], cd, hidx, s5, ?_⟩
    rw [hidx]
    exact GetString_eq L s5 d
  · intro hn
    have hidx : Index h (some p) i = .ok none := by
      rw [e1]
      cases ha : nd.Array with
      | none => rfl
      | some a =>
        have hty : nd.Typ = NodeType.Array := by
          obtain ⟨_, ht, cs, a1, _⟩ := L.node p nd hp
          rw [ht]
          cases hv : nd.RawValue <;> rw [hv, ha] at a1 <;> simp [expectedArray] at a1
          rfl
        have hal : arrayLen nd = a.length := by simp [arrayLen, ha]
        by_cases h0 : 0 ≤ i
        · have hge : a.length ≤ i.toNat := by
            by_contra hc
            exact hn ⟨hty, h0, by omega⟩
          simp [h0, List.getElem?_eq_none hge]
        · simp [h0]
    refine ⟨hidx, ?_⟩
    rw [hidx]
    rfl

/-- C11, amended, at `[null,true,false]`: `Index(1).GetString("d")` on the root
returns `"d"`, the child being a Boolean. -/
theorem chained_getter_needs_guard_witness :
    threeDoc.WF ∧
    (∃ h, LoadValue threeDoc = .ok h ∧ ∀ (p : Nat) (nd : Node) (i : Int) (d : List GoString),
      h[p]? = some nd →
      (nd.Typ = NodeType.Array → 0 ≤ i → i < arrayLen nd → ∃ c cd,
        Index h (some p) i = .ok (some c) ∧ h[c]? = some cd ∧
        (Index h (some p) i >>= fun q => GetString h q d)
          = .ok (match cd.RawValue with
              | .str s => s
              | _ => d.headD [])) ∧
      (¬ (nd.Typ = NodeType.Array ∧ 0 ≤ i ∧ i < arrayLen nd) →
        Index h (some p) i = .ok none ∧
        (Index h (some p) i >>= fun q => GetString h q d)
          = .error Panic.nilDereference)) ∧
    (LoadValue threeDoc).toOption.bind
        (fun h => (Index h root 1 >>= fun q => GetString h q [ascii "d"]).toOption)
      = some (ascii "d") :=
  ⟨⟨trivial, trivial, trivial, trivial⟩,
    chained_getter_needs_guard threeDoc ⟨trivial, trivial, trivial, trivial⟩,
    by decide!⟩

/-- The text that `%q` prints for a control character other than backspace,
tab, line feed, form feed and carriage return, or for the character U+007F, is
not a JSON string literal. -/
theorem quote_control_not_json :
    (∀ b, b < 32 → b ≠ 8 → b ≠ 9 → b ≠ 10 → b ≠ 12 → b ≠ 13 →
      jsonStringOK (quoteASCII [b]) = false) ∧
    jsonStringOK (quoteASCII [127]) = false ∧
    quoteASCII [0] = [34, 92, 120, 48, 48, 34] ∧ quoteASCII [7] = [34, 92, 97, 34] := by
  refine ⟨?_, by decide, by decide, by decide⟩
  intro b hb h8 h9 h10 h12 h13
  interval_cases b <;> first | decide | omega

/-- On the leaves `null`, `true` and `false`, `ToJsonText` gives the JSON
texts `null`, `true` and `false`. -/
theorem ToJsonText_null_bool (sprintfG sprintfQ : Value → GoString)
    (marshal : Value → GoString × GoError)
    (marshalIndent : Value → GoString → GoString → GoString × GoError) (pretty : Bool) :
    (∃ h, LoadValue Value.null = .ok h ∧
      ToJsonText sprintfG sprintfQ marshal marshalIndent h root pretty = .ok (ascii "null")) ∧
    (∃ h, LoadValue (Value.bool true) = .ok h ∧
      ToJsonText sprintfG sprintfQ marshal marshalIndent h root pretty = .ok (ascii "true")) ∧
    (∃ h, LoadValue (Value.bool false) = .ok h ∧
      ToJsonText sprintfG sprintfQ marshal marshalIndent h root pretty
        = .ok (ascii "false")) :=
  ⟨⟨_, rfl, rfl⟩, ⟨_, rfl, rfl⟩, ⟨_, rfl, rfl⟩⟩

/-- C12 fails on the string leaf that holds the one character U+0007: whenever
`%q` prints it as Go does, `"\a"`, `ToJsonText` returns the text `"\a"`, which
begins like a JSON string and is not a JSON string literal (JSON has no escape
`\a`), so it is not JSON text and decodes to nothing. -/
theorem ToJsonText_bell_not_json (sprintfG sprintfQ : Value → GoString)
    (marshal : Value → GoString × GoError)
    (marshalIndent : Value → GoString → GoString → GoString × GoError) (pretty : Bool)
    (hq : sprintfQ (Value.str [7]) = quoteASCII [7]) :
    ∃ h, LoadValue (Value.str [7]) = .ok h ∧
      ToJsonText sprintfG sprintfQ marshal marshalIndent h root pretty
        = .ok [34, 92, 97, 34] ∧
      jsonStringOK [34, 92, 97, 34] = false := by
  refine ⟨_, rfl, ?_, by decide⟩
  show Except.ok (sprintfQ (Value.str [7])) = _
  rw [hq]
  rfl

/-- C12's failure with `%q` on strings taken to be `strconv.Quote` on ASCII
bytes. -/
theorem ToJsonText_bell_not_json_witness :
    (fun v : Value => match v with
      | Value.str s => quoteASCII s
      | _ => []) (Value.str [7]) = quoteASCII [7] ∧
    ∃ h, LoadValue (Value.str [7]) = .ok h ∧
      ToJsonText (fun _ => []) (fun v : Value => match v with
          | Value.str s => quoteASCII s
          | _ => []) (fun _ => ([], none)) (fun _ _ _ => ([], none)) h root false
        = .ok [34, 92, 97, 34] ∧
      jsonStringOK [34, 92, 97, 34] = false :=
  ⟨rfl, ToJsonText_bell_not_json (fun _ => []) (fun v : Value => match v with
      | Value.str s => quoteASCII s
      | _ => []) (fun _ => ([], none)) (fun _ _ _ => ([], none)) false rfl⟩

/-- C13: when two decoded values are the same JSON value, their maps being
enumerated in whatever orders at any depth, the trees built from them are
identical: the heaps have the same length and at every address the two nodes
have the same `Type`, `Key`, `Path` and `Level`, the same pointers `Parent`,
`FirstChild`, `LastChild`, `PrevSibling`, `NextSibling`, the same `Array` and
`Object`, and raw values that are the same JSON value. -/
theorem loader_deterministic (x x' : Value) (wf : x.WF) (hs : Value.Same x x') :
    ∃ h h', LoadValue x = .ok h ∧ LoadValue x' = .ok h' ∧ h.length = h'.length ∧
      ∀ (q : Nat) (nd nd' : Node), h[q]? = some nd → h'[q]? = some nd' →
        nd.Typ = nd'.Typ ∧ nd.Key = nd'.Key ∧ nd.Path = nd'.Path ∧ nd.Level = nd'.Level ∧
        nd.Parent = nd'.Parent ∧ nd.FirstChild = nd'.FirstChild ∧
        nd.LastChild = nd'.LastChild ∧ nd.PrevSibling = nd'.PrevSibling ∧
        nd.NextSibling = nd'.NextSibling ∧ nd.Array = nd'.Array ∧ nd.Object = nd'.Object ∧
        Value.Same nd.RawValue nd'.RawValue := by
  obtain ⟨h, hload, _⟩ := LoadValue_ok x wf
  have h0 : HeapSame [({ Path := [47], RawValue := x, Level := 0 } : Node)]
      [({ Path := [47], RawValue := x', Level := 0 } : Node)] :=
    List.Forall₂.cons ⟨rfl, rfl, rfl, rfl, rfl, rfl, rfl, rfl, rfl, rfl, rfl, hs⟩
      List.Forall₂.nil
  have key := parseValue_same (sizeOf x + 1) x x' (Nat.lt_succ_self _) hs (some 0) _ _ h0
  have hload' : parseValue x (some 0) [({ Path := [47], RawValue := x, Level := 0 } : Node)]
      = .ok h := hload
  rw [hload'] at key
  cases hr : parseValue x' (some 0) [({ Path := [47], RawValue := x', Level := 0 } : Node)] with
  | error e => rw [hr] at key; exact key.elim
  | ok h' =>
    rw [hr] at key
    have hsame : HeapSame h h' := key
    refine ⟨h, h', hload, hr, heapSame_length hsame, ?_⟩
    intro q nd nd' hq hq'
    rcases heapSame_get hsame q with ⟨e1, _⟩ | ⟨a, b, e1, e2, hab⟩
    · rw [e1] at hq; cases hq
    · rw [hq] at e1
      rw [hq'] at e2
      injection e1 with e1
      injection e2 with e2
      subst e1
      subst e2
      exact ⟨hab.typ, hab.key, hab.path, hab.level, hab.parent, hab.first, hab.last,
        hab.prev, hab.next, hab.array, hab.object, hab.raw⟩

theorem exampleDoc_same_swapped : Value.Same exampleDoc exampleDocSwapped := by
  refine ⟨by decide, ?_, ?_, trivial⟩
  · show Value.Same (Value.num _) (mapGet _ (ascii "b"))
    have : mapGet [(ascii "a", Value.arr [Value.bool true, Value.null]),
        (ascii "b", Value.num ⟨0x3FF0000000000000⟩)] (ascii "b")
        = Value.num ⟨0x3FF0000000000000⟩ := by
      simp [mapGet, mapLookup, ascii]
    rw [this]
    rfl
  · show Value.Same (Value.arr _) (mapGet _ (ascii "a"))
    have : mapGet [(ascii "a", Value.arr [Value.bool true, Value.null]),
        (ascii "b", Value.num ⟨0x3FF0000000000000⟩)] (ascii "a")
        = Value.arr [Value.bool true, Value.null] := by
      simp [mapGet, mapLookup, ascii]
    rw [this]
    exact ⟨rfl, trivial, trivial⟩

/-- C13 at `{"b":1,"a":[true,null]}` and `{"a":[true,null],"b":1}`: both give
the paths `/`, `/a`, `/a[0]`, `/a[1]`, `/b` at the addresses 0 to 4. -/
theorem loader_deterministic_witness :
    exampleDoc.WF ∧ Value.Same exampleDoc exampleDocSwapped ∧
    (∃ h h', LoadValue exampleDoc = .ok h ∧ LoadValue exampleDocSwapped = .ok h' ∧
      h.length = h'.length ∧
      ∀ (q : Nat) (nd nd' : Node), h[q]? = some nd → h'[q]? = some nd' →
        nd.Typ = nd'.Typ ∧ nd.Key = nd'.Key ∧ nd.Path = nd'.Path ∧ nd.Level = nd'.Level ∧
        nd.Parent = nd'.Parent ∧ nd.FirstChild = nd'.FirstChild ∧
        nd.LastChild = nd'.LastChild ∧ nd.PrevSibling = nd'.PrevSibling ∧
        nd.NextSibling = nd'.NextSibling ∧ nd.Array = nd'.Array ∧ nd.Object = nd'.Object ∧
        Value.Same nd.RawValue nd'.RawValue) ∧
    (LoadValue exampleDocSwapped).toOption.map allPaths
      = some [ascii "/", ascii "/a", ascii "/a[0]", ascii "/a[1]", ascii "/b"] ∧
    (LoadValue exampleDoc).toOption.map allPaths
      = (LoadValue exampleDocSwapped).toOption.map allPaths :=
  ⟨⟨by decide, trivial, ⟨trivial, trivial, trivial⟩, trivial⟩,
    exampleDoc_same_swapped,
    loader_deterministic exampleDoc exampleDocSwapped
      ⟨by decide, trivial, ⟨trivial, trivial, trivial⟩, trivial⟩ exampleDoc_same_swapped,
    by decide!, by decide!⟩

/-- C14: in the tree built from a decoded value the root has `Level` 0 and no
`Parent`; every other node has a `Parent`, allocated before it, with
`Level = Parent.Level + 1`, and is an element of the `Array` or a member of the
`Object` of that parent; the `Level` of a node is the number of `Parent` hops
up to the root; and a node that holds another in its `Array` or `Object` is
its `Parent`. -/
theorem level_is_depth (x : Value) (wf : x.WF) :
    ∃ h, LoadValue x = .ok h ∧
      (∃ rd, h[0]? = some rd ∧ rd.Level = 0 ∧ rd.Parent = none) ∧
      (∀ (q : Nat) (qd : Node), 0 < q → h[q]? = some qd →
        ∃ r rd, r < q ∧ qd.Parent = some r ∧ h[r]? = some rd ∧ qd.Level = rd.Level + 1 ∧
          ((∃ (a : List Ptr) (i : Nat), rd.Array = some a ∧ a[i]? = some (some q)) ∨
           (∃ om, rd.Object = some om ∧ mapLookup om qd.Key = some (some q)))) ∧
      (∀ (q : Nat) (qd : Node), h[q]? = some qd →
        ∃ k : Nat, parentHops h h.length q = some k ∧ qd.Level = k) ∧
      (∀ (p q : Nat) (nd qd : Node), h[p]? = some nd → h[q]? = some qd →
        ((∃ (a : List Ptr) (i : Nat), nd.Array = some a ∧ a[i]? = some (some q)) ∨
         (∃ om k, nd.Object = some om ∧ mapLookup om k = some (some q))) →
        qd.Parent = some p) := by
  obtain ⟨h, hload, L⟩ := LoadValue_ok x wf
  refine ⟨h, hload, ?_, ?_, ?_, ?_⟩
  · obtain ⟨rd, r1, _, r3, r4, _⟩ := L.root
    exact ⟨rd, r1, r3, r4⟩
  · intro q qd hq0 hq
    obtain ⟨r, rd, h1, h2, h3, h4⟩ := loaded_parent L hq0 hq
    refine ⟨r, rd, h1, h2, h3, ?_, h4⟩
    rcases h4 with ⟨a, i, ha, hi⟩ | ⟨om, ho, hk⟩
    · obtain ⟨_, _, cd, _, _, _, _, s3, _, s5, _⟩ := loaded_array_elem L h3 ha hi
      rw [hq] at s3
      injection s3 with s3
      subst s3
      exact s5
    · obtain ⟨_, cd, _, _, _, s3, _, s5, _⟩ := loaded_object_member L h3 ho hk
      rw [hq] at s3
      injection s3 with s3
      subst s3
      exact s5
  · intro q qd hq
    exact loaded_hops L q qd hq h.length (Nat.le_of_lt (lt_length_of_get hq))
  · intro p q nd qd hp hq hc
    rcases hc with ⟨a, i, ha, hi⟩ | ⟨om, k, ho, hk⟩
    · obtain ⟨_, _, cd, _, _, _, _, s3, s4, _⟩ := loaded_array_elem L hp ha hi
      rw [hq] at s3
      injection s3 with s3
      subst s3
      exact s4
    · obtain ⟨_, cd, _, _, _, s3, s4, _⟩ := loaded_object_member L hp ho hk
      rw [hq] at s3
      injection s3 with s3
      subst s3
      exact s4

/-- C14 at `{"b":1,"a":[true,null]}`: the levels of the nodes `/`, `/a`,
`/a[0]`, `/a[1]`, `/b` are 0, 1, 2, 2, 1, the numbers of `Parent` hops. -/
theorem level_is_depth_witness :
    exampleDoc.WF ∧
    (∃ h, LoadValue exampleDoc = .ok h ∧
      (∃ rd, h[0]? = some rd ∧ rd.Level = 0 ∧ rd.Parent = none) ∧
      (∀ (q : Nat) (qd : Node), 0 < q → h[q]? = some qd →
        ∃ r rd, r < q ∧ qd.Parent = some r ∧ h[r]? = some rd ∧ qd.Level = rd.Level + 1 ∧
          ((∃ (a : List Ptr) (i : Nat), rd.Array = some a ∧ a[i]? = some (some q)) ∨
           (∃ om, rd.Object = some om ∧ mapLookup om qd.Key = some (some q)))) ∧
      (∀ (q : Nat) (qd : Node), h[q]? = some qd →
        ∃ k : Nat, parentHops h h.length q = some k ∧ qd.Level = k) ∧
      (∀ (p q : Nat) (nd qd : Node), h[p]? = some nd → h[q]? = some qd →
        ((∃ (a : List Ptr) (i : Nat), nd.Array = some a ∧ a[i]? = some (some q)) ∨
         (∃ om k, nd.Object = some om ∧ mapLookup om k = some (some q))) →
        qd.Parent = some p)) ∧
    (LoadValue exampleDoc).toOption.map
        (fun h => h.map (fun nd => (nd.Level, nd.Parent)))
      = some [(0, none), (1, some 0), (2, some 1), (2, some 1), (1, some 0)] ∧
    (LoadValue exampleDoc).toOption.map
        (fun h => (List.range h.length).map (parentHops h h.length))
      = some [some 0, some 1, some 2, some 2, some 1] :=
  ⟨⟨by decide, trivial, ⟨trivial, trivial, trivial⟩, trivial⟩,
    level_is_depth exampleDoc ⟨by decide, trivial, ⟨trivial, trivial, trivial⟩, trivial⟩,
    by decide!, by decide!⟩

/-- C15: on every node of a loaded tree the field `Array` is present exactly
when the type is Array, the field `Object` exactly when the type is Object,
never both; a scalar node (Null, Boolean, Number, String) has neither, and
neither `FirstChild` nor `LastChild`. -/
theorem containers_match_type (x : Value) (wf : x.WF) :
    ∃ h, LoadValue x = .ok h ∧ ∀ (q : Nat) (nd : Node), h[q]? = some nd →
      (nd.Array ≠ none ↔ nd.Typ = NodeType.Array) ∧
      (nd.Object ≠ none ↔ nd.Typ = NodeType.Object) ∧
      ¬ (nd.Array ≠ none ∧ nd.Object ≠ none) ∧
      (nd.Typ = NodeType.Null ∨ nd.Typ = NodeType.Boolean ∨ nd.Typ = NodeType.Number ∨
          nd.Typ = NodeType.String →
        nd.Array = none ∧ nd.Object = none ∧ nd.FirstChild = none ∧ nd.LastChild = none) := by
  obtain ⟨h, hload, L⟩ := LoadValue_ok x wf
  refine ⟨h, hload, ?_⟩
  intro q nd hq
  obtain ⟨_, ht, cs, a1, a2, a3, a4, _, a6⟩ := L.node q nd hq
  have hlen := chain_length_eq a6
  rw [childSpecs_length] at hlen
  cases hv : nd.RawValue <;> rw [hv] at ht a1 a2 hlen <;>
    simp only [expectedArray, expectedObject, shapeType] at ht a1 a2 hlen <;>
    first
      | simp [ht, a1, a2, a3, a4, List.length_eq_zero.1 hlen]
      | simp [ht, a1, a2]

/-- C15 at `{"b":1,"a":[true,null]}`: of the nodes `/`, `/a`, `/a[0]`,
`/a[1]`, `/b` only `/a` has an `Array` and only `/` has an `Object`. -/
theorem containers_match_type_witness :
    exampleDoc.WF ∧
    (∃ h, LoadValue exampleDoc = .ok h ∧ ∀ (q : Nat) (nd : Node), h[q]? = some nd →
      (nd.Array ≠ none ↔ nd.Typ = NodeType.Array) ∧
      (nd.Object ≠ none ↔ nd.Typ = NodeType.Object) ∧
      ¬ (nd.Array ≠ none ∧ nd.Object ≠ none) ∧
      (nd.Typ = NodeType.Null ∨ nd.Typ = NodeType.Boolean ∨ nd.Typ = NodeType.Number ∨
          nd.Typ = NodeType.String →
        nd.Array = none ∧ nd.Object = none ∧ nd.FirstChild = none ∧ nd.LastChild = none)) ∧
    (LoadValue exampleDoc).toOption.map
        (fun h => h.map (fun nd => (nd.Typ, nd.Array.isSome, nd.Object.isSome)))
      = some [(NodeType.Object, false, true), (NodeType.Array, true, false),
          (NodeType.Boolean, false, false), (NodeType.Null, false, false),
          (NodeType.Number, false, false)] :=
  ⟨⟨by decide, trivial, ⟨trivial, trivial, trivial⟩, trivial⟩,
    containers_match_type exampleDoc
      ⟨by decide, trivial, ⟨trivial, trivial, trivial⟩, trivial⟩,
    by decide!⟩

/-- The children held in `Array` carry the elements of the raw sequence, one
by one. -/
theorem loaded_array_pairs {x : Value} {h : Heap} (L : Loaded x h) {p : Nat} {nd : Node}
    {a : List Ptr} {xs : List Value} (hp : h[p]? = some nd) (ha : nd.Array = some a)
    (hx : nd.RawValue = Value.arr xs) (hall : ∀ ptr ∈ a, ptr ≠ none) :
    List.Forall₂ (fun ptr v => ∃ c cd, ptr = some c ∧ h[c]? = some cd ∧ cd.RawValue = v) a xs := by
  have hlen : a.length = xs.length := by
    obtain ⟨_, _, cs, a1, _, _, _, _, a6⟩ := L.node p nd hp
    have hl := chain_length_eq a6
    rw [childSpecs_length, hx] at hl
    rw [hx, ha] at a1
    simp only [expectedArray, Option.some.injEq] at a1
    rw [a1, List.length_map, hl]
  rw [List.forall₂_iff_get]
  refine ⟨hlen, ?_⟩
  intro i h1 h2
  have hget : a[i]? = some (a.get ⟨i, h1⟩) := List.getElem?_eq_getElem h1
  cases hc : a.get ⟨i, h1⟩ with
  | none => exact absurd hc (hall _ (List.get_mem a i h1))
  | some c =>
    rw [hc] at hget
    obtain ⟨xs', v, cd, s1, _, s3, _, s5, _, _, _, _, s10⟩ := loaded_array_elem L hp ha hget
    rw [hx] at s1
    injection s1 with s1
    subst s1
    refine ⟨c, cd, rfl, s5, ?_⟩
    rw [s10]
    have : xs[i]? = some (xs.get ⟨i, h2⟩) := List.getElem?_eq_getElem h2
    rw [this] at s3
    injection s3 with s3
    exact s3.symm

/-- C16: on every node of a loaded tree the queries that return nodes and
those that return raw values agree.  On an Array node, for all `start` and
`end`, the nodes of `Slice(start,end)` carry, one by one, the values of
`GetSlice(start,end)`, and for every `i` with `0 ≤ i < len`, the node
`Index(i)` carries the value `GetIndex(i)`.  On an Object node, `Object` and
the raw map have the same keys, and under each key `k` the node `Object[k]` has
`Key` `k` and carries the value `GetObjectValue(k)`. -/
theorem node_and_raw_queries_agree (x : Value) (wf : x.WF) :
    ∃ h, LoadValue x = .ok h ∧ ∀ (p : Nat) (nd : Node), h[p]? = some nd →
      (nd.Typ = NodeType.Array →
        (∀ (start end_ : Int) (dflt : List (Option (List Value))), ∃ ps rs,
          Slice h (some p) start end_ = .ok (some ps) ∧
          GetSlice h (some p) start end_ dflt = .ok (some rs) ∧
          List.Forall₂ (fun ptr v => ∃ c cd, ptr = some c ∧ h[c]? = some cd ∧ cd.RawValue = v)
            ps rs) ∧
        (∀ (i : Int) (dflt : List Value), 0 ≤ i → i < arrayLen nd → ∃ c cd,
          Index h (some p) i = .ok (some c) ∧ h[c]? = some cd ∧
          GetIndex h (some p) i dflt = .ok cd.RawValue)) ∧
      (nd.Typ = NodeType.Object → ∃ m om, nd.RawValue = Value.obj m ∧ nd.Object = some om ∧
        (∀ k, k ∈ mapKeys om ↔ k ∈ mapKeys m) ∧
        ∀ k ∈ mapKeys m, ∀ (dflt : List Value), ∃ c cd, mapLookup om k = some (some c) ∧
          h[c]? = some cd ∧ cd.Key = k ∧
          GetObjectValue h (some p) k dflt = .ok cd.RawValue) := by
  obtain ⟨h, hload, L⟩ := LoadValue_ok x wf
  refine ⟨h, hload, ?_⟩
  intro p nd hp
  constructor
  · intro hty
    obtain ⟨xs, cs, hxs, harr, hlen, _⟩ := loaded_array_node L hp hty
    have hall : ∀ ptr ∈ cs.map some, ptr ≠ none := by
      intro ptr hm
      obtain ⟨c, _, hc⟩ := List.mem_map.1 hm
      rw [← hc]; simp
    have hpairs := loaded_array_pairs L hp harr hxs hall
    have hl : ((cs.map some).length : Int) = xs.length := by simp [hlen]
    constructor
    · intro start end_ dflt
      have e1 := Slice_eq L hp start end_
      have e2 := GetSlice_eq L hp start end_ dflt
      rw [harr] at e1
      rw [hxs] at e2
      simp only [] at e1 e2
      rw [hl] at e1
      refine ⟨_, _, e1, e2, ?_⟩
      unfold between
      exact List.forall₂_drop _ (List.forall₂_take _ hpairs)
    · intro i dflt h0 h1
      have hal : arrayLen nd = cs.length := by simp [arrayLen, harr]
      have hi : i.toNat < cs.length := by omega
      have hget : (cs.map some)[i.toNat]? = some (some cs[i.toNat]) := by
        simp [List.getElem?_eq_getElem hi]
      obtain ⟨xs', v, cd, s1, _, s3, _, s5, _, _, _, _, s10⟩ :=
        loaded_array_elem L hp harr hget
      rw [hxs] at s1
      injection s1 with s1
      subst s1
      have e1 := Index_eq L hp i
      have e2 := GetIndex_eq L hp i dflt
      rw [harr] at e1
      rw [hxs] at e2
      refine ⟨cs[i.toNat], cd, ?_, s5, ?_⟩
      · rw [e1]
        simp [h0, hi]
      · rw [e2, s10]
        simp [h0, s3]
  · intro hty
    obtain ⟨m, cs, hm, hnd, hobj, hlen, _⟩ := loaded_object_node L hp hty
    have hks : (sortStrings (mapKeys m)).length = cs.length := by
      rw [(sortStrings_perm _).length_eq, hlen]
      simp [mapKeys]
    have hkeys : mapKeys ((sortStrings (mapKeys m)).zip (cs.map some))
        = sortStrings (mapKeys m) := by
      unfold mapKeys
      exact List.map_fst_zip _ _ (by rw [List.length_map]; exact Nat.le_of_eq hks)
    refine ⟨m, _, hm, hobj, ?_, ?_⟩
    · intro k
      rw [hkeys]
      exact mem_sortStrings
    · intro k hk dflt
      obtain ⟨i, hi⟩ := List.mem_iff_getElem?.1 (mem_sortStrings.2 hk)
      have hil : i < cs.length := by
        have := (List.getElem?_eq_some.1 hi).1
        omega
      have hlk := mapLookup_zip_of_get _ (cs.map some) i k (some cs[i])
        ((sortStrings_perm _).nodup_iff.2 hnd) hi (by simp [List.getElem?_eq_getElem hil])
      obtain ⟨m', cd, s1, s2, _, s4, _, _, s7, _, s9⟩ := loaded_object_member L hp hobj hlk
      rw [hm] at s1
      injection s1 with s1
      subst s1
      refine ⟨cs[i], cd, hlk, s4, s7, ?_⟩
      have e := GetObjectValue_eq L hp k dflt
      rw [hm] at e
      obtain ⟨v, hv1, _⟩ := mapLookup_of_mem_keys hk
      rw [e, s9, mapGet]
      simp only [hv1]
      rfl

/-- C16 at `{"b":1,"a":[true,null]}`: on the Array node at `/a` (address 1),
`Slice(0,5)` is the nodes at 2 and 3, whose raw values have the shapes of the
two values of `GetSlice(0,5)`; on the root the keys of `Object` are `a`, `b`. -/
theorem node_and_raw_queries_agree_witness :
    exampleDoc.WF ∧
    (∃ h, LoadValue exampleDoc = .ok h ∧ ∀ (p : Nat) (nd : Node), h[p]? = some nd →
      (nd.Typ = NodeType.Array →
        (∀ (start end_ : Int) (dflt : List (Option (List Value))), ∃ ps rs,
          Slice h (some p) start end_ = .ok (some ps) ∧
          GetSlice h (some p) start end_ dflt = .ok (some rs) ∧
          List.Forall₂ (fun ptr v => ∃ c cd, ptr = some c ∧ h[c]? = some cd ∧ cd.RawValue = v)
            ps rs) ∧
        (∀ (i : Int) (dflt : List Value), 0 ≤ i → i < arrayLen nd → ∃ c cd,
          Index h (some p) i = .ok (some c) ∧ h[c]? = some cd ∧
          GetIndex h (some p) i dflt = .ok cd.RawValue)) ∧
      (nd.Typ = NodeType.Object → ∃ m om, nd.RawValue = Value.obj m ∧ nd.Object = some om ∧
        (∀ k, k ∈ mapKeys om ↔ k ∈ mapKeys m) ∧
        ∀ k ∈ mapKeys m, ∀ (dflt : List Value), ∃ c cd, mapLookup om k = some (some c) ∧
          h[c]? = some cd ∧ cd.Key = k ∧
          GetObjectValue h (some p) k dflt = .ok cd.RawValue)) ∧
    (LoadValue exampleDoc).toOption.bind (fun h => (Slice h (some 1) 0 5).toOption)
      = some (some [some 2, some 3]) ∧
    (LoadValue exampleDoc).toOption.bind
        (fun h => (GetSlice h (some 1) 0 5 []).toOption.map (fun r => r.map (List.map shapeType)))
      = some (some [NodeType.Boolean, NodeType.Null]) ∧
    (LoadValue exampleDoc).toOption.bind
        (fun h => (h[0]?).map (fun nd => nd.Object.map mapKeys))
      = some (some [ascii "a", ascii "b"]) :=
  ⟨⟨by decide, trivial, ⟨trivial, trivial, trivial⟩, trivial⟩,
    node_and_raw_queries_agree exampleDoc
      ⟨by decide, trivial, ⟨trivial, trivial, trivial⟩, trivial⟩,
    by decide!, by decide!, by decide!⟩

/-- With the empty indent, `JsonPrettyBytes` and `JsonPretty` do what they do
with three spaces, whatever `json.Indent` computes. -/
theorem JsonPretty_default
    (jsonIndent : GoString → GoString → GoString → GoString × GoError) (bs : GoString) :
    JsonPrettyBytes jsonIndent bs [] = JsonPrettyBytes jsonIndent bs (ascii "   ") ∧
    JsonPretty jsonIndent bs [] = JsonPretty jsonIndent bs (ascii "   ") :=
  ⟨rfl, rfl⟩

/-- The function `JsonFormatObj` hands its indent to `json.MarshalIndent` as it
is: it has no default. -/
theorem JsonFormatObj_passes_indent {α : Type}
    (marshalIndent : α → GoString → GoString → GoString × GoError) (v : α)
    (indent : GoString) :
    JsonFormatObj marshalIndent v indent = marshalIndent v [] indent :=
  rfl

/-- C17 fails for `JsonFormatObj`: on the value `[]interface{}{nil}` the empty
indent gives the text `[`, `null`, `]` on three lines without indentation, the
indent of three spaces gives `null` indented by three spaces. -/
theorem JsonFormatObj_no_default :
    JsonFormatObj marshalIndentNullArray () []
      = ([91, 10, 110, 117, 108, 108, 10, 93], none) ∧
    JsonFormatObj marshalIndentNullArray () (ascii "   ")
      = ([91, 10, 32, 32, 32, 110, 117, 108, 108, 10, 93], none) ∧
    JsonFormatObj marshalIndentNullArray () []
      ≠ JsonFormatObj marshalIndentNullArray () (ascii "   ") := by
  decide

/-- C18: in the tree built from a decoded value `x` the root has `RawValue`
`x`, the element `Array[i]` of a node has the `i`-th element of the node's raw
sequence, the member `Object[k]` has the value of the node's raw map under `k`;
and the type of every node is the tag of the shape of its `RawValue`: nil gives
Null, a bool Boolean, a float64 Number, a string String, a sequence Array, a map
Object. -/
theorem type_is_shape (x : Value) (wf : x.WF) :
    ∃ h, LoadValue x = .ok h ∧
      (∃ rd, h[0]? = some rd ∧ rd.RawValue = x) ∧
      (∀ (p : Nat) (nd : Node) (a : List Ptr) (i c : Nat),
        h[p]? = some nd → nd.Array = some a → a[i]? = some (some c) →
        ∃ xs v cd, nd.RawValue = Value.arr xs ∧ xs[i]? = some v ∧ h[c]? = some cd ∧
          cd.RawValue = v) ∧
      (∀ (p : Nat) (nd : Node) (om : List (GoString × Ptr)) (k : GoString) (c : Nat),
        h[p]? = some nd → nd.Object = some om → mapLookup om k = some (some c) →
        ∃ m v cd, nd.RawValue = Value.obj m ∧ mapLookup m k = some v ∧ h[c]? = some cd ∧
          cd.RawValue = v) ∧
      (∀ (q : Nat) (nd : Node), h[q]? = some nd →
        (nd.RawValue = Value.null → nd.Typ = NodeType.Null) ∧
        (∀ b, nd.RawValue = Value.bool b → nd.Typ = NodeType.Boolean) ∧
        (∀ f, nd.RawValue = Value.num f → nd.Typ = NodeType.Number) ∧
        (∀ s, nd.RawValue = Value.str s → nd.Typ = NodeType.String) ∧
        (∀ xs, nd.RawValue = Value.arr xs → nd.Typ = NodeType.Array) ∧
        (∀ m, nd.RawValue = Value.obj m → nd.Typ = NodeType.Object)) := by
  obtain ⟨h, hload, L⟩ := LoadValue_ok x wf
  refine ⟨h, hload, ?_, ?_, ?_, ?_⟩
  · obtain ⟨rd, r1, _, _, _, _, _, _, r8⟩ := L.root
    exact ⟨rd, r1, r8⟩
  · intro p nd a i c hp ha hi
    obtain ⟨xs, v, cd, s1, _, s3, _, s5, _, _, _, _, s10⟩ := loaded_array_elem L hp ha hi
    exact ⟨xs, v, cd, s1, s3, s5, s10⟩
  · intro p nd om k c hp ho hk
    obtain ⟨m, cd, s1, s2, _, s4, _, _, _, _, s9⟩ := loaded_object_member L hp ho hk
    obtain ⟨v, hv1, _⟩ := mapLookup_of_mem_keys s2
    refine ⟨m, v, cd, s1, hv1, s4, ?_⟩
    rw [s9, mapGet, hv1]
    rfl
  · intro q nd hq
    have ht := loaded_type L hq
    refine ⟨?_, ?_, ?_, ?_, ?_, ?_⟩
    · intro e; rw [ht, e]; rfl
    · intro b e; rw [ht, e]; rfl
    · intro f e; rw [ht, e]; rfl
    · intro s e; rw [ht, e]; rfl
    · intro xs e; rw [ht, e]; rfl
    · intro m e; rw [ht, e]; rfl

/-- C18 at `{"b":1,"a":[true,null]}`: the types of the nodes `/`, `/a`,
`/a[0]`, `/a[1]`, `/b` are Object, Array, Boolean, Null, Number. -/
theorem type_is_shape_witness :
    exampleDoc.WF ∧
    (∃ h, LoadValue exampleDoc = .ok h ∧
      (∃ rd, h[0]? = some rd ∧ rd.RawValue = exampleDoc) ∧
      (∀ (p : Nat) (nd : Node) (a : List Ptr) (i c : Nat),
        h[p]? = some nd → nd.Array = some a → a[i]? = some (some c) →
        ∃ xs v cd, nd.RawValue = Value.arr xs ∧ xs[i]? = some v ∧ h[c]? = some cd ∧
          cd.RawValue = v) ∧
      (∀ (p : Nat) (nd : Node) (om : List (GoString × Ptr)) (k : GoString) (c : Nat),
        h[p]? = some nd → nd.Object = some om → mapLookup om k = some (some c) →
        ∃ m v cd, nd.RawValue = Value.obj m ∧ mapLookup m k = some v ∧ h[c]? = some cd ∧
          cd.RawValue = v) ∧
      (∀ (q : Nat) (nd : Node), h[q]? = some nd →
        (nd.RawValue = Value.null → nd.Typ = NodeType.Null) ∧
        (∀ b, nd.RawValue = Value.bool b → nd.Typ = NodeType.Boolean) ∧
        (∀ f, nd.RawValue = Value.num f → nd.Typ = NodeType.Number) ∧
        (∀ s, nd.RawValue = Value.str s → nd.Typ = NodeType.String) ∧
        (∀ xs, nd.RawValue = Value.arr xs → nd.Typ = NodeType.Array) ∧
        (∀ m, nd.RawValue = Value.obj m → nd.Typ = NodeType.Object))) ∧
    (LoadValue exampleDoc).toOption.map (fun h => h.map Node.Typ)
      = some [NodeType.Object, NodeType.Array, NodeType.Boolean, NodeType.Null,
          NodeType.Number] :=
  ⟨⟨by decide, trivial, ⟨trivial, trivial, trivial⟩, trivial⟩,
    type_is_shape exampleDoc ⟨by decide, trivial, ⟨trivial, trivial, trivial⟩, trivial⟩,
    by decide!⟩

/-- C19: the children of every node `p` of a loaded tree form a doubly linked
list.  The walk `FirstChild`, `NextSibling`, ... ends with a list `cs`, as long
as the raw sequence or map of `p` (empty for a scalar); `FirstChild` and
`LastChild` are the first and the last node of `cs`, so both are nil exactly
when `p` has no children; the node at position `i` has `Parent` `p`, the
node before it as `PrevSibling` (nil for the first) and the node after it as
`NextSibling` (nil for the last); and when `b` is the `NextSibling` of a child
`a`, `a` is the `PrevSibling` of `b`. -/
theorem children_doubly_linked (x : Value) (wf : x.WF) :
    ∃ h, LoadValue x = .ok h ∧ ∀ (p : Nat) (nd : Node), h[p]? = some nd →
      ∃ cs, children h nd = some cs ∧
        (cs.length = match nd.RawValue with
          | .arr xs => xs.length
          | .obj m => m.length
          | _ => 0) ∧
        nd.FirstChild = cs.head? ∧ nd.LastChild = cs.getLast? ∧
        (nd.FirstChild = none ↔ cs = []) ∧ (nd.LastChild = none ↔ cs = []) ∧
        (∀ (i c : Nat), cs[i]? = some c → ∃ cd, h[c]? = some cd ∧ cd.Parent = some p ∧
          cd.PrevSibling = (if i = 0 then none else cs[i - 1]?) ∧
          cd.NextSibling = cs[i + 1]?) ∧
        (∀ (a b : Nat) (ad : Node), a ∈ cs → h[a]? = some ad → ad.NextSibling = some b →
          ∃ bd, b ∈ cs ∧ h[b]? = some bd ∧ bd.PrevSibling = some a) := by
  obtain ⟨h, hload, L⟩ := LoadValue_ok x wf
  refine ⟨h, hload, ?_⟩
  intro p nd hp
  obtain ⟨cs, c1, _, _, _, c5, c6, c7⟩ := nodeOK_children (L.node p nd hp)
  have hlen := chain_length_eq c7
  rw [childSpecs_length] at hlen
  refine ⟨cs, c1, hlen, c5, c6, ?_, ?_, ?_, ?_⟩
  · rw [c5]; cases cs <;> simp
  · rw [c6]
    cases cs with
    | nil => simp
    | cons c cs => simp [List.getLast?_eq_getLast]
  · intro i c hi
    exact chain_links c7 i c hi
  · intro a b ad ha had hnext
    obtain ⟨i, hi⟩ := List.mem_iff_getElem?.1 ha
    obtain ⟨cd, h1, _, _, h4⟩ := chain_links c7 i a hi
    rw [had] at h1
    injection h1 with h1
    subst h1
    rw [hnext] at h4
    obtain ⟨bd, g1, _, g3, _⟩ := chain_links c7 (i + 1) b h4.symm
    refine ⟨bd, List.getElem?_mem h4.symm, g1, ?_⟩
    rw [g3]
    simpa using hi

/-- C19 at `{"b":1,"a":[true,null]}`: the pointers `FirstChild`, `LastChild`,
`PrevSibling`, `NextSibling` of the nodes `/`, `/a`, `/a[0]`, `/a[1]`, `/b`. -/
theorem children_doubly_linked_witness :
    exampleDoc.WF ∧
    (∃ h, LoadValue exampleDoc = .ok h ∧ ∀ (p : Nat) (nd : Node), h[p]? = some nd →
      ∃ cs, children h nd = some cs ∧
        (cs.length = match nd.RawValue with
          | .arr xs => xs.length
          | .obj m => m.length
          | _ => 0) ∧
        nd.FirstChild = cs.head? ∧ nd.LastChild = cs.getLast? ∧
        (nd.FirstChild = none ↔ cs = []) ∧ (nd.LastChild = none ↔ cs = []) ∧
        (∀ (i c : Nat), cs[i]? = some c → ∃ cd, h[c]? = some cd ∧ cd.Parent = some p ∧
          cd.PrevSibling = (if i = 0 then none else cs[i - 1]?) ∧
          cd.NextSibling = cs[i + 1]?) ∧
        (∀ (a b : Nat) (ad : Node), a ∈ cs → h[a]? = some ad → ad.NextSibling = some b →
          ∃ bd, b ∈ cs ∧ h[b]? = some bd ∧ bd.PrevSibling = some a)) ∧
    (LoadValue exampleDoc).toOption.map
        (fun h => h.map (fun nd =>
          (nd.FirstChild, nd.LastChild, nd.PrevSibling, nd.NextSibling)))
      = some [(some 1, some 4, none, none), (some 2, some 3, none, some 4),
          (none, none, none, some 3), (none, none, some 2, none),
          (none, none, some 1, none)] :=
  ⟨⟨by decide, trivial, ⟨trivial, trivial, trivial⟩, trivial⟩,
    children_doubly_linked exampleDoc
      ⟨by decide, trivial, ⟨trivial, trivial, trivial⟩, trivial⟩,
    by decide!⟩

/-- C20: when no object key of the decoded value, at any depth, is empty or
contains `/` or `[`, the map from the nodes of the tree built from it to their
`Path` strings is injective: two nodes with the same `Path` are the same node,
so distinct nodes have different paths. -/
theorem path_injective_of_plain_keys (x : Value) (wf : x.WF) (hk : x.KeysOK) :
    ∃ h, LoadValue x = .ok h ∧ ∀ (p q : Nat) (pd qd : Node),
      h[p]? = some pd → h[q]? = some qd → (pd.Path = qd.Path ↔ p = q) := by
  obtain ⟨h, hload, L⟩ := LoadValue_ok x wf
  refine ⟨h, hload, ?_⟩
  intro p q pd qd hp hq
  constructor
  · exact loaded_path_injective L hk p q pd qd hp hq
  · intro e
    subst e
    rw [hp] at hq
    injection hq with hq
    rw [hq]

/-- C20 at `{"b":1,"a":[true,null]}`, whose keys are `b` and `a`: the five
paths are pairwise distinct. -/
theorem path_injective_of_plain_keys_witness :
    exampleDoc.WF ∧ exampleDoc.KeysOK ∧
    (∃ h, LoadValue exampleDoc = .ok h ∧ ∀ (p q : Nat) (pd qd : Node),
      h[p]? = some pd → h[q]? = some qd → (pd.Path = qd.Path ↔ p = q)) ∧
    (LoadValue exampleDoc).toOption.map (fun h => decide (allPaths h).Nodup) = some true :=
  ⟨⟨by decide, trivial, ⟨trivial, trivial, trivial⟩, trivial⟩,
    ⟨by decide, trivial, ⟨trivial, trivial, trivial⟩, trivial⟩,
    path_injective_of_plain_keys exampleDoc
      ⟨by decide, trivial, ⟨trivial, trivial, trivial⟩, trivial⟩
      ⟨by decide, trivial, ⟨trivial, trivial, trivial⟩, trivial⟩,
    by decide!⟩

end Zjson
